import Mathlib

/-!
Verification of the crawl core of the projectx reference crawler.

The definitions below are a shallow embedding of the Python sources
`crawler_components.py` and `crawler_advanced.py`: URL normalization and
admission (`UrlFilter`), the rate-limited fetcher (`Fetcher`), the
change-detection cache (`CrawlCache`), the content repository
(`ContentRepository`) and the orchestrator's frontier bookkeeping
(`AsyncCrawler`).  Strings are manipulated as `List Char` in the URL layer
(named `Str` below) and as `String` elsewhere.  External libraries used by
the source (urllib, hashlib, difflib, requests) are embedded at the level
the source uses them: urllib's parsing/quoting functions are modelled in
full, while the SHA-256 digest and the unified-diff routine are abstracted
as function parameters, since no verified property depends on their
internals.
-/

set_option maxHeartbeats 1000000
set_option maxRecDepth 10000

abbrev Str := List Char

/-- Membership-preserving insertion used to model Python `set.add`:
append the element if it is not already present. -/
def insertSet (l : List String) (u : String) : List String :=
  if u ∈ l then l else l ++ [u]

/-- Lookup in an association list (first match), modelling dict/row lookup. -/
def lookupAssoc {α : Type} (l : List (String × α)) (k : String) : Option α :=
  match l with
  | [] => none
  | (k0, v0) :: rest => if k0 = k then some v0 else lookupAssoc rest k

/-- Replace the value stored under a key in an association list
(all matching rows, as a SQL `UPDATE ... WHERE url = ?` would). -/
def updateAssoc {α : Type} (l : List (String × α)) (k : String) (v : α) :
    List (String × α) :=
  l.map (fun p => if p.1 = k then (k, v) else p)

/-- Python dict assignment `d[k] = v`: overwrite in place if the key exists,
otherwise append at the end (dicts preserve insertion order). -/
def dictSet {α : Type} (l : List (String × α)) (k : String) (v : α) :
    List (String × α) :=
  if k ∈ l.map Prod.fst then updateAssoc l k v else l ++ [(k, v)]

/-!
URL character-level machinery, modelling the parts of `urllib.parse` used by
`UrlFilter.normalize_url` and `UrlFilter.should_crawl`
(`crawler_components.py` lines 102-165): `urljoin`, `urlparse`, `parse_qs`,
`urlencode(..., doseq=True)` and the percent/plus quoting they rely on.
-/

/-- UTF-8 encoding of a character, as the byte values `quote` percent-encodes. -/
def utf8Bytes (c : Char) : List Nat :=
  let n := c.toNat
  if n < 0x80 then [n]
  else if n < 0x800 then [0xC0 + n / 64, 0x80 + n % 64]
  else if n < 0x10000 then [0xE0 + n / 4096, 0x80 + n / 64 % 64, 0x80 + n % 64]
  else [0xF0 + n / 262144, 0x80 + n / 4096 % 64, 0x80 + n / 64 % 64, 0x80 + n % 64]

/-- Unicode replacement character, produced by `errors='replace'` decoding. -/
def replChar : Char := Char.ofNat 0xFFFD

/-- Valid Unicode scalar value test. -/
def validCp (n : Nat) : Bool := decide (n < 0xD800 ∨ (0xE000 ≤ n ∧ n < 0x110000))

/-- Character from a code point, replacement character if out of range. -/
def mkCp (n : Nat) : Char := if validCp n then Char.ofNat n else replChar

/-- UTF-8 continuation byte test. -/
def isContByte (b : Nat) : Bool := 0x80 ≤ b && b < 0xC0

/-- Fuel-bounded worker for `utf8Decode`; the fuel only serves structural
recursion and is immaterial once it reaches the list length. -/
def utf8DecodeF : Nat → List Nat → List Char
  | 0, _ => []
  | _ + 1, [] => []
  | n + 1, b :: bs =>
    if b < 0x80 then mkCp b :: utf8DecodeF n bs
    else if b < 0xC2 then replChar :: utf8DecodeF n bs
    else if b < 0xE0 then
      match bs with
      | b1 :: rest =>
        if isContByte b1 then
          mkCp ((b - 0xC0) * 64 + (b1 - 0x80)) :: utf8DecodeF n rest
        else replChar :: utf8DecodeF n bs
      | [] => [replChar]
    else if b < 0xF0 then
      match bs with
      | b1 :: b2 :: rest =>
        if isContByte b1 && isContByte b2 then
          let m := (b - 0xE0) * 4096 + (b1 - 0x80) * 64 + (b2 - 0x80)
          (if m < 0x800 then replChar else mkCp m) :: utf8DecodeF n rest
        else replChar :: utf8DecodeF n bs
      | _ => [replChar]
    else if b < 0xF5 then
      match bs with
      | b1 :: b2 :: b3 :: rest =>
        if isContByte b1 && isContByte b2 && isContByte b3 then
          let m := (b - 0xF0) * 262144 + (b1 - 0x80) * 4096 + (b2 - 0x80) * 64
                     + (b3 - 0x80)
          (if m < 0x10000 || decide (0x110000 ≤ m) then replChar else mkCp m)
            :: utf8DecodeF n rest
        else replChar :: utf8DecodeF n bs
      | _ => [replChar]
    else replChar :: utf8DecodeF n bs

/-- Strict UTF-8 decoding with replacement characters on errors, as
`bytes.decode('utf-8', errors='replace')` inside `unquote`. -/
def utf8Decode (l : List Nat) : List Char := utf8DecodeF l.length l

/-- Characters `quote` never encodes (`_ALWAYS_SAFE` with the default empty
`safe` argument): ASCII letters, digits, and `_.-~`. -/
def isSafeChar (c : Char) : Bool :=
  c.isAlphanum || c = '_' || c = '.' || c = '-' || c = '~'

/-- Uppercase hexadecimal digit for a value below 16. -/
def hexDigitUpper (n : Nat) : Char :=
  if n < 10 then Char.ofNat (48 + n) else Char.ofNat (55 + n)

/-- Percent-escape of one byte, uppercase hex as `quote` emits. -/
def pctEncByte (b : Nat) : Str := ['%', hexDigitUpper (b / 16), hexDigitUpper (b % 16)]

/-- Token a single character contributes to `quote_plus` output. -/
def quoteChar (c : Char) : Str :=
  if c = ' ' then ['+']
  else if isSafeChar c then [c]
  else ((utf8Bytes c).map pctEncByte).flatten

/-- The `urllib.parse.quote_plus` function with default arguments. -/
def quotePlus (s : Str) : Str := (s.map quoteChar).flatten

/-- Hexadecimal digit test (both cases), as `unquote` accepts. -/
def isHexCh (c : Char) : Bool :=
  ('0' ≤ c && c ≤ '9') || ('A' ≤ c && c ≤ 'F') || ('a' ≤ c && c ≤ 'f')

/-- Value of a hexadecimal digit. -/
def hexVal (c : Char) : Nat :=
  if c ≤ '9' then c.toNat - 48 else if c ≤ 'F' then c.toNat - 55 else c.toNat - 87

/-- Tokenization step of `unquote`: a valid `%XX` escape becomes a byte,
an invalid `%` stays a literal character. -/
def unqTokens : Str → List (Char ⊕ Nat)
  | '%' :: h1 :: h2 :: rest =>
    if isHexCh h1 && isHexCh h2 then
      Sum.inr (hexVal h1 * 16 + hexVal h2) :: unqTokens rest
    else Sum.inl '%' :: unqTokens (h1 :: h2 :: rest)
  | c :: rest => Sum.inl c :: unqTokens rest
  | [] => []

/-- Assembly step of `unquote`: maximal runs of escaped bytes are decoded
together as UTF-8, literal characters pass through. -/
def unqFlush : List (Char ⊕ Nat) → List Nat → Str
  | [], acc => utf8Decode acc
  | Sum.inl c :: ts, acc => utf8Decode acc ++ c :: unqFlush ts []
  | Sum.inr b :: ts, acc => unqFlush ts (acc ++ [b])

/-- The `urllib.parse.unquote` function (UTF-8, errors replaced). -/
def unquoteL (s : Str) : Str := unqFlush (unqTokens s) []

/-- Plus-to-space replacement performed by `unquote_plus` before `unquote`. -/
def plusToSpace (c : Char) : Char := if c = '+' then ' ' else c

/-- The `urllib.parse.unquote_plus` function. -/
def unquotePlus (s : Str) : Str := unquoteL (s.map plusToSpace)

/-- Split a character list at every occurrence of a separator, like
Python `str.split(sep)`; the result is never empty. -/
def splitOnChar (sep : Char) : Str → List Str
  | [] => [[]]
  | c :: rest =>
    match splitOnChar sep rest with
    | [] => [[]]
    | h :: t => if c = sep then [] :: h :: t else (c :: h) :: t

/-- Join character lists with a separator, like Python `sep.join(...)`. -/
def joinSep (sep : Char) : List Str → Str
  | [] => []
  | [x] => x
  | x :: y :: t => x ++ sep :: joinSep sep (y :: t)

/-- Break a character list at the first occurrence of a separator, like
Python `str.split(sep, 1)`; `none` when the separator is absent. -/
def breakAtChar (sep : Char) : Str → Str × Option Str
  | [] => ([], none)
  | c :: rest =>
    if c = sep then ([], some rest)
    else
      match breakAtChar sep rest with
      | (pre, post) => (c :: pre, post)

/-- One `name=value` field of `parse_qsl` with default arguments: fields
without `=` or with an empty raw value are dropped, both parts unquoted. -/
def parseField (f : Str) : Option (Str × Str) :=
  if f = [] then none
  else
    match breakAtChar '=' f with
    | (_, none) => none
    | (name, some value) =>
      if value = [] then none else some (unquotePlus name, unquotePlus value)

/-- The `urllib.parse.parse_qsl` function with default arguments. -/
def parseQsl (q : Str) : List (Str × Str) := (splitOnChar '&' q).filterMap parseField

/-- Append a value under a key in a dict of lists, keys kept in
first-occurrence order, as the dict building inside `parse_qs`. -/
def dictAppend (g : List (Str × List Str)) (k : Str) (v : Str) :
    List (Str × List Str) :=
  if k ∈ g.map Prod.fst then
    g.map (fun p => if p.1 = k then (p.1, p.2 ++ [v]) else p)
  else g ++ [(k, [v])]

/-- Group a pair list into a dict of lists, as `parse_qs` does. -/
def groupPairs (ps : List (Str × Str)) : List (Str × List Str) :=
  ps.foldl (fun g p => dictAppend g p.1 p.2) []

/-- The `urllib.parse.parse_qs` function with default arguments. -/
def parseQs (q : Str) : List (Str × List Str) := groupPairs (parseQsl q)

/-- The `urllib.parse.urlencode` function with `doseq=True` on a dict of
value lists: every key/value pair is quoted and joined with `&`. -/
def urlencodeDoseq (l : List (Str × List Str)) : Str :=
  joinSep '&'
    ((l.map (fun p => p.2.map (fun v => quotePlus p.1 ++ '=' :: quotePlus v))).flatten)

/-- Prefix test on character lists. -/
def listStartsWith : Str → Str → Bool
  | [], _ => true
  | _ :: _, [] => false
  | p :: ps, c :: cs => p = c && listStartsWith ps cs

/-- Tracking-parameter test of `normalize_url`: keys starting with `utm_`
or equal to `fbclid`, `gclid`, `ref` are removed. -/
def isTrackingKey (k : Str) : Bool :=
  listStartsWith "utm_".data k || k = "fbclid".data || k = "gclid".data
    || k = "ref".data

/-- Components produced by `urllib.parse.urlsplit` (the `params` component of
`urlparse` is kept inside `path`, where `geturl` re-joins it verbatim). -/
structure UrlParts where
  scheme : Str
  netloc : Str
  path : Str
  query : Str
  fragment : Str
deriving DecidableEq

/-- Characters allowed after the first one in a URL scheme. -/
def isSchemeChar (c : Char) : Bool := c.isAlphanum || c = '+' || c = '-' || c = '.'

/-- ASCII lowercasing of a character list, like `str.lower()` on URL text. -/
def lowerStr (s : Str) : Str := s.map Char.toLower

/-- Scheme detection of `urlsplit`: text before the first `:` must be
nonempty, start with a letter and consist of scheme characters; the scheme
is lowercased. -/
def splitSchemeCandidate (l : Str) : Option (Str × Str) :=
  match breakAtChar ':' l with
  | (pre, some rest) =>
    match pre with
    | [] => none
    | c0 :: crest =>
      if c0.isAlpha && crest.all isSchemeChar then some (lowerStr (c0 :: crest), rest)
      else none
  | (_, none) => none

/-- Netloc extraction of `urlsplit`: characters up to the first `/`, `?`
or `#`, the delimiter kept in the remainder. -/
def takeNetloc : Str → Str × Str
  | [] => ([], [])
  | c :: rest =>
    if c = '/' || c = '?' || c = '#' then ([], c :: rest)
    else
      match takeNetloc rest with
      | (n, r) => (c :: n, r)

/-- Removal of tab, CR and LF performed by `urlsplit` before parsing. -/
def stripUnsafe (l : Str) : Str := l.filter (fun c => !(c = '\t' || c = '\r' || c = '\n'))

/-- The `urllib.parse.urlsplit` function with a default scheme (which
`urljoin` passes as the base scheme) and `allow_fragments=True`. -/
def urlsplitCore (defaultScheme : Str) (l0 : Str) : UrlParts :=
  let l := stripUnsafe l0
  let sr :=
    match splitSchemeCandidate l with
    | some (s, r) => (s, r)
    | none => (defaultScheme, l)
  let nr :=
    match sr.2 with
    | '/' :: '/' :: r2 => takeNetloc r2
    | _ => ([], sr.2)
  let bf := breakAtChar '#' nr.2
  let pq := breakAtChar '?' bf.1
  ⟨sr.1, nr.1, pq.1, (pq.2).getD [], (bf.2).getD []⟩

/-- The `urllib.parse.urlunsplit` function. -/
def urlunsplitStr (p : UrlParts) : Str :=
  let url := p.path
  let url :=
    if p.netloc ≠ [] ∨ (url ≠ [] ∧ listStartsWith "//".data url) then
      let url2 := if url ≠ [] ∧ url.head? ≠ some '/' then '/' :: url else url
      '/' :: '/' :: (p.netloc ++ url2)
    else url
  let url := if p.scheme ≠ [] then p.scheme ++ ':' :: url else url
  let url := if p.query ≠ [] then url ++ '?' :: p.query else url
  if p.fragment ≠ [] then url ++ '#' :: p.fragment else url

/-- Schemes that allow relative joining (`urllib.parse.uses_relative`). -/
def usesRelative : List Str :=
  (["", "ftp", "http", "gopher", "nntp", "imap", "wais", "file", "https",
    "shttp", "mms", "prospero", "rtsp", "rtspu", "sftp", "svn", "svn+ssh",
    "ws", "wss"]).map String.data

/-- Schemes that use a network location (`urllib.parse.uses_netloc`). -/
def usesNetloc : List Str :=
  (["", "ftp", "http", "gopher", "nntp", "telnet", "imap", "wais", "file",
    "mms", "https", "shttp", "snews", "prospero", "rtsp", "rtspu", "rsync",
    "svn", "svn+ssh", "sftp", "nfs", "git", "git+ssh", "ws", "wss"]).map
    String.data

/-- Middle filtering of `urljoin`'s segment list: `segments[1:-1]` loses its
empty entries while the first and last segments are kept. -/
def filterMid : List Str → List Str
  | [] => []
  | [x] => [x]
  | x :: rest =>
    x :: ((rest.dropLast.filter (fun s => s ≠ [])) ++
      (match rest.getLast? with
       | some y => [y]
       | none => []))

/-- Dot-segment resolution of `urljoin`: `..` pops (silently on empty),
`.` vanishes, a trailing `.` or `..` leaves a trailing empty segment; the
joined result falls back to `/` when empty. -/
def joinResolve (segments : List Str) : Str :=
  let resolved := segments.foldl
    (fun acc seg =>
      if seg = ".".data then acc
      else if seg = "..".data then acc.dropLast
      else acc ++ [seg]) ([] : List Str)
  let resolved :=
    if segments.getLast? = some ".".data ∨ segments.getLast? = some "..".data then
      resolved ++ [[]]
    else resolved
  let j := joinSep '/' resolved
  if j = [] then ['/'] else j

/-- The `urllib.parse.urljoin` function. -/
def urljoinStr (base url : Str) : Str :=
  if base = [] then url
  else if url = [] then base
  else
    let b := urlsplitCore [] base
    let u := urlsplitCore b.scheme url
    if u.scheme ≠ b.scheme ∨ u.scheme ∉ usesRelative then url
    else if u.scheme ∈ usesNetloc ∧ u.netloc ≠ [] then
      urlunsplitStr ⟨u.scheme, u.netloc, u.path, u.query, u.fragment⟩
    else
      let netloc := if u.scheme ∈ usesNetloc then b.netloc else u.netloc
      if u.path = [] then
        urlunsplitStr ⟨u.scheme, netloc, b.path,
          (if u.query = [] then b.query else u.query), u.fragment⟩
      else
        let baseParts := splitOnChar '/' b.path
        let baseParts :=
          match baseParts.getLast? with
          | some s => if s = [] then baseParts else baseParts.dropLast
          | none => baseParts
        let segments :=
          if u.path.head? = some '/' then splitOnChar '/' u.path
          else filterMid (baseParts ++ splitOnChar '/' u.path)
        urlunsplitStr ⟨u.scheme, netloc, joinResolve segments, u.query, u.fragment⟩

/-- The body of `UrlFilter.normalize_url` (`crawler_components.py` 102-129):
join with the base, drop the fragment, optionally rebuild the query without
tracking parameters, and strip one trailing slash.  The flag mirrors
`config.normalize_urls`. -/
def normalizeUrlL (baseUrl : Str) (normalizeFlag : Bool) (url : Str) : Str :=
  let n := urljoinStr baseUrl url
  let n := (breakAtChar '#' n).1
  let n :=
    if normalizeFlag then
      let parsed := urlsplitCore [] n
      if parsed.query ≠ [] then
        let params := parseQs parsed.query
        let params := params.filter (fun p => !(isTrackingKey p.1))
        let normalizedQuery := urlencodeDoseq params
        urlunsplitStr ⟨parsed.scheme, parsed.netloc, parsed.path,
          normalizedQuery, parsed.fragment⟩
      else n
    else n
  if n.getLast? = some '/' then n.dropLast else n

/-- The default `static_extensions` set of `CrawlerConfig`. -/
def staticExtensions : List Str :=
  ([".jpg", ".jpeg", ".png", ".gif", ".svg", ".css", ".js", ".pdf", ".zip",
    ".tar", ".gz", ".mp3", ".mp4", ".avi", ".mov", ".webm", ".webp",
    ".ico"]).map String.data

/-- Suffix test on character lists. -/
def listEndsWith (suf s : Str) : Bool := listStartsWith suf.reverse s.reverse

/-- Literal alternatives of the `exclude_patterns` regexes of `UrlFilter`:
each regex is `\/word(?:\/|$)` for one of these words (with
`/wp-content/cache` and `/wp-content/uploads` spelled out). -/
def excludeWords : List Str :=
  (["/calendar", "/login", "/logout", "/signup", "/register",
    "/password-reset", "/feed", "/wp-admin", "/wp-content/cache",
    "/wp-content/uploads", "/cart", "/checkout", "/my-account"]).map
    String.data

/-- Match of one deny-list alternative at the head of a text: the word
followed by `/` or the end of the string. -/
def matchWordAt (w l : Str) : Bool :=
  listStartsWith w l &&
    (match l.drop w.length with
     | [] => true
     | c :: _ => c = '/')

/-- Search of one deny-list alternative anywhere in a text, as `re.search`
over the alternation does. -/
def searchWord (w : Str) : Str → Bool
  | [] => matchWordAt w []
  | c :: rest => matchWordAt w (c :: rest) || searchWord w rest

/-- Semantics of `self.exclude_regex.search(path)`: some alternative of the
deny list occurs in the path followed by `/` or the end. -/
def excludeRegexSearch (path : Str) : Bool :=
  excludeWords.any (fun w => searchWord w path)

/-- Schemes whose URLs may carry `;parameters` in the last path segment
(`urllib.parse.uses_params`). -/
def usesParams : List Str :=
  (["", "ftp", "hdl", "prospero", "http", "imap", "https", "shttp", "rtsp",
    "rtspu", "sip", "sips", "mms", "sftp", "tel"]).map String.data

/-- The path part returned by `urllib.parse._splitparams`: the text before
the first `;` of the last `/`-separated segment (before the first `;` of
the whole text when it holds no `/`), the earlier segments untouched. -/
def splitparamsPath (p : Str) : Str :=
  let parts := splitOnChar '/' p
  joinSep '/' (parts.dropLast ++ [(breakAtChar ';' (parts.getLast?.getD [])).1])

/-- The `path` attribute of `urllib.parse.urlparse`: the `urlsplit` path
with `;parameters` split off its last segment when the scheme uses
parameters. -/
def urlparsePath (parts : UrlParts) : Str :=
  if parts.scheme ∈ usesParams ∧ ';' ∈ parts.path then splitparamsPath parts.path
  else parts.path

/-- The body of `UrlFilter.should_crawl` (`crawler_components.py` 131-165):
reject empty input, normalize, then reject other domains, static-extension
paths, `mailto:`/`tel:` links and deny-listed paths.  The extension and
deny-list checks read `urlparse(url).path`, the params-stripped path. -/
def shouldCrawlL (baseUrl : Str) (normalizeFlag : Bool) (url : Str) : Bool :=
  if url = [] then false
  else
    let baseDomain := (urlsplitCore [] baseUrl).netloc
    let u := normalizeUrlL baseUrl normalizeFlag url
    let parsedUrl := urlsplitCore [] u
    if parsedUrl.netloc ≠ baseDomain then false
    else
      let ppath := urlparsePath parsedUrl
      let path := lowerStr ppath
      if staticExtensions.any (fun ext => listEndsWith ext path) then false
      else if listStartsWith "mailto:".data u then false
      else if listStartsWith "tel:".data u then false
      else if excludeRegexSearch ppath then false
      else true

/-- String-level `UrlFilter.normalize_url` with `normalize_urls=True`,
the configuration default. -/
def normalizeUrl (baseUrl url : String) : String :=
  ⟨normalizeUrlL baseUrl.data true url.data⟩

/-- String-level `UrlFilter.should_crawl` with `normalize_urls=True`. -/
def shouldCrawl (baseUrl url : String) : Bool :=
  shouldCrawlL baseUrl.data true url.data

/-!
Change-detection cache (`CrawlCache`, `crawler_components.py` 1144-1365).
The SQLite `pages` table is modelled as an association list keyed by URL
(the primary key), and `hashlib.sha256(...).hexdigest()` as an abstract
function parameter `hash`, since the verified properties hold for every
digest function.  Row timestamps (`datetime.now().isoformat()`) are passed
in explicitly as `now`.
-/

/-- One row of the `pages` table. -/
structure CacheRow where
  title : String
  contentHash : String
  etag : Option String
  lastModified : Option String
  lastCrawled : String
  markdownContent : String
  metaDescription : String
  statusCode : Nat
deriving DecidableEq

/-- The persisted page table, keyed by URL. -/
abbrev Cache := List (String × CacheRow)

/-- A `page_data` dict as the crawl pipeline passes it around; optional keys
carry the defaults used by the `dict.get` calls that read them. -/
structure PageData where
  url : String
  title : String
  markdownContent : String := ""
  metaDescription : String := ""
  etag : Option String := none
  lastModified : Option String := none
  statusCode : Nat := 200
deriving DecidableEq

/-- The row `add_or_update_page` builds from a `page_data` dict: the markdown
content is hashed and the crawl timestamp is stamped in. -/
def mkCacheRow (hash : String → String) (now : String) (pd : PageData) :
    CacheRow :=
  ⟨pd.title, hash pd.markdownContent, pd.etag, pd.lastModified, now,
    pd.markdownContent, pd.metaDescription, pd.statusCode⟩

/-- The `CrawlCache.add_or_update_page` method: build the row, then UPDATE
if the URL exists else INSERT; returns whether a prior row existed. -/
def addOrUpdatePage (hash : String → String) (now : String) (c : Cache)
    (pd : PageData) : Bool × Cache :=
  let row := mkCacheRow hash now pd
  match lookupAssoc c pd.url with
  | some _ => (true, updateAssoc c pd.url row)
  | none => (false, c ++ [(pd.url, row)])

/-- The `CrawlCache.is_content_changed` method: a URL with no row counts as
changed, otherwise the new digest is compared with the stored one. -/
def isContentChanged (hash : String → String) (c : Cache) (url : String)
    (markdownContent : String) : Bool :=
  match lookupAssoc c url with
  | none => true
  | some row => hash markdownContent ≠ row.contentHash

/-- The `CrawlCache.get_diff` method, with `difflib.unified_diff` abstracted
as the `diffFn` parameter; the sentinel strings are those of the source. -/
def getDiff (diffFn : String → String → String) (c : Cache) (url : String)
    (currentContent : String) : String :=
  match lookupAssoc c url with
  | none => "新規ページ"
  | some row =>
    if row.markdownContent = "" then "前回のコンテンツが空"
    else diffFn row.markdownContent currentContent

/-- The `CrawlCache.get_all_urls` method: the persisted key set. -/
def getAllUrls (c : Cache) : List String := c.map Prod.fst

/-- The `CrawlCache.delete_urls` method: remove the given URLs' rows
(no-op on an empty list, as the early return does). -/
def deleteUrls (c : Cache) (urls : List String) : Cache :=
  if urls = [] then c else c.filter (fun r => r.1 ∉ urls)

/-!
Content repository (`ContentRepository`, `crawler_components.py` 1077-1141).
`contents` is a dict keyed by URL, `urls_by_status` holds one set per fixed
status, and the metadata counters mirror the dict entries touched by `add`
(the wall-clock `start_time`/`end_time` strings are not modelled: no claim
concerns them).
-/

structure Repo where
  contents : List (String × PageData)
  successUrls : List String
  errorUrls : List String
  skippedUrls : List String
  totalUrls : Nat
  successCount : Nat
  errorCount : Nat
  skippedCount : Nat
deriving DecidableEq

/-- The freshly constructed repository. -/
def Repo.init : Repo := ⟨[], [], [], [], 0, 0, 0, 0⟩

/-- The `ContentRepository.add` method: store under the URL, add the URL to
the per-status set when the status is a known one, bump `total_urls` and the
matching `..._count` entry. -/
def Repo.add (r : Repo) (pd : PageData) (status : String) : Repo :=
  { contents := dictSet r.contents pd.url pd
    successUrls := if status = "success" then insertSet r.successUrls pd.url
                   else r.successUrls
    errorUrls := if status = "error" then insertSet r.errorUrls pd.url
                 else r.errorUrls
    skippedUrls := if status = "skipped" then insertSet r.skippedUrls pd.url
                   else r.skippedUrls
    totalUrls := r.totalUrls + 1
    successCount := if status = "success" then r.successCount + 1
                    else r.successCount
    errorCount := if status = "error" then r.errorCount + 1 else r.errorCount
    skippedCount := if status = "skipped" then r.skippedCount + 1
                    else r.skippedCount }

/-- The `ContentRepository.count` method. -/
def Repo.count (r : Repo) : Nat := r.contents.length

/-- The `ContentRepository.get` method. -/
def Repo.get (r : Repo) (url : String) : Option PageData :=
  lookupAssoc r.contents url

/-- The URL set of one status, as `get_urls_by_status` returns it. -/
def Repo.urlsByStatus (r : Repo) (status : String) : List String :=
  if status = "success" then r.successUrls
  else if status = "error" then r.errorUrls
  else if status = "skipped" then r.skippedUrls
  else []

/-!
Diff detection inside `AsyncCrawler._process_url`
(`crawler_advanced.py` 494-511) and the post-crawl deleted-page step of
`AsyncCrawler.crawl` (`crawler_advanced.py` 341-349).
-/

/-- Diff bookkeeping of the crawler: `new_pages`, `updated_pages` and
`page_diffs`. -/
structure DiffTrack where
  newPages : List String
  updatedPages : List String
  pageDiffs : List (String × String)
deriving DecidableEq

/-- The diff-detection block executed on the success path of
`_process_url`: read the markdown, upsert the cache, and only then consult
`is_content_changed`/`get_diff` on an update, or record a new page. -/
def diffDetectStep (hash : String → String) (diffFn : String → String → String)
    (now : String) (c : Cache) (t : DiffTrack) (pd : PageData) :
    Cache × DiffTrack :=
  let markdownContent := pd.markdownContent
  let upsert := addOrUpdatePage hash now c pd
  let isUpdate := upsert.1
  let c2 := upsert.2
  if isUpdate then
    if isContentChanged hash c2 pd.url markdownContent then
      (c2, { t with
              updatedPages := t.updatedPages ++ [pd.url],
              pageDiffs := dictSet t.pageDiffs pd.url
                (getDiff diffFn c2 pd.url markdownContent) })
    else (c2, t)
  else (c2, { t with newPages := t.newPages ++ [pd.url] })

/-- The intended ordering described by the specification: consult
`is_content_changed`/`get_diff` against the previous generation's row first
and upsert afterwards.  Stated only to witness the divergence of
`diffDetectStep` from it. -/
def diffDetectStepSpec (hash : String → String)
    (diffFn : String → String → String) (now : String) (c : Cache)
    (t : DiffTrack) (pd : PageData) : Cache × DiffTrack :=
  let markdownContent := pd.markdownContent
  let priorExists := (lookupAssoc c pd.url).isSome
  let t2 :=
    if priorExists then
      if isContentChanged hash c pd.url markdownContent then
        { t with
            updatedPages := t.updatedPages ++ [pd.url],
            pageDiffs := dictSet t.pageDiffs pd.url
              (getDiff diffFn c pd.url markdownContent) }
      else t
    else { t with newPages := t.newPages ++ [pd.url] }
  ((addOrUpdatePage hash now c pd).2, t2)

/-- The post-crawl deleted-page computation of `AsyncCrawler.crawl`:
`deleted = cache.get_all_urls() - repository keys`, then
`cache.delete_urls(deleted)`.  Returns the deleted list and pruned cache. -/
def computeDeletedAndPrune (c : Cache) (currentUrls : List String) :
    List String × Cache :=
  let cachedUrls := getAllUrls c
  let deleted := cachedUrls.filter (fun u => u ∉ currentUrls)
  (deleted, deleteUrls c deleted)

/-!
Frontier bookkeeping of `AsyncCrawler` (`crawler_advanced.py` 284-287,
385-414, 416-421, 521-534).  The model runs the worker loop sequentially:
`site` abstracts the admissible links the parser extracts from each URL
(every dequeued URL is processed on the success path, which is the path that
touches all three structures).  `queue` is the FIFO `asyncio.Queue`,
`visited`/`queued` the two sets, `repoUrls` the repository key set.
-/

structure CrawlState where
  visited : List String
  queued : List String
  queue : List String
  repoUrls : List String
deriving DecidableEq

/-- Constructor state of `AsyncCrawler`: the seed is queued and enqueued. -/
def initCrawl (baseUrl : String) : CrawlState := ⟨[], [baseUrl], [baseUrl], []⟩

/-- The `_add_new_links_to_queue` loop: skip links already visited or
queued, stop entirely once `len(visited) + len(queued) >= max_pages`, else
add to `queued` and enqueue. -/
def addNewLinks (maxPages : Nat) (st : CrawlState) : List String → CrawlState
  | [] => st
  | link :: rest =>
    if link ∈ st.visited ∨ link ∈ st.queued then addNewLinks maxPages st rest
    else if maxPages ≤ st.visited.length + st.queued.length then st
    else
      addNewLinks maxPages
        { st with queued := st.queued ++ [link], queue := st.queue ++ [link] }
        rest

/-- The `_process_url` effects on the frontier and repository: mark visited
first, store the page under its URL, then enqueue the extracted links. -/
def processUrl (site : List (String × List String)) (maxPages : Nat)
    (st : CrawlState) (url : String) : CrawlState :=
  let st := { st with visited := insertSet st.visited url }
  let links := (lookupAssoc site url).getD []
  let st := { st with repoUrls := insertSet st.repoUrls url }
  addNewLinks maxPages st links

/-- The `_worker` loop, run sequentially with fuel: exit when the queue is
empty, skip already-visited URLs, otherwise process. -/
def crawlLoop (site : List (String × List String)) (maxPages : Nat) :
    Nat → CrawlState → CrawlState
  | 0, st => st
  | fuel + 1, st =>
    match st.queue with
    | [] => st
    | url :: rest =>
      if url ∈ st.visited then
        crawlLoop site maxPages fuel { st with queue := rest }
      else
        crawlLoop site maxPages fuel (processUrl site maxPages { st with queue := rest } url)

/-!
Rate-limited fetcher (`Fetcher`, `crawler_components.py` 168-330).  Network
attempts are abstracted as an environment `env : Nat → Outcome` giving the
server/network behaviour of each successive GET; wall-clock time is the
explicit `now` parameter and `time.sleep` advances it.  The event trace
records every GET attempt, sleep, and rate-limit clock write.
-/

/-- Result of one `session.get` call: a response (with the headers `fetch`
reads, the `Retry-After` header as the raw string the server sent) or one
of the caught exception classes. -/
inductive Outcome where
  | response (status : Nat) (retryAfterHdr : Option String) (contentType : String)
      (etag lastModified encoding : Option String) (body : String)
  | timedOut (msg : String)
  | tooManyRedirects (msg : String)
  | requestError (msg : String)
deriving DecidableEq

/-- The ASCII whitespace characters Python `int()` strips from a string
argument. -/
def isPySpace (c : Char) : Bool :=
  c = ' ' || c = '\t' || c = '\n' || c = '\r' || c = '\x0b' || c = '\x0c'

/-- Digit run of a Python integer literal after its first digit: further
digits, with single underscores allowed between two digits. -/
def pyDigitsRest (acc : Nat) : Str → Option Nat
  | [] => some acc
  | '_' :: c :: rest =>
    if c.isDigit then pyDigitsRest (acc * 10 + (c.toNat - 48)) rest else none
  | c :: rest =>
    if c.isDigit then pyDigitsRest (acc * 10 + (c.toNat - 48)) rest else none

/-- Python `int()` on a string (its ASCII forms): optional surrounding
whitespace, an optional sign, then a nonempty run of decimal digits with
single underscores allowed between two digits; every other string raises
`ValueError`, modelled as `none`. -/
def pyIntParse (l : Str) : Option Int :=
  let t := (((l.dropWhile isPySpace).reverse.dropWhile isPySpace)).reverse
  match t with
  | '+' :: c :: rest =>
    if c.isDigit then (pyDigitsRest (c.toNat - 48) rest).map Int.ofNat else none
  | '-' :: c :: rest =>
    if c.isDigit then (pyDigitsRest (c.toNat - 48) rest).map
      (fun n => -(Int.ofNat n)) else none
  | c :: rest =>
    if c.isDigit then (pyDigitsRest (c.toNat - 48) rest).map Int.ofNat else none
  | [] => none


/-- The metadata dict returned by `fetch`; keys absent from a given return
site are `none`. -/
structure FetchMeta where
  statusCode : Nat
  error : Option String := none
  etag : Option String := none
  lastModified : Option String := none
  contentType : Option String := none
  encoding : Option String := none
deriving DecidableEq

/-- Result of the body of a `fetch` call: a normal return of
`(content, metadata)`, or an exception no `except` clause catches
propagating out of the call. -/
inductive FetchResult where
  | ok (body : Option String) (meta : FetchMeta)
  | raised (exc : String)
deriving DecidableEq

/-- Events observable during a `fetch` call. -/
inductive FetchEvent where
  | clockUpdate (domain : String) (time : Nat)
  | attempt (idx : Nat)
  | sleep (amount : Nat)
deriving DecidableEq

/-- Mutable fetcher state: the global and the per-domain last-request
clocks. -/
structure FetcherState where
  lastRequestTime : Nat
  domainLastRequest : List (String × Nat)
deriving DecidableEq

/-- The `Fetcher._wait_for_rate_limit` method: wait until `delay` has
passed since the later of the global and domain clocks, then write the
current time into both. -/
def waitForRateLimit (delay : Nat) (domain : String) (st : FetcherState)
    (now : Nat) : FetcherState × Nat × List FetchEvent :=
  let domainLastTime := (lookupAssoc st.domainLastRequest domain).getD 0
  let lastTime := max st.lastRequestTime domainLastTime
  let elapsed := now - lastTime
  let stepped :=
    if elapsed < delay then (now + (delay - elapsed), [FetchEvent.sleep (delay - elapsed)])
    else (now, ([] : List FetchEvent))
  (⟨stepped.1, dictSet st.domainLastRequest domain stepped.1⟩, stepped.1,
    stepped.2 ++ [FetchEvent.clockUpdate domain stepped.1])

/-- Substring test used for the `'text/html' not in content_type.lower()`
check. -/
def containsSub (needle : Str) : Str → Bool
  | [] => listStartsWith needle []
  | c :: rest => listStartsWith needle (c :: rest) || containsSub needle rest

/-- True when the content type admits HTML. -/
def isHtmlContentType (ct : String) : Bool :=
  containsSub "text/html".data (lowerStr ct.data)

/-- The retry loop of `Fetcher.fetch`.  `retries` is the loop counter; the
gas equals `max_retries + 1 - retries`, so running out of gas is exactly the
loop condition `retries <= self.max_retries` failing, which returns the
`Max retries exceeded` metadata.  The 429 branch applies Python `int()` to
the raw `Retry-After` header: a header that is no integer literal makes the
uncaught `ValueError` propagate, and a negative value makes `time.sleep`
raise. -/
def fetchLoop (delay maxRetries : Nat) (env : Nat → Outcome)
    (etagIn lmIn : Option String) :
    Nat → Nat → FetchResult × List FetchEvent
  | _, 0 => (.ok none { statusCode := 0, error := some "Max retries exceeded" }, [])
  | retries, gas + 1 =>
    let ev0 := [FetchEvent.attempt retries]
    match env retries with
    | .response status retryAfterHdr ct etg lm enc body =>
      if status = 304 then
        (.ok none { statusCode := 304, etag := etagIn, lastModified := lmIn }, ev0)
      else if status = 429 then
        match retryAfterHdr with
        | none =>
          let rec1 := fetchLoop delay maxRetries env etagIn lmIn (retries + 1) gas
          (rec1.1, ev0 ++ [FetchEvent.sleep (delay * 2)] ++ rec1.2)
        | some hdr =>
          match pyIntParse hdr.data with
          | none =>
            (.raised ("ValueError: invalid literal for int() with base 10: "
              ++ hdr), ev0)
          | some n =>
            if n < 0 then
              (.raised "ValueError: sleep length must be non-negative", ev0)
            else
              let rec1 := fetchLoop delay maxRetries env etagIn lmIn (retries + 1) gas
              (rec1.1, ev0 ++ [FetchEvent.sleep n.toNat] ++ rec1.2)
      else if 400 ≤ status then
        if status = 404 then
          (.ok none { statusCode := 404, error := some "Not Found" }, ev0)
        else if retries < maxRetries then
          let rec1 := fetchLoop delay maxRetries env etagIn lmIn (retries + 1) gas
          (rec1.1, ev0 ++ [FetchEvent.sleep (delay * 2 ^ (retries + 1))] ++ rec1.2)
        else
          (.ok none { statusCode := status,
                      error := some ("HTTP error: " ++ toString status) }, ev0)
      else if !isHtmlContentType ct then
        (.ok none { statusCode := status, contentType := some ct }, ev0)
      else
        (.ok (some body) { statusCode := status, etag := etg, lastModified := lm,
                           contentType := some ct, encoding := enc }, ev0)
    | .timedOut msg =>
      if retries + 1 ≤ maxRetries then
        let rec1 := fetchLoop delay maxRetries env etagIn lmIn (retries + 1) gas
        (rec1.1, ev0 ++ [FetchEvent.sleep (delay * 2 ^ (retries + 1))] ++ rec1.2)
      else (.ok none { statusCode := 0, error := some ("Timeout: " ++ msg) }, ev0)
    | .tooManyRedirects msg =>
      (.ok none { statusCode := 0, error := some ("Too many redirects: " ++ msg) },
        ev0)
    | .requestError msg =>
      if retries + 1 ≤ maxRetries then
        let rec1 := fetchLoop delay maxRetries env etagIn lmIn (retries + 1) gas
        (rec1.1, ev0 ++ [FetchEvent.sleep (delay * 2 ^ (retries + 1))] ++ rec1.2)
      else (.ok none { statusCode := 0, error := some msg }, ev0)

/-- The `Fetcher.fetch` method: extract the domain, apply the rate limit
once, then run the retry loop. -/
def fetch (delay maxRetries : Nat) (env : Nat → Outcome) (st : FetcherState)
    (now : Nat) (url : String) (etagIn lmIn : Option String) :
    FetchResult × FetcherState × List FetchEvent :=
  let domain : String := ⟨(urlsplitCore [] url.data).netloc⟩
  let wait := waitForRateLimit delay domain st now
  let run := fetchLoop delay maxRetries env etagIn lmIn 0 (maxRetries + 1)
  (run.1, wait.1, wait.2.2 ++ run.2)

/-- Attempt-event test. -/
def isAttemptEvent : FetchEvent → Bool
  | .attempt _ => true
  | _ => false

/-- Clock-update-event test. -/
def isClockEvent : FetchEvent → Bool
  | .clockUpdate _ _ => true
  | _ => false

/-- Sleep amounts of a trace, in order. -/
def sleepAmounts (l : List FetchEvent) : List Nat :=
  l.filterMap (fun e => match e with
    | .sleep a => some a
    | _ => none)

/-!
Association-list and set-insertion lemmas used throughout the development.
-/

theorem lookupAssoc_cons {α : Type} (p : String × α) (rest : List (String × α))
    (k : String) :
    lookupAssoc (p :: rest) k = if p.1 = k then some p.2 else lookupAssoc rest k :=
  rfl

theorem updateAssoc_cons {α : Type} (p : String × α) (rest : List (String × α))
    (k : String) (v : α) :
    updateAssoc (p :: rest) k v =
      (if p.1 = k then (k, v) else p) :: updateAssoc rest k v :=
  rfl

theorem lookupAssoc_none_iff {α : Type} (l : List (String × α)) (k : String) :
    lookupAssoc l k = none ↔ k ∉ l.map Prod.fst := by
  induction l with
  | nil => simp [lookupAssoc]
  | cons p rest ih =>
    by_cases hk : p.1 = k
    · simp [lookupAssoc_cons, hk]
    · simp only [lookupAssoc_cons, if_neg hk, List.map_cons, List.mem_cons, ih]
      constructor
      · rintro h1 (h2 | h2)
        · exact hk h2.symm
        · exact h1 h2
      · intro h1 h2
        exact h1 (Or.inr h2)

theorem lookupAssoc_isSome_iff {α : Type} (l : List (String × α)) (k : String) :
    (lookupAssoc l k).isSome ↔ k ∈ l.map Prod.fst := by
  rcases h : lookupAssoc l k with _ | v
  · simpa [h] using (lookupAssoc_none_iff l k).mp h
  · simp only [Option.isSome_some, true_iff]
    by_contra hmem
    rw [← lookupAssoc_none_iff l k] at hmem
    simp [hmem] at h

theorem updateAssoc_of_not_mem {α : Type} (l : List (String × α)) (k : String)
    (v : α) (h : k ∉ l.map Prod.fst) : updateAssoc l k v = l := by
  induction l with
  | nil => rfl
  | cons p rest ih =>
    simp only [List.map_cons, List.mem_cons, not_or] at h
    have hp : ¬ p.1 = k := fun he => h.1 he.symm
    rw [updateAssoc_cons, if_neg hp, ih h.2]

theorem map_fst_updateAssoc {α : Type} (l : List (String × α)) (k : String)
    (v : α) : (updateAssoc l k v).map Prod.fst = l.map Prod.fst := by
  induction l with
  | nil => rfl
  | cons p rest ih =>
    rw [updateAssoc_cons]
    by_cases hk : p.1 = k
    · simp [hk, ih]
    · simp [hk, ih]

theorem lookupAssoc_updateAssoc_self {α : Type} (l : List (String × α))
    (k : String) (v : α) (h : k ∈ l.map Prod.fst) :
    lookupAssoc (updateAssoc l k v) k = some v := by
  induction l with
  | nil => simp at h
  | cons p rest ih =>
    rw [updateAssoc_cons]
    by_cases hk : p.1 = k
    · simp [lookupAssoc_cons, hk]
    · rw [if_neg hk, lookupAssoc_cons, if_neg hk]
      apply ih
      simp only [List.map_cons, List.mem_cons] at h
      rcases h with h | h
      · exact absurd h.symm hk
      · exact h

theorem updateAssoc_updateAssoc {α : Type} (l : List (String × α)) (k : String)
    (v w : α) : updateAssoc (updateAssoc l k v) k w = updateAssoc l k w := by
  induction l with
  | nil => rfl
  | cons p rest ih =>
    by_cases hk : p.1 = k <;> simp [updateAssoc_cons, hk, ih]

theorem updateAssoc_map_snd {α β : Type} (l : List (String × α)) (k : String)
    (v : α) (f : α → β) :
    (updateAssoc l k v).map (fun p => (p.1, f p.2)) =
      updateAssoc (l.map (fun p => (p.1, f p.2))) k (f v) := by
  induction l with
  | nil => rfl
  | cons p rest ih =>
    by_cases hk : p.1 = k <;> simp [updateAssoc_cons, hk, ih]

theorem lookupAssoc_append {α : Type} (l m : List (String × α)) (k : String)
    (h : lookupAssoc l k = none) : lookupAssoc (l ++ m) k = lookupAssoc m k := by
  induction l with
  | nil => rfl
  | cons p rest ih =>
    by_cases hk : p.1 = k
    · rw [lookupAssoc_cons, if_pos hk] at h
      exact absurd h (by simp)
    · rw [lookupAssoc_cons, if_neg hk] at h
      rw [List.cons_append, lookupAssoc_cons, if_neg hk]
      exact ih h

theorem updateAssoc_append {α : Type} (l m : List (String × α)) (k : String)
    (v : α) :
    updateAssoc (l ++ m) k v = updateAssoc l k v ++ updateAssoc m k v := by
  simp [updateAssoc]

theorem mem_insertSet_iff (l : List String) (u v : String) :
    v ∈ insertSet l u ↔ v ∈ l ∨ v = u := by
  by_cases h : u ∈ l
  · simp only [insertSet, if_pos h]
    constructor
    · exact Or.inl
    · rintro (hv | rfl)
      · exact hv
      · exact h
  · simp [insertSet, if_neg h]

theorem nodup_insertSet (l : List String) (u : String) (h : l.Nodup) :
    (insertSet l u).Nodup := by
  by_cases hm : u ∈ l
  · simpa [insertSet, hm] using h
  · simp [insertSet, hm, List.nodup_append, h]

theorem subset_insertSet (l : List String) (u : String) : l ⊆ insertSet l u := by
  intro x hx
  exact (mem_insertSet_iff l u x).mpr (Or.inl hx)

theorem mem_insertSet_self (l : List String) (u : String) : u ∈ insertSet l u :=
  (mem_insertSet_iff l u u).mpr (Or.inr rfl)

theorem lookupAssoc_dictSet_self {α : Type} (l : List (String × α)) (k : String)
    (v : α) : lookupAssoc (dictSet l k v) k = some v := by
  by_cases h : k ∈ l.map Prod.fst
  · rw [dictSet, if_pos h]
    exact lookupAssoc_updateAssoc_self l k v h
  · rw [dictSet, if_neg h,
      lookupAssoc_append l [(k, v)] k ((lookupAssoc_none_iff l k).mpr h)]
    simp [lookupAssoc_cons]

theorem map_fst_dictSet {α : Type} (l : List (String × α)) (k : String) (v : α) :
    (dictSet l k v).map Prod.fst =
      if k ∈ l.map Prod.fst then l.map Prod.fst else l.map Prod.fst ++ [k] := by
  by_cases h : k ∈ l.map Prod.fst
  · rw [dictSet, if_pos h, if_pos h, map_fst_updateAssoc]
  · rw [dictSet, if_neg h, if_neg h]
    simp

theorem length_dictSet {α : Type} (l : List (String × α)) (k : String) (v : α) :
    (dictSet l k v).length =
      if k ∈ l.map Prod.fst then l.length else l.length + 1 := by
  by_cases h : k ∈ l.map Prod.fst
  · rw [dictSet, if_pos h, if_pos h, updateAssoc]
    simp
  · rw [dictSet, if_neg h, if_neg h]
    simp

theorem nodup_keys_dictSet {α : Type} (l : List (String × α)) (k : String)
    (v : α) (h : (l.map Prod.fst).Nodup) :
    ((dictSet l k v).map Prod.fst).Nodup := by
  rw [map_fst_dictSet]
  by_cases hm : k ∈ l.map Prod.fst
  · simpa [hm] using h
  · simp [hm, List.nodup_append, h]

/-!
Theorems about the cache upsert and the diff-detection ordering.
-/

/-- Field-stripping used to compare cache states up to the crawl timestamp. -/
def stripLastCrawled (row : CacheRow) : CacheRow := { row with lastCrawled := "" }

theorem addOrUpdatePage_of_none (hash : String → String) (now : String)
    (c : Cache) (pd : PageData) (h : lookupAssoc c pd.url = none) :
    addOrUpdatePage hash now c pd = (false, c ++ [(pd.url, mkCacheRow hash now pd)]) := by
  simp [addOrUpdatePage, h]

theorem addOrUpdatePage_of_some (hash : String → String) (now : String)
    (c : Cache) (pd : PageData) (r0 : CacheRow)
    (h : lookupAssoc c pd.url = some r0) :
    addOrUpdatePage hash now c pd =
      (true, updateAssoc c pd.url (mkCacheRow hash now pd)) := by
  simp [addOrUpdatePage, h]

/-- C6 (amended): a second upsert of the identical record reports an update
and leaves the stored state unchanged except for the refreshed last-crawled
timestamp (so two calls sharing a timestamp produce identical states), and
in general `add_or_update_page` returns `True` exactly when a row for the
URL already existed. -/
theorem c6_amended_upsert_idempotent (hash : String → String)
    (now1 now2 : String) (c : Cache) (pd : PageData) :
    (addOrUpdatePage hash now2 (addOrUpdatePage hash now1 c pd).2 pd).1 = true
    ∧ (addOrUpdatePage hash now2 (addOrUpdatePage hash now1 c pd).2 pd).2.map
        (fun r => (r.1, stripLastCrawled r.2))
      = (addOrUpdatePage hash now1 c pd).2.map (fun r => (r.1, stripLastCrawled r.2))
    ∧ (now1 = now2 →
        (addOrUpdatePage hash now2 (addOrUpdatePage hash now1 c pd).2 pd).2
          = (addOrUpdatePage hash now1 c pd).2)
    ∧ ((addOrUpdatePage hash now1 c pd).1 = true ↔ pd.url ∈ getAllUrls c) := by
  have hstrip : ∀ now : String,
      stripLastCrawled (mkCacheRow hash now pd) = mkCacheRow hash "" pd :=
    fun _ => rfl
  rcases h : lookupAssoc c pd.url with _ | r0
  · have hnm : pd.url ∉ c.map Prod.fst := (lookupAssoc_none_iff c pd.url).mp h
    have h1 := addOrUpdatePage_of_none hash now1 c pd h
    have hlook : lookupAssoc (c ++ [(pd.url, mkCacheRow hash now1 pd)]) pd.url
        = some (mkCacheRow hash now1 pd) := by
      rw [lookupAssoc_append c _ pd.url h]
      simp [lookupAssoc_cons]
    have h2 : addOrUpdatePage hash now2 (c ++ [(pd.url, mkCacheRow hash now1 pd)]) pd
        = (true, c ++ [(pd.url, mkCacheRow hash now2 pd)]) := by
      rw [addOrUpdatePage_of_some hash now2 _ pd _ hlook, updateAssoc_append,
        updateAssoc_of_not_mem c pd.url _ hnm]
      simp [updateAssoc]
    refine ⟨?_, ?_, ?_, ?_⟩
    · rw [h1, h2]
    · rw [h1, h2]
      simp [hstrip]
    · intro hn
      subst hn
      rw [h1, h2]
    · rw [h1]
      simp only [getAllUrls]
      exact ⟨fun hf => absurd hf (by simp), fun hm => absurd hm hnm⟩
  · have hm : pd.url ∈ c.map Prod.fst := by
      have := (lookupAssoc_isSome_iff c pd.url).mp (by simp [h])
      exact this
    have h1 := addOrUpdatePage_of_some hash now1 c pd r0 h
    have hlook : lookupAssoc (updateAssoc c pd.url (mkCacheRow hash now1 pd)) pd.url
        = some (mkCacheRow hash now1 pd) :=
      lookupAssoc_updateAssoc_self c pd.url _ hm
    have h2 : addOrUpdatePage hash now2 (updateAssoc c pd.url (mkCacheRow hash now1 pd)) pd
        = (true, updateAssoc c pd.url (mkCacheRow hash now2 pd)) := by
      rw [addOrUpdatePage_of_some hash now2 _ pd _ hlook, updateAssoc_updateAssoc]
    refine ⟨?_, ?_, ?_, ?_⟩
    · rw [h1, h2]
    · rw [h1, h2]
      rw [updateAssoc_map_snd, updateAssoc_map_snd, hstrip, hstrip]
    · intro hn
      subst hn
      rw [h1, h2]
    · rw [h1]
      simp only [getAllUrls, true_iff]
      exact hm

/-- C6 (counterexample): calling the upsert twice in succession with the
identical record at two different wall-clock instants reports `True` but
does not reproduce the same stored state: the `last_crawled` column is
rewritten by the second call. -/
theorem c6_upsert_second_call_changes_state :
    ((addOrUpdatePage id "2025-01-01T00:05:00"
        (addOrUpdatePage id "2025-01-01T00:00:00" []
          { url := "https://example.com/page", title := "Test Page",
            markdownContent := "# Test" }).2
        { url := "https://example.com/page", title := "Test Page",
          markdownContent := "# Test" }).1 = true)
    ∧ (addOrUpdatePage id "2025-01-01T00:05:00"
        (addOrUpdatePage id "2025-01-01T00:00:00" []
          { url := "https://example.com/page", title := "Test Page",
            markdownContent := "# Test" }).2
        { url := "https://example.com/page", title := "Test Page",
          markdownContent := "# Test" }).2
      ≠ (addOrUpdatePage id "2025-01-01T00:00:00" []
          { url := "https://example.com/page", title := "Test Page",
            markdownContent := "# Test" }).2 := by
  decide

/-- C6 (witness): the amended theorem applied at a concrete record, with the
equal-timestamp hypothesis discharged. -/
theorem c6_amended_upsert_idempotent_witness :
    (addOrUpdatePage id "2025-01-01T00:00:00"
        (addOrUpdatePage id "2025-01-01T00:00:00" []
          { url := "https://example.com/page", title := "Test Page",
            markdownContent := "# Test" }).2
        { url := "https://example.com/page", title := "Test Page",
          markdownContent := "# Test" }).2
      = (addOrUpdatePage id "2025-01-01T00:00:00" []
          { url := "https://example.com/page", title := "Test Page",
            markdownContent := "# Test" }).2 :=
  (c6_amended_upsert_idempotent id "2025-01-01T00:00:00" "2025-01-01T00:00:00" []
    { url := "https://example.com/page", title := "Test Page",
      markdownContent := "# Test" }).2.2.1 rfl

/-- C1 (code bug): for a URL with a previous-generation cache row whose
content hash differs from the newly fetched content's hash, the orchestrator
block upserts the cache before consulting `is_content_changed`, so the check
compares the fresh hash with itself and the URL is never added to
`updated_pages` (and no diff is recorded); the specification's ordering
(`diffDetectStepSpec`) does mark it updated.  The digest is instantiated
with `id`, under which the stored hash `"old content"` and the new hash
`"new content"` differ, satisfying the claim's premise. -/
theorem c1_updated_pages_never_marked :
    (isContentChanged id
        [("https://example.com/page",
          { title := "Old", contentHash := "old content", etag := none,
            lastModified := none, lastCrawled := "2025-01-01T00:00:00",
            markdownContent := "old content", metaDescription := "",
            statusCode := 200 })]
        "https://example.com/page" "new content" = true)
    ∧ ((diffDetectStep id (fun _ b => b) "2025-02-01T00:00:00"
          [("https://example.com/page",
            { title := "Old", contentHash := "old content", etag := none,
              lastModified := none, lastCrawled := "2025-01-01T00:00:00",
              markdownContent := "old content", metaDescription := "",
              statusCode := 200 })]
          ⟨[], [], []⟩
          { url := "https://example.com/page", title := "New",
            markdownContent := "new content" }).2.updatedPages = [])
    ∧ ((diffDetectStep id (fun _ b => b) "2025-02-01T00:00:00"
          [("https://example.com/page",
            { title := "Old", contentHash := "old content", etag := none,
              lastModified := none, lastCrawled := "2025-01-01T00:00:00",
              markdownContent := "old content", metaDescription := "",
              statusCode := 200 })]
          ⟨[], [], []⟩
          { url := "https://example.com/page", title := "New",
            markdownContent := "new content" }).2.newPages = [])
    ∧ ((diffDetectStepSpec id (fun _ b => b) "2025-02-01T00:00:00"
          [("https://example.com/page",
            { title := "Old", contentHash := "old content", etag := none,
              lastModified := none, lastCrawled := "2025-01-01T00:00:00",
              markdownContent := "old content", metaDescription := "",
              statusCode := 200 })]
          ⟨[], [], []⟩
          { url := "https://example.com/page", title := "New",
            markdownContent := "new content" }).2.updatedPages
        = ["https://example.com/page"]) := by
  decide

theorem mem_keys_dictSet_self {α : Type} (l : List (String × α)) (k : String)
    (v : α) : k ∈ (dictSet l k v).map Prod.fst := by
  rw [map_fst_dictSet]
  by_cases h : k ∈ l.map Prod.fst <;> simp [h]

/-- C10: when `ContentRepository.add` is called a second time for an
already-stored URL with a different (valid) status, the content record is
overwritten and `count()` does not grow, but the URL stays in the first
status set while also joining the second — the per-status sets are not
disjoint — and `total_urls` counts `add()` calls, growing by two.  Key
distinctness of `contents` is preserved, so `count()` still equals the
number of distinct URLs. -/
theorem c10_repo_add_second_status (r : Repo) (pd1 pd2 : PageData)
    (s1 s2 : String) (hurl : pd2.url = pd1.url)
    (hs1 : s1 = "success" ∨ s1 = "error" ∨ s1 = "skipped")
    (hs2 : s2 = "success" ∨ s2 = "error" ∨ s2 = "skipped")
    (hne : s1 ≠ s2) :
    ((r.add pd1 s1).add pd2 s2).count = (r.add pd1 s1).count
    ∧ ((r.add pd1 s1).add pd2 s2).get pd1.url = some pd2
    ∧ pd1.url ∈ ((r.add pd1 s1).add pd2 s2).urlsByStatus s1
    ∧ pd1.url ∈ ((r.add pd1 s1).add pd2 s2).urlsByStatus s2
    ∧ ((r.add pd1 s1).add pd2 s2).totalUrls = r.totalUrls + 2
    ∧ ((r.contents.map Prod.fst).Nodup →
        (((r.add pd1 s1).add pd2 s2).contents.map Prod.fst).Nodup) := by
  have hne2 : ¬ s2 = s1 := fun h => hne h.symm
  have hmem1 : pd2.url ∈ (dictSet r.contents pd1.url pd1).map Prod.fst := by
    rw [hurl]
    exact mem_keys_dictSet_self _ _ _
  refine ⟨?_, ?_, ?_, ?_, ?_, ?_⟩
  · simp only [Repo.count, Repo.add]
    rw [length_dictSet, if_pos hmem1]
  · simp only [Repo.get, Repo.add, ← hurl]
    exact lookupAssoc_dictSet_self _ _ _
  · rcases hs1 with h1 | h1 | h1 <;> subst h1 <;>
      simp [Repo.add, Repo.urlsByStatus, hne2, mem_insertSet_self]
  · rcases hs2 with h2 | h2 | h2 <;> subst h2 <;>
      simp [Repo.add, Repo.urlsByStatus, ← hurl, mem_insertSet_self]
  · simp [Repo.add]
  · intro hnd
    simp only [Repo.add]
    exact nodup_keys_dictSet _ _ _ (nodup_keys_dictSet _ _ _ hnd)

/-- C10 (witness): on a fresh repository, adding the same URL as a success
and then as an error leaves both status sets containing it and drives
`total_urls` above `count()`. -/
theorem c10_repo_add_second_status_witness :
    ("u" ∈ (((Repo.init.add { url := "u", title := "t1" } "success").add
        { url := "u", title := "t2" } "error").urlsByStatus "success"))
    ∧ ("u" ∈ (((Repo.init.add { url := "u", title := "t1" } "success").add
        { url := "u", title := "t2" } "error").urlsByStatus "error"))
    ∧ ((((Repo.init.add { url := "u", title := "t1" } "success").add
        { url := "u", title := "t2" } "error").count
      < ((Repo.init.add { url := "u", title := "t1" } "success").add
        { url := "u", title := "t2" } "error").totalUrls)) := by
  have h := c10_repo_add_second_status Repo.init { url := "u", title := "t1" }
    { url := "u", title := "t2" } "success" "error" rfl (Or.inl rfl)
    (Or.inr (Or.inl rfl)) (by decide)
  exact ⟨h.2.2.1, h.2.2.2.1, by decide⟩

theorem lookupAssoc_filter {α : Type} (l : List (String × α))
    (q : String × α → Bool) (u : String)
    (h : ∀ p ∈ l, p.1 = u → q p = true) :
    lookupAssoc (l.filter q) u = lookupAssoc l u := by
  induction l with
  | nil => rfl
  | cons p rest ih =>
    have ihr : lookupAssoc (rest.filter q) u = lookupAssoc rest u :=
      ih (fun x hx hfx => h x (List.mem_cons_of_mem p hx) hfx)
    by_cases hq : q p = true
    · rw [List.filter_cons_of_pos hq, lookupAssoc_cons, lookupAssoc_cons, ihr]
    · have hu : ¬ p.1 = u := fun he => hq (h p (List.mem_cons_self p rest) he)
      rw [List.filter_cons_of_neg (by simpa using hq), lookupAssoc_cons,
        if_neg hu, ihr]

theorem mem_map_fst_iff {α : Type} (l : List (String × α)) (u : String) :
    u ∈ l.map Prod.fst ↔ ∃ p, p ∈ l ∧ p.1 = u := by
  simp [List.mem_map]

/-- C4: after the frontier drains, the orchestrator's deleted set is exactly
the persisted cache key set minus the current generation's repository key
set — in particular a URL present in the repository is never deleted, so
re-discovery via a different in-bound link cannot produce a false positive —
and pruning removes exactly those keys from the cache, leaving surviving
rows untouched. -/
theorem c4_deleted_exact_set_difference (c : Cache) (currentUrls : List String)
    (u : String) :
    (u ∈ (computeDeletedAndPrune c currentUrls).1 ↔
      u ∈ getAllUrls c ∧ u ∉ currentUrls)
    ∧ (u ∈ getAllUrls (computeDeletedAndPrune c currentUrls).2 ↔
      u ∈ getAllUrls c ∧ u ∈ currentUrls)
    ∧ (u ∈ currentUrls →
        lookupAssoc (computeDeletedAndPrune c currentUrls).2 u = lookupAssoc c u) := by
  have hdelmem : ∀ v : String,
      v ∈ (getAllUrls c).filter (fun x => decide (x ∉ currentUrls)) ↔
        v ∈ getAllUrls c ∧ v ∉ currentUrls := by
    intro v
    rw [List.mem_filter]
    constructor
    · rintro ⟨h1, h2⟩
      exact ⟨h1, of_decide_eq_true h2⟩
    · rintro ⟨h1, h2⟩
      exact ⟨h1, decide_eq_true h2⟩
  have hfst : (computeDeletedAndPrune c currentUrls).1
      = (getAllUrls c).filter (fun x => decide (x ∉ currentUrls)) := rfl
  have hsnd : (computeDeletedAndPrune c currentUrls).2
      = deleteUrls c ((getAllUrls c).filter (fun x => decide (x ∉ currentUrls))) := rfl
  refine ⟨by rw [hfst]; exact hdelmem u, ?_, ?_⟩
  · rw [hsnd]
    by_cases hnil : (getAllUrls c).filter (fun x => decide (x ∉ currentUrls)) = []
    · rw [deleteUrls, if_pos hnil]
      constructor
      · intro hm
        refine ⟨hm, ?_⟩
        by_contra hcur
        have hin : u ∈ (getAllUrls c).filter (fun x => decide (x ∉ currentUrls)) :=
          (hdelmem u).mpr ⟨hm, hcur⟩
        rw [hnil] at hin
        exact absurd hin (List.not_mem_nil u)
      · exact fun h => h.1
    · rw [deleteUrls, if_neg hnil]
      rw [getAllUrls, mem_map_fst_iff]
      constructor
      · rintro ⟨p, hp, rfl⟩
        rw [List.mem_filter] at hp
        have hkey : p.1 ∈ getAllUrls c :=
          (mem_map_fst_iff c p.1).mpr ⟨p, hp.1, rfl⟩
        have hnd : p.1 ∉ (getAllUrls c).filter (fun x => decide (x ∉ currentUrls)) :=
          of_decide_eq_true hp.2
        refine ⟨hkey, ?_⟩
        by_contra hcur
        exact hnd ((hdelmem p.1).mpr ⟨hkey, hcur⟩)
      · rintro ⟨hkey, hcur⟩
        rcases (mem_map_fst_iff c u).mp hkey with ⟨p, hp, hfstp⟩
        refine ⟨p, List.mem_filter.mpr ⟨hp, ?_⟩, hfstp⟩
        apply decide_eq_true
        rw [hfstp]
        intro hin
        exact ((hdelmem u).mp hin).2 hcur
  · intro hcur
    rw [hsnd, deleteUrls]
    by_cases hnil : (getAllUrls c).filter (fun x => decide (x ∉ currentUrls)) = []
    · rw [if_pos hnil]
    · rw [if_neg hnil]
      apply lookupAssoc_filter
      intro p hp hfstp
      apply decide_eq_true
      rw [hfstp]
      intro hin
      exact ((hdelmem u).mp hin).2 hcur

/-- Cache rows used by concrete instances below. -/
def sampleRow (t h m : String) : CacheRow :=
  ⟨t, h, none, none, "2025-01-01T00:00:00", m, "", 200⟩

/-- C4 (witness): on a two-row cache with only one URL still in the
repository, the surviving row keeps its record after pruning. -/
theorem c4_deleted_exact_set_difference_witness :
    lookupAssoc (computeDeletedAndPrune
        [("https://a.test/kept", sampleRow "k" "h1" "m1"),
         ("https://a.test/gone", sampleRow "g" "h2" "m2")]
        ["https://a.test/kept"]).2 "https://a.test/kept"
      = lookupAssoc
        [("https://a.test/kept", sampleRow "k" "h1" "m1"),
         ("https://a.test/gone", sampleRow "g" "h2" "m2")] "https://a.test/kept" :=
  (c4_deleted_exact_set_difference _ _ _).2.2 (by decide)

/-!
Theorems about the frontier bookkeeping.
-/

/-- Invariant carried by the crawl loop: the queue is covered by the queued
set, visited URLs remain members of the queued set, and all three URL
collections are duplicate-free. -/
def CrawlInv (st : CrawlState) : Prop :=
  st.queue ⊆ st.queued ∧ st.visited ⊆ st.queued ∧ st.visited.Nodup
    ∧ st.queued.Nodup ∧ st.repoUrls.Nodup

theorem addNewLinks_inv (maxPages : Nat) (links : List String) (st : CrawlState)
    (h : CrawlInv st) : CrawlInv (addNewLinks maxPages st links) := by
  induction links generalizing st with
  | nil => exact h
  | cons link rest ih =>
    rw [addNewLinks]
    by_cases hmem : link ∈ st.visited ∨ link ∈ st.queued
    · rw [if_pos hmem]
      exact ih st h
    · rw [if_neg hmem]
      by_cases hcap : maxPages ≤ st.visited.length + st.queued.length
      · rw [if_pos hcap]
        exact h
      · rw [if_neg hcap]
        apply ih
        obtain ⟨hq, hv, hvn, hqn, hrn⟩ := h
        have hlq : link ∉ st.queued := fun hc => hmem (Or.inr hc)
        refine ⟨?_, ?_, hvn, ?_, hrn⟩
        · intro x hx
          rcases List.mem_append.mp hx with hx | hx
          · exact List.mem_append_left _ (hq hx)
          · exact List.mem_append_right _ hx
        · intro x hx
          exact List.mem_append_left _ (hv hx)
        · simp [List.nodup_append, hqn, hlq]

theorem processUrl_inv (site : List (String × List String)) (maxPages : Nat)
    (st : CrawlState) (url : String) (hurl : url ∈ st.queued)
    (h : CrawlInv st) : CrawlInv (processUrl site maxPages st url) := by
  obtain ⟨hq, hv, hvn, hqn, hrn⟩ := h
  apply addNewLinks_inv
  refine ⟨hq, ?_, nodup_insertSet _ _ hvn, hqn, nodup_insertSet _ _ hrn⟩
  intro x hx
  rcases (mem_insertSet_iff st.visited url x).mp hx with hx | rfl
  · exact hv hx
  · exact hurl

theorem crawlLoop_inv (site : List (String × List String)) (maxPages : Nat)
    (fuel : Nat) (st : CrawlState) (h : CrawlInv st) :
    CrawlInv (crawlLoop site maxPages fuel st) := by
  induction fuel generalizing st with
  | zero => exact h
  | succ n ih =>
    rcases hqe : st.queue with _ | ⟨url, rest⟩
    · have hred : crawlLoop site maxPages (n + 1) st = st := by
        rw [crawlLoop, hqe]
      rw [hred]
      exact h
    · have hred : crawlLoop site maxPages (n + 1) st =
          if url ∈ st.visited then
            crawlLoop site maxPages n { st with queue := rest }
          else
            crawlLoop site maxPages n
              (processUrl site maxPages { st with queue := rest } url) := by
        rw [crawlLoop, hqe]
      rw [hred]
      have hsub : CrawlInv { st with queue := rest } := by
        obtain ⟨hq, hv, hvn, hqn, hrn⟩ := h
        refine ⟨?_, hv, hvn, hqn, hrn⟩
        intro x hx
        exact hq (by rw [hqe]; exact List.mem_cons_of_mem url hx)
      have hurl : url ∈ st.queued := h.1 (by rw [hqe]; exact List.mem_cons_self url rest)
      by_cases hvtd : url ∈ st.visited
      · rw [if_pos hvtd]
        exact ih _ hsub
      · rw [if_neg hvtd]
        exact ih _ (processUrl_inv site maxPages _ url hurl hsub)

/-- C2 (amended): after any run of the worker loop from a seeded frontier
— in particular any run whose frontier drains — every visited URL is still
a member of the queued set (the code never removes completed URLs from
`queued_urls`, so `visited ⊆ queued` rather than `visited ∩ queued = ∅`),
the queued set is duplicate-free (a URL is never enqueued twice), and no URL
appears twice in the completed record key set. -/
theorem c2_amended_visited_subset_queued (site : List (String × List String))
    (maxPages fuel : Nat) (baseUrl : String) :
    ((crawlLoop site maxPages fuel (initCrawl baseUrl)).visited
      ⊆ (crawlLoop site maxPages fuel (initCrawl baseUrl)).queued)
    ∧ (crawlLoop site maxPages fuel (initCrawl baseUrl)).queued.Nodup
    ∧ (crawlLoop site maxPages fuel (initCrawl baseUrl)).repoUrls.Nodup := by
  have h0 : CrawlInv (initCrawl baseUrl) := by
    refine ⟨?_, ?_, ?_, ?_, ?_⟩ <;> simp [initCrawl, List.Subset.refl]
  have h := crawlLoop_inv site maxPages fuel _ h0
  exact ⟨h.2.1, h.2.2.2.1, h.2.2.2.2⟩

/-- C2 (counterexample): on a one-page site the frontier drains with the
seed both visited and still queued, so `visited ∩ queued` is nonempty and
the claimed disjointness fails. -/
theorem c2_visited_queued_not_disjoint :
    (crawlLoop [("https://a.test", [])] 10 2 (initCrawl "https://a.test")).queue = []
    ∧ (crawlLoop [("https://a.test", [])] 10 2 (initCrawl "https://a.test")).visited
      = ["https://a.test"]
    ∧ (crawlLoop [("https://a.test", [])] 10 2 (initCrawl "https://a.test")).queued
      = ["https://a.test"]
    ∧ ¬ ((crawlLoop [("https://a.test", [])] 10 2 (initCrawl "https://a.test")).visited
          ∩ (crawlLoop [("https://a.test", [])] 10 2 (initCrawl "https://a.test")).queued
        = []) := by
  decide

/-!
Theorems about the fetcher's rate-limit clocks and retry loop.
-/

theorem takeWhile_append_stop {α : Type} (p : α → Bool) (l t : List α) (x : α)
    (hl : ∀ y ∈ l, p y = true) (hx : p x = false) :
    (l ++ x :: t).takeWhile p = l := by
  induction l with
  | nil => simp [List.takeWhile_cons, hx]
  | cons a as ih =>
    have ha : p a = true := hl a (List.mem_cons_self a as)
    simp only [List.cons_append, List.takeWhile_cons, ha, if_true]
    rw [ih (fun y hy => hl y (List.mem_cons_of_mem a hy))]

theorem fetchLoop_no_clock (delay maxRetries : Nat) (env : Nat → Outcome)
    (etagIn lmIn : Option String) (retries gas : Nat) :
    (fetchLoop delay maxRetries env etagIn lmIn retries gas).2.filter
      isClockEvent = [] := by
  induction gas generalizing retries with
  | zero => rfl
  | succ g ih =>
    rw [fetchLoop]
    cases env retries with
    | response status ra ct etg lm enc body =>
      by_cases h1 : status = 304
      · simp [h1, isClockEvent]
      · by_cases h2 : status = 429
        · rcases ra with _ | hdr
          · simp [h1, h2, isClockEvent, ih]
          · rcases hpp : pyIntParse hdr.data with _ | n
            · simp [h1, h2, hpp, isClockEvent]
            · by_cases hneg : n < 0
              · simp [h1, h2, hpp, hneg, isClockEvent]
              · simp [h1, h2, hpp, hneg, isClockEvent, ih]
        · by_cases h3 : 400 ≤ status
          · by_cases h4 : status = 404
            · simp [h1, h2, h3, h4, isClockEvent]
            · by_cases h5 : retries < maxRetries
              · simp [h1, h2, h3, h4, h5, isClockEvent, ih]
              · simp [h1, h2, h3, h4, h5, isClockEvent]
          · by_cases h6 : isHtmlContentType ct
            · simp [h1, h2, h3, h6, isClockEvent]
            · simp [h1, h2, h3, h6, isClockEvent]
    | timedOut msg =>
      by_cases h1 : retries + 1 ≤ maxRetries
      · simp [h1, isClockEvent, ih]
      · simp [h1, isClockEvent]
    | tooManyRedirects msg => simp [isClockEvent]
    | requestError msg =>
      by_cases h1 : retries + 1 ≤ maxRetries
      · simp [h1, isClockEvent, ih]
      · simp [h1, isClockEvent]

theorem takeWhile_append_all {α : Type} (p : α → Bool) (l t : List α)
    (hl : ∀ y ∈ l, p y = true) :
    (l ++ t).takeWhile p = l ++ t.takeWhile p := by
  induction l with
  | nil => rfl
  | cons a as ih =>
    have ha : p a = true := hl a (List.mem_cons_self a as)
    simp only [List.cons_append, List.takeWhile_cons, ha, if_true]
    rw [ih (fun y hy => hl y (List.mem_cons_of_mem a hy))]

theorem waitForRateLimit_spec (delay : Nat) (domain : String)
    (st : FetcherState) (now : Nat) :
    ∃ t sleeps,
      waitForRateLimit delay domain st now
        = (⟨t, dictSet st.domainLastRequest domain t⟩, t,
            sleeps ++ [FetchEvent.clockUpdate domain t])
      ∧ (∀ e ∈ sleeps ++ [FetchEvent.clockUpdate domain t],
          isAttemptEvent e = false)
      ∧ (sleeps ++ [FetchEvent.clockUpdate domain t]).filter isClockEvent
          = [FetchEvent.clockUpdate domain t] := by
  by_cases hel :
      now - max st.lastRequestTime
        ((lookupAssoc st.domainLastRequest domain).getD 0) < delay
  · refine ⟨now + (delay - (now - max st.lastRequestTime
        ((lookupAssoc st.domainLastRequest domain).getD 0))),
      [FetchEvent.sleep
        (delay - (now - max st.lastRequestTime
          ((lookupAssoc st.domainLastRequest domain).getD 0)))], ?_, ?_, ?_⟩
    · simp [waitForRateLimit, hel]
    · intro e he
      simp only [List.cons_append, List.nil_append, List.mem_cons,
        List.not_mem_nil, or_false] at he
      rcases he with rfl | rfl <;> rfl
    · simp [isClockEvent]
  · refine ⟨now, [], ?_, ?_, ?_⟩
    · simp [waitForRateLimit, hel]
    · intro e he
      simp only [List.nil_append, List.mem_cons, List.not_mem_nil,
        or_false] at he
      subst he
      rfl
    · simp [isClockEvent]

/-- C8 (amended): a `fetch` call advances the per-domain and global
last-request clocks exactly once, before the first GET attempt of the call
(retries inside the call do not touch the clocks), and both clocks are
written with the same time. -/
theorem c8_amended_clock_once_per_call (delay maxRetries : Nat)
    (env : Nat → Outcome) (st : FetcherState) (now : Nat) (url : String)
    (etagIn lmIn : Option String) :
    ((fetch delay maxRetries env st now url etagIn lmIn).2.2.filter
        isClockEvent).length = 1
    ∧ (((fetch delay maxRetries env st now url etagIn lmIn).2.2.takeWhile
        (fun e => !isAttemptEvent e)).filter isClockEvent).length = 1
    ∧ (fetch delay maxRetries env st now url etagIn lmIn).2.1.lastRequestTime
        = (lookupAssoc
            (fetch delay maxRetries env st now url etagIn lmIn).2.1.domainLastRequest
            ⟨(urlsplitCore [] url.data).netloc⟩).getD 0 := by
  obtain ⟨t, sleeps, hw, hna, hfc⟩ :=
    waitForRateLimit_spec delay ⟨(urlsplitCore [] url.data).netloc⟩ st now
  have hfetch : fetch delay maxRetries env st now url etagIn lmIn
      = ((fetchLoop delay maxRetries env etagIn lmIn 0 (maxRetries + 1)).1,
          (⟨t, dictSet st.domainLastRequest ⟨(urlsplitCore [] url.data).netloc⟩ t⟩ :
            FetcherState),
          (sleeps ++ [FetchEvent.clockUpdate ⟨(urlsplitCore [] url.data).netloc⟩ t])
            ++ (fetchLoop delay maxRetries env etagIn lmIn 0 (maxRetries + 1)).2) := by
    rw [fetch, hw]
  rw [hfetch]
  refine ⟨?_, ?_, ?_⟩
  · rw [List.filter_append, hfc,
      fetchLoop_no_clock delay maxRetries env etagIn lmIn 0 (maxRetries + 1)]
    rfl
  · rw [takeWhile_append_all (fun e => !isAttemptEvent e) _ _
        (fun y hy => by simp [hna y hy]),
      List.filter_append, hfc]
    have hnone : (((fetchLoop delay maxRetries env etagIn lmIn 0
        (maxRetries + 1)).2.takeWhile (fun e => !isAttemptEvent e)).filter
        isClockEvent) = [] := by
      have h0 := fetchLoop_no_clock delay maxRetries env etagIn lmIn 0
        (maxRetries + 1)
      rw [List.filter_eq_nil_iff] at h0 ⊢
      intro a ha
      exact h0 a ((List.takeWhile_sublist _).subset ha)
    rw [hnone]
    rfl
  · rw [lookupAssoc_dictSet_self]
    rfl

/-- C8 (counterexample): a fetch whose first attempt gets HTTP 500 and is
retried makes two GET attempts but writes the rate-limit clocks only once,
so the claim that every attempt advances the clocks fails. -/
theorem c8_clock_once_two_attempts :
    (((fetch 1 1 (fun _ => Outcome.response 500 none "text/html" none none none "")
        ⟨0, []⟩ 100 "https://example.com/a" none none).2.2.filter
        isAttemptEvent).length = 2)
    ∧ (((fetch 1 1 (fun _ => Outcome.response 500 none "text/html" none none none "")
        ⟨0, []⟩ 100 "https://example.com/a" none none).2.2.filter
        isClockEvent).length = 1)
    ∧ ¬ (((fetch 1 1 (fun _ => Outcome.response 500 none "text/html" none none none "")
        ⟨0, []⟩ 100 "https://example.com/a" none none).2.2.filter
        isClockEvent).length
      = ((fetch 1 1 (fun _ => Outcome.response 500 none "text/html" none none none "")
        ⟨0, []⟩ 100 "https://example.com/a" none none).2.2.filter
        isAttemptEvent).length) := by
  decide

/-- Outcomes on which `fetch` has no body to return: every caught exception
class and every HTTP status of 400 or above. -/
def isFailureOutcome : Outcome → Bool
  | .response status _ _ _ _ _ _ => 400 ≤ status
  | .timedOut _ => true
  | .tooManyRedirects _ => true
  | .requestError _ => true

/-- Outcomes whose 429 handling cannot raise: on a 429 response the
`Retry-After` header is absent or parses under Python `int()` to a
nonnegative value.  Every other outcome is unconstrained. -/
def retryAfterOk : Outcome → Bool
  | .response status hdr _ _ _ _ _ =>
    if status = 429 then
      match hdr with
      | none => true
      | some h =>
        match pyIntParse h.data with
        | some n => decide (0 ≤ n)
        | none => false
    else true
  | _ => true

theorem fetchLoop_all_fail (delay maxRetries : Nat) (env : Nat → Outcome)
    (etagIn lmIn : Option String)
    (hf : ∀ k, isFailureOutcome (env k) = true)
    (hra : ∀ k, retryAfterOk (env k) = true) :
    ∀ gas retries,
      ∃ m : FetchMeta,
        (fetchLoop delay maxRetries env etagIn lmIn retries gas).1
          = FetchResult.ok none m
        ∧ m.error.isSome = true
        ∧ ((fetchLoop delay maxRetries env etagIn lmIn retries gas).2.filter
            isAttemptEvent).length ≤ gas := by
  intro gas
  induction gas with
  | zero =>
    exact fun retries =>
      ⟨{ statusCode := 0, error := some "Max retries exceeded" }, rfl, rfl,
        Nat.le_refl 0⟩
  | succ g ih =>
    intro retries
    have hfr := hf retries
    have hrar := hra retries
    rw [fetchLoop]
    cases henv : env retries with
    | response status ra ct etg lm enc body =>
      rw [henv] at hfr hrar
      simp only [isFailureOutcome, decide_eq_true_eq] at hfr
      have h1 : ¬ status = 304 := by omega
      have h3 : 400 ≤ status := hfr
      by_cases h2 : status = 429
      · obtain ⟨m, hm1, hm2, hm3⟩ := ih (retries + 1)
        rcases ra with _ | hdr
        · refine ⟨m, ?_, hm2, ?_⟩ <;> simp only [if_neg h1, if_pos h2]
          · exact hm1
          · simp [List.filter_append, List.filter_cons, List.filter_nil,
              isAttemptEvent, List.length_append, List.length_cons]
            omega
        · simp only [retryAfterOk, if_pos h2] at hrar
          rcases hpp : pyIntParse hdr.data with _ | n
          · simp [hpp] at hrar
          · rw [hpp] at hrar
            simp only [decide_eq_true_eq] at hrar
            have hneg : ¬ n < 0 := by omega
            refine ⟨m, ?_, hm2, ?_⟩ <;>
              simp only [if_neg h1, if_pos h2, hpp, if_neg hneg]
            · exact hm1
            · simp [List.filter_append, List.filter_cons, List.filter_nil,
                isAttemptEvent, List.length_append, List.length_cons]
              omega
      · by_cases h4 : status = 404
        · refine ⟨{ statusCode := 404, error := some "Not Found" }, ?_, rfl,
            ?_⟩ <;>
            simp [if_neg h1, if_neg h2, if_pos h3, if_pos h4, isAttemptEvent]
        · by_cases h5 : retries < maxRetries
          · obtain ⟨m, hm1, hm2, hm3⟩ := ih (retries + 1)
            refine ⟨m, ?_, hm2, ?_⟩ <;>
              simp only [if_neg h1, if_neg h2, if_pos h3, if_neg h4, if_pos h5]
            · exact hm1
            · simp [List.filter_append, List.filter_cons, List.filter_nil,
                isAttemptEvent, List.length_append, List.length_cons]
              omega
          · refine ⟨{ statusCode := status,
                      error := some ("HTTP error: " ++ toString status) },
              ?_, rfl, ?_⟩ <;>
              simp [if_neg h1, if_neg h2, if_pos h3, if_neg h4, if_neg h5,
                isAttemptEvent]
    | timedOut msg =>
      by_cases h1 : retries + 1 ≤ maxRetries
      · obtain ⟨m, hm1, hm2, hm3⟩ := ih (retries + 1)
        refine ⟨m, ?_, hm2, ?_⟩ <;> simp only [if_pos h1]
        · exact hm1
        · simp [List.filter_append, List.filter_cons, List.filter_nil,
            isAttemptEvent, List.length_append, List.length_cons]
          omega
      · refine ⟨{ statusCode := 0, error := some ("Timeout: " ++ msg) }, ?_,
          rfl, ?_⟩ <;> simp [if_neg h1, isAttemptEvent]
    | tooManyRedirects msg =>
      refine ⟨{ statusCode := 0, error := some ("Too many redirects: " ++ msg) },
        rfl, rfl, ?_⟩
      simp [isAttemptEvent]
    | requestError msg =>
      by_cases h1 : retries + 1 ≤ maxRetries
      · obtain ⟨m, hm1, hm2, hm3⟩ := ih (retries + 1)
        refine ⟨m, ?_, hm2, ?_⟩ <;> simp only [if_pos h1]
        · exact hm1
        · simp [List.filter_append, List.filter_cons, List.filter_nil,
            isAttemptEvent, List.length_append, List.length_cons]
          omega
      · refine ⟨{ statusCode := 0, error := some msg }, ?_, rfl, ?_⟩ <;>
          simp [if_neg h1, isAttemptEvent]

theorem range_map_pow_shift (delay base g : Nat) :
    delay * 2 ^ (base + 1) ::
        (List.range g).map (fun i => delay * 2 ^ (base + 1 + 1 + i))
      = (List.range (g + 1)).map (fun i => delay * 2 ^ (base + 1 + i)) := by
  rw [List.range_succ_eq_map, List.map_cons, List.map_map]
  congr 1
  apply List.map_congr_left
  intro i _
  have he : base + 1 + 1 + i = base + 1 + (i + 1) := by omega
  show delay * 2 ^ (base + 1 + 1 + i) = delay * 2 ^ (base + 1 + (i + 1))
  rw [he]

theorem fetchLoop_const_http_error (delay maxRetries status : Nat)
    (ra : Option String) (ct : String) (etg lm enc : Option String) (body : String)
    (etagIn lmIn : Option String) (h400 : 400 ≤ status) (h404 : status ≠ 404)
    (h429 : status ≠ 429) :
    ∀ gas retries, retries + gas = maxRetries + 1 → 1 ≤ gas →
      (fetchLoop delay maxRetries (fun _ => Outcome.response status ra ct etg lm enc body)
          etagIn lmIn retries gas).1
        = FetchResult.ok none { statusCode := status,
                                error := some ("HTTP error: " ++ toString status) }
      ∧ sleepAmounts (fetchLoop delay maxRetries
          (fun _ => Outcome.response status ra ct etg lm enc body)
          etagIn lmIn retries gas).2
        = (List.range (gas - 1)).map (fun i => delay * 2 ^ (retries + 1 + i))
      ∧ ((fetchLoop delay maxRetries (fun _ => Outcome.response status ra ct etg lm enc body)
          etagIn lmIn retries gas).2.filter isAttemptEvent).length = gas := by
  intro gas
  induction gas with
  | zero => intro retries _ h1; omega
  | succ g ih =>
    intro retries hsum _
    have h304 : ¬ status = 304 := by omega
    rcases Nat.eq_zero_or_pos g with hg | hg
    · subst hg
      have hge : ¬ retries < maxRetries := by omega
      rw [fetchLoop]
      refine ⟨?_, ?_, ?_⟩ <;>
        simp [if_neg h304, if_neg h429, if_pos h400, if_neg h404, if_neg hge,
          sleepAmounts, isAttemptEvent]
    · have hlt : retries < maxRetries := by omega
      have hrec := ih (retries + 1) (by omega) (by omega)
      rw [fetchLoop]
      refine ⟨?_, ?_, ?_⟩ <;>
        simp only [if_neg h304, if_neg h429, if_pos h400, if_neg h404,
          if_pos hlt]
      · exact hrec.1
      · simp only [sleepAmounts, List.filterMap_append, List.filterMap_cons,
          List.filterMap_nil, List.nil_append, List.cons_append,
          List.singleton_append] at hrec ⊢
        rw [hrec.2.1]
        rw [range_map_pow_shift delay retries (g - 1),
          show g - 1 + 1 = g from by omega, show g + 1 - 1 = g from rfl]
      · simp only [List.filter_append, List.filter_cons, List.filter_nil,
          isAttemptEvent, List.length_append, List.length_cons] at hrec ⊢
        simp [hrec.2.2]
        omega

theorem fetchLoop_const_timeout (delay maxRetries : Nat) (msg : String)
    (etagIn lmIn : Option String) :
    ∀ gas retries, retries + gas = maxRetries + 1 → 1 ≤ gas →
      (fetchLoop delay maxRetries (fun _ => Outcome.timedOut msg)
          etagIn lmIn retries gas).1
        = FetchResult.ok none { statusCode := 0,
                                error := some ("Timeout: " ++ msg) }
      ∧ sleepAmounts (fetchLoop delay maxRetries (fun _ => Outcome.timedOut msg)
          etagIn lmIn retries gas).2
        = (List.range (gas - 1)).map (fun i => delay * 2 ^ (retries + 1 + i))
      ∧ ((fetchLoop delay maxRetries (fun _ => Outcome.timedOut msg)
          etagIn lmIn retries gas).2.filter isAttemptEvent).length = gas := by
  intro gas
  induction gas with
  | zero => intro retries _ h1; omega
  | succ g ih =>
    intro retries hsum _
    rcases Nat.eq_zero_or_pos g with hg | hg
    · subst hg
      have hge : ¬ retries + 1 ≤ maxRetries := by omega
      rw [fetchLoop]
      refine ⟨?_, ?_, ?_⟩ <;> simp [if_neg hge, sleepAmounts, isAttemptEvent]
    · have hlt : retries + 1 ≤ maxRetries := by omega
      have hrec := ih (retries + 1) (by omega) (by omega)
      rw [fetchLoop]
      refine ⟨?_, ?_, ?_⟩ <;> simp only [if_pos hlt]
      · exact hrec.1
      · simp only [sleepAmounts, List.filterMap_append, List.filterMap_cons,
          List.filterMap_nil, List.nil_append, List.cons_append,
          List.singleton_append] at hrec ⊢
        rw [hrec.2.1]
        rw [range_map_pow_shift delay retries (g - 1),
          show g - 1 + 1 = g from by omega, show g + 1 - 1 = g from rfl]
      · simp only [List.filter_append, List.filter_cons, List.filter_nil,
          isAttemptEvent, List.length_append, List.length_cons] at hrec ⊢
        simp [hrec.2.2]
        omega

theorem fetch_unfold (delay maxRetries : Nat) (env : Nat → Outcome)
    (st : FetcherState) (now : Nat) (url : String) (etagIn lmIn : Option String) :
    fetch delay maxRetries env st now url etagIn lmIn
      = ((fetchLoop delay maxRetries env etagIn lmIn 0 (maxRetries + 1)).1,
          (waitForRateLimit delay ⟨(urlsplitCore [] url.data).netloc⟩ st now).1,
          (waitForRateLimit delay ⟨(urlsplitCore [] url.data).netloc⟩ st now).2.2
            ++ (fetchLoop delay maxRetries env etagIn lmIn 0 (maxRetries + 1)).2) :=
  rfl

theorem waitForRateLimit_no_attempt (delay : Nat) (domain : String)
    (st : FetcherState) (now : Nat) :
    (waitForRateLimit delay domain st now).2.2.filter isAttemptEvent = [] := by
  obtain ⟨t, sleeps, hw, hna, _⟩ := waitForRateLimit_spec delay domain st now
  rw [hw]
  rw [List.filter_eq_nil_iff]
  intro a ha
  simp [hna a ha]

/-- C7 (amended): the fetcher's failure semantics.  (a) A 404 on the first
attempt is terminal: the call returns `(None, {status_code: 404, error})`
after exactly one GET.  (b) For every environment in which all attempts fail
(any caught network exception or any status of 400 and above) and every 429
response's `Retry-After` header, when present, is a nonnegative integer
literal, the call returns a `None` body with an `error` key in the
metadata — no exception — and performs at most `max_retries + 1` GET
attempts; without that proviso the uncaught `ValueError` from `int()`
propagates, see the counterexample.  (c) A persistently failing status
other than 404/429 is retried with exponential backoff: the retry loop
sleeps `delay * 2^(k+1)` before retry `k+1`, performs exactly
`max_retries + 1` attempts, and returns the `HTTP error` metadata.
(d) Persistent timeouts behave the same with `Timeout` metadata. -/
theorem c7_fetch_failure_metadata :
    (∀ (delay maxRetries : Nat) (env : Nat → Outcome) (st : FetcherState)
        (now : Nat) (url : String) (etagIn lmIn : Option String)
        (ra : Option String) (ct : String) (etg lm enc : Option String)
        (body : String),
      env 0 = Outcome.response 404 ra ct etg lm enc body →
        (fetch delay maxRetries env st now url etagIn lmIn).1
          = FetchResult.ok none { statusCode := 404, error := some "Not Found" }
        ∧ ((fetch delay maxRetries env st now url etagIn lmIn).2.2.filter
            isAttemptEvent).length = 1)
    ∧ (∀ (delay maxRetries : Nat) (env : Nat → Outcome) (st : FetcherState)
        (now : Nat) (url : String) (etagIn lmIn : Option String),
      (∀ k, isFailureOutcome (env k) = true) →
      (∀ k, retryAfterOk (env k) = true) →
        ∃ m : FetchMeta,
          (fetch delay maxRetries env st now url etagIn lmIn).1
            = FetchResult.ok none m
          ∧ m.error.isSome = true
          ∧ ((fetch delay maxRetries env st now url etagIn lmIn).2.2.filter
              isAttemptEvent).length ≤ maxRetries + 1)
    ∧ (∀ (delay maxRetries status : Nat) (ra : Option String) (ct : String)
        (etg lm enc : Option String) (body : String)
        (etagIn lmIn : Option String),
      400 ≤ status → status ≠ 404 → status ≠ 429 →
        (fetchLoop delay maxRetries
            (fun _ => Outcome.response status ra ct etg lm enc body)
            etagIn lmIn 0 (maxRetries + 1)).1
          = FetchResult.ok none { statusCode := status,
                                  error := some ("HTTP error: " ++ toString status) }
        ∧ sleepAmounts (fetchLoop delay maxRetries
            (fun _ => Outcome.response status ra ct etg lm enc body)
            etagIn lmIn 0 (maxRetries + 1)).2
          = (List.range maxRetries).map (fun k => delay * 2 ^ (k + 1))
        ∧ ((fetchLoop delay maxRetries
            (fun _ => Outcome.response status ra ct etg lm enc body)
            etagIn lmIn 0 (maxRetries + 1)).2.filter isAttemptEvent).length
          = maxRetries + 1)
    ∧ (∀ (delay maxRetries : Nat) (msg : String) (etagIn lmIn : Option String),
        (fetchLoop delay maxRetries (fun _ => Outcome.timedOut msg)
            etagIn lmIn 0 (maxRetries + 1)).1
          = FetchResult.ok none { statusCode := 0,
                                  error := some ("Timeout: " ++ msg) }
        ∧ sleepAmounts (fetchLoop delay maxRetries (fun _ => Outcome.timedOut msg)
            etagIn lmIn 0 (maxRetries + 1)).2
          = (List.range maxRetries).map (fun k => delay * 2 ^ (k + 1))
        ∧ ((fetchLoop delay maxRetries (fun _ => Outcome.timedOut msg)
            etagIn lmIn 0 (maxRetries + 1)).2.filter isAttemptEvent).length
          = maxRetries + 1) := by
  have hbridge : ∀ delay maxRetries : Nat,
      (List.range maxRetries).map (fun i => delay * 2 ^ (0 + 1 + i))
        = (List.range maxRetries).map (fun k => delay * 2 ^ (k + 1)) := by
    intro delay maxRetries
    apply List.map_congr_left
    intro i _
    congr 2
    omega
  refine ⟨?_, ?_, ?_, ?_⟩
  · intro delay maxRetries env st now url etagIn lmIn ra ct etg lm enc body henv
    have hloop : fetchLoop delay maxRetries env etagIn lmIn 0 (maxRetries + 1)
        = (FetchResult.ok none { statusCode := 404, error := some "Not Found" },
            [FetchEvent.attempt 0]) := by
      rw [fetchLoop, henv]
      norm_num
    constructor
    · rw [fetch_unfold, hloop]
    · rw [fetch_unfold]
      simp only [List.filter_append, waitForRateLimit_no_attempt, hloop,
        List.nil_append]
      simp [isAttemptEvent]
  · intro delay maxRetries env st now url etagIn lmIn hf hra
    obtain ⟨m, hm1, hm2, hm3⟩ := fetchLoop_all_fail delay maxRetries env etagIn
      lmIn hf hra (maxRetries + 1) 0
    refine ⟨m, ?_, hm2, ?_⟩
    · rw [fetch_unfold]
      exact hm1
    · rw [fetch_unfold]
      simp only [List.filter_append, waitForRateLimit_no_attempt,
        List.nil_append]
      exact hm3
  · intro delay maxRetries status ra ct etg lm enc body etagIn lmIn h400 h404 h429
    have h := fetchLoop_const_http_error delay maxRetries status ra ct etg lm
      enc body etagIn lmIn h400 h404 h429 (maxRetries + 1) 0 (by omega) (by omega)
    refine ⟨h.1, ?_, h.2.2⟩
    rw [h.2.1, show maxRetries + 1 - 1 = maxRetries from rfl, hbridge]
  · intro delay maxRetries msg etagIn lmIn
    have h := fetchLoop_const_timeout delay maxRetries msg etagIn lmIn
      (maxRetries + 1) 0 (by omega) (by omega)
    refine ⟨h.1, ?_, h.2.2⟩
    rw [h.2.1, show maxRetries + 1 - 1 = maxRetries from rfl, hbridge]

/-- C7 (witness): the four failure behaviours exercised at concrete
environments — a first-attempt 404, an all-attempts request error, a
persistent HTTP 500, and a persistent timeout, with one retry allowed. -/
theorem c7_fetch_failure_metadata_witness :
    ((fetch 1 1 (fun _ => Outcome.response 404 none "" none none none "")
        ⟨0, []⟩ 50 "https://example.com/x" none none).1
      = FetchResult.ok none { statusCode := 404, error := some "Not Found" })
    ∧ (∃ m : FetchMeta,
        (fetch 1 1 (fun _ => Outcome.requestError "conn") ⟨0, []⟩ 50
          "https://example.com/x" none none).1 = FetchResult.ok none m
        ∧ m.error.isSome = true)
    ∧ (sleepAmounts (fetchLoop 1 1
        (fun _ => Outcome.response 500 none "" none none none "")
        none none 0 2).2 = [2])
    ∧ ((fetchLoop 1 1 (fun _ => Outcome.timedOut "t") none none 0 2).1
      = FetchResult.ok none { statusCode := 0, error := some "Timeout: t" }) := by
  refine ⟨?_, ?_, ?_, ?_⟩
  · exact (c7_fetch_failure_metadata.1 1 1 _ ⟨0, []⟩ 50 "https://example.com/x"
      none none none "" none none none "" rfl).1
  · obtain ⟨m, hm1, hm2, _⟩ := c7_fetch_failure_metadata.2.1 1 1
      (fun _ => Outcome.requestError "conn") ⟨0, []⟩ 50
      "https://example.com/x" none none (fun k => rfl) (fun k => rfl)
    exact ⟨m, hm1, hm2⟩
  · have h := (c7_fetch_failure_metadata.2.2.1 1 1 500 none "" none none none
      "" none none (by omega) (by omega) (by omega)).2.1
    rw [h]
    decide
  · exact (c7_fetch_failure_metadata.2.2.2 1 1 "t" none none).1

/-- C7 (counterexample): a 429 response whose `Retry-After` header is not an
integer literal — the HTTP-date form the RFC allows — makes `fetch` raise
the uncaught `ValueError` that `int()` throws, instead of returning failure
metadata; the same 429 with an integer header is retried and returns
normally.  So the claim that fetch never raises on HTTP failure fails. -/
theorem c7_fetch_raises_on_nonint_retry_after :
    pyIntParse "Wed, 21 Oct 2015 07:28:00 GMT".data = none
    ∧ (fetch 1 1 (fun _ => Outcome.response 429
          (some "Wed, 21 Oct 2015 07:28:00 GMT") "text/html" none none none "")
        ⟨0, []⟩ 50 "https://example.com/x" none none).1
      = FetchResult.raised
          ("ValueError: invalid literal for int() with base 10: "
            ++ "Wed, 21 Oct 2015 07:28:00 GMT")
    ∧ pyIntParse "120".data = some 120
    ∧ (∃ m : FetchMeta,
        (fetch 1 1 (fun _ => Outcome.response 429 (some "120")
            "text/html" none none none "")
          ⟨0, []⟩ 50 "https://example.com/x" none none).1
        = FetchResult.ok none m) := by
  refine ⟨by decide, by decide, by decide,
    ⟨{ statusCode := 0, error := some "Max retries exceeded" }, by decide⟩⟩

/-!
Theorems about URL normalization and admission.
-/

/-- C9 (code bug): two admitted URLs identical except for the order of their
query parameters normalize to two different canonical URLs.  `parse_qs`
followed by `urlencode` preserves first-occurrence key order and performs no
sort, although the source's own comment above the code says the parameters
are sorted alphabetically. -/
theorem c9_query_order_preserved :
    (normalizeUrl "https://example.com" "https://example.com/p?b=2&a=1"
      = "https://example.com/p?b=2&a=1")
    ∧ (normalizeUrl "https://example.com" "https://example.com/p?a=1&b=2"
      = "https://example.com/p?a=1&b=2")
    ∧ normalizeUrl "https://example.com" "https://example.com/p?b=2&a=1"
      ≠ normalizeUrl "https://example.com" "https://example.com/p?a=1&b=2"
    ∧ (parseQs "b=2&a=1".data).Perm (parseQs "a=1&b=2".data)
    ∧ shouldCrawl "https://example.com" "https://example.com/p?b=2&a=1" = true
    ∧ shouldCrawl "https://example.com" "https://example.com/p?a=1&b=2" = true := by
  decide

/-- C3 (counterexample): an admitted URL whose path ends in a repeated slash
defeats idempotence — each application of `normalize_url` strips exactly one
trailing slash. -/
theorem c3_normalize_not_idempotent_double_slash :
    shouldCrawl "https://example.com" "https://example.com/p//" = true
    ∧ normalizeUrl "https://example.com" "https://example.com/p//"
      = "https://example.com/p/"
    ∧ normalizeUrl "https://example.com"
        (normalizeUrl "https://example.com" "https://example.com/p//")
      = "https://example.com/p"
    ∧ normalizeUrl "https://example.com"
        (normalizeUrl "https://example.com" "https://example.com/p//")
      ≠ normalizeUrl "https://example.com" "https://example.com/p//" := by
  decide

/-- C5 (counterexample): a same-domain URL with the `ftp` scheme passes
every check of `should_crawl` — the netloc equals the seed domain and no
scheme test fires — so a non-http(s) URL is admitted. -/
theorem c5_ftp_same_domain_admitted :
    ((urlsplitCore [] "ftp://example.com/stuff".data).scheme = "ftp".data)
    ∧ ((urlsplitCore [] "ftp://example.com/stuff".data).netloc
        = "example.com".data)
    ∧ shouldCrawl "https://example.com" "ftp://example.com/stuff" = true := by
  decide

/-- C5 (amended): `should_crawl` rejects empty input, URLs whose normalized
netloc differs from the seed domain (which covers `mailto:` and `tel:`
links, whose netloc is empty), URLs the `mailto:`/`tel:` checks match, URLs
whose lowercased `urlparse` path (`;parameters` stripped from the last
segment) ends in a configured static extension, and URLs whose `urlparse`
path matches the deny-list regexes; but a URL passing all these checks is
admitted even when its scheme is neither http nor https (see the `ftp`
counterexample). -/
theorem c5_amended_reject_cases (baseUrl url : String) :
    (url = "" → shouldCrawl baseUrl url = false)
    ∧ ((urlsplitCore [] (normalizeUrlL baseUrl.data true url.data)).netloc
        ≠ (urlsplitCore [] baseUrl.data).netloc →
        shouldCrawl baseUrl url = false)
    ∧ (listStartsWith "mailto:".data (normalizeUrlL baseUrl.data true url.data)
        = true → shouldCrawl baseUrl url = false)
    ∧ (listStartsWith "tel:".data (normalizeUrlL baseUrl.data true url.data)
        = true → shouldCrawl baseUrl url = false)
    ∧ (staticExtensions.any (fun ext => listEndsWith ext
          (lowerStr (urlparsePath (urlsplitCore []
            (normalizeUrlL baseUrl.data true url.data))))) = true →
        shouldCrawl baseUrl url = false)
    ∧ (excludeRegexSearch
        (urlparsePath (urlsplitCore [] (normalizeUrlL baseUrl.data true url.data)))
          = true → shouldCrawl baseUrl url = false) := by
  have hsc : shouldCrawl baseUrl url = shouldCrawlL baseUrl.data true url.data :=
    rfl
  refine ⟨?_, ?_, ?_, ?_, ?_, ?_⟩ <;> intro h
  · subst h
    rfl
  · rw [hsc]
    simp only [shouldCrawlL]
    split_ifs <;> rfl
  · rw [hsc]
    simp only [shouldCrawlL]
    split_ifs <;> rfl
  · rw [hsc]
    simp only [shouldCrawlL]
    split_ifs <;> rfl
  · rw [hsc]
    simp only [shouldCrawlL]
    split_ifs <;> rfl
  · rw [hsc]
    simp only [shouldCrawlL]
    split_ifs <;> rfl

/-- C5 (witness): the rejection cases exercised on concrete URLs from the
repository's own test suite, plus the matrix-parameter boundary: the deny
list fires on `/cart;x` (whose `urlparse` path is `/cart`) while
`/x;file.jpg` (whose `urlparse` path is `/x`) escapes the extension check
and is admitted. -/
theorem c5_amended_reject_cases_witness :
    shouldCrawl "https://example.com" "" = false
    ∧ shouldCrawl "https://example.com" "https://example.org/page" = false
    ∧ shouldCrawl "https://example.com" "mailto:test@example.com" = false
    ∧ shouldCrawl "https://example.com" "tel:12345" = false
    ∧ shouldCrawl "https://example.com" "https://example.com/image.jpg" = false
    ∧ shouldCrawl "https://example.com" "https://example.com/wp-admin/settings"
        = false
    ∧ shouldCrawl "https://example.com" "https://example.com/cart;x" = false
    ∧ urlparsePath (urlsplitCore []
        (normalizeUrlL "https://example.com".data true
          "https://example.com/x;file.jpg".data)) = "/x".data
    ∧ shouldCrawl "https://example.com" "https://example.com/x;file.jpg"
        = true := by
  refine ⟨?_, ?_, ?_, ?_, ?_, ?_, ?_, ?_, ?_⟩
  · exact (c5_amended_reject_cases "https://example.com" "").1 rfl
  · exact (c5_amended_reject_cases "https://example.com"
      "https://example.org/page").2.1 (by decide)
  · exact (c5_amended_reject_cases "https://example.com"
      "mailto:test@example.com").2.2.1 (by decide)
  · exact (c5_amended_reject_cases "https://example.com"
      "tel:12345").2.2.2.1 (by decide)
  · exact (c5_amended_reject_cases "https://example.com"
      "https://example.com/image.jpg").2.2.2.2.1 (by decide)
  · exact (c5_amended_reject_cases "https://example.com"
      "https://example.com/wp-admin/settings").2.2.2.2.2 (by decide)
  · exact (c5_amended_reject_cases "https://example.com"
      "https://example.com/cart;x").2.2.2.2.2 (by decide)
  · decide
  · decide

/-- C2 (witness): the amended subset relation applied on the one-page run:
the drained frontier's visited seed is still a member of the queued set. -/
theorem c2_amended_visited_subset_queued_witness :
    "https://a.test" ∈ (crawlLoop [("https://a.test", [])] 10 2
      (initCrawl "https://a.test")).queued :=
  (c2_amended_visited_subset_queued [("https://a.test", [])] 10 2
    "https://a.test").1 (by decide)

/-!
Idempotence analysis of `normalize_url` (claim C3).  The development below
characterises the shape of a normalized URL and proves that a second
application of `normalize_url` is the identity on every admitted URL whose
normalized form does not end in a slash.  It begins with character-level
facts about ASCII lowercasing, the scheme/safe character classes and
percent-encoding.
-/

/-- Characters that survive the tab/CR/LF stripping of `urlsplit`. -/
def okChar (c : Char) : Bool := !(c = '\t' || c = '\r' || c = '\n')

theorem char_eq_of_toNat_eq {a b : Char} (h : a.toNat = b.toNat) : a = b :=
  Char.eq_of_val_eq (UInt32.ext h)

theorem toNat_ofNat_valid {n : Nat} (h : Nat.isValidChar n) :
    (Char.ofNat n).toNat = n := by
  unfold Char.ofNat
  rw [dif_pos h]
  simp [Char.ofNatAux, Char.toNat, UInt32.toNat]

theorem toLower_toNat (c : Char) :
    c.toLower.toNat =
      if c.toNat ≥ 65 ∧ c.toNat ≤ 90 then c.toNat + 32 else c.toNat := by
  unfold Char.toLower
  show (if c.toNat ≥ 65 ∧ c.toNat ≤ 90 then Char.ofNat (c.toNat + 32)
    else c).toNat = _
  split_ifs with h
  · exact toNat_ofNat_valid (Or.inl (by omega))
  · rfl

theorem toLower_toLower (c : Char) : c.toLower.toLower = c.toLower := by
  apply char_eq_of_toNat_eq
  rw [toLower_toNat, toLower_toNat]
  split_ifs <;> omega

theorem okChar_iff {c : Char} : okChar c = true ↔
    c ≠ '\t' ∧ c ≠ '\r' ∧ c ≠ '\n' := by
  simp [okChar, not_or, and_assoc]

theorem isAlpha_nat {c : Char} (h : c.isAlpha = true) :
    (65 ≤ c.toNat ∧ c.toNat ≤ 90) ∨ (97 ≤ c.toNat ∧ c.toNat ≤ 122) := by
  simp only [Char.isAlpha, Char.isUpper, Char.isLower, Bool.or_eq_true,
    Bool.and_eq_true, decide_eq_true_eq, UInt32.le_def] at h
  rcases h with ⟨h1, h2⟩ | ⟨h1, h2⟩
  · exact Or.inl ⟨h1, h2⟩
  · exact Or.inr ⟨h1, h2⟩

theorem isAlpha_of_nat {c : Char}
    (h : (65 ≤ c.toNat ∧ c.toNat ≤ 90) ∨ (97 ≤ c.toNat ∧ c.toNat ≤ 122)) :
    c.isAlpha = true := by
  simp only [Char.isAlpha, Char.isUpper, Char.isLower, Bool.or_eq_true,
    Bool.and_eq_true, decide_eq_true_eq]
  rcases h with ⟨h1, h2⟩ | ⟨h1, h2⟩
  · exact Or.inl ⟨h1, h2⟩
  · exact Or.inr ⟨h1, h2⟩

theorem isAlpha_toLower {c : Char} (h : c.isAlpha = true) :
    c.toLower.isAlpha = true := by
  have hn := isAlpha_nat h
  apply isAlpha_of_nat
  rw [toLower_toNat]
  split_ifs <;> omega

theorem isSchemeChar_props {c : Char} (h : isSchemeChar c = true) :
    c ≠ ':' ∧ c ≠ '/' ∧ c ≠ '?' ∧ c ≠ '#' ∧ okChar c = true := by
  refine ⟨?_, ?_, ?_, ?_, ?_⟩
  · rintro rfl; exact absurd h (by decide)
  · rintro rfl; exact absurd h (by decide)
  · rintro rfl; exact absurd h (by decide)
  · rintro rfl; exact absurd h (by decide)
  · rw [okChar_iff]
    refine ⟨?_, ?_, ?_⟩
    · rintro rfl; exact absurd h (by decide)
    · rintro rfl; exact absurd h (by decide)
    · rintro rfl; exact absurd h (by decide)

theorem isSchemeChar_of_isAlpha {c : Char} (h : c.isAlpha = true) :
    isSchemeChar c = true := by
  simp [isSchemeChar, Char.isAlphanum, h]

theorem isDigit_nat {c : Char} (h : c.isDigit = true) :
    48 ≤ c.toNat ∧ c.toNat ≤ 57 := by
  simp only [Char.isDigit, Bool.and_eq_true, decide_eq_true_eq] at h
  exact ⟨h.1, h.2⟩

theorem toLower_eq_self_of_not_upper {c : Char}
    (h : ¬(65 ≤ c.toNat ∧ c.toNat ≤ 90)) : c.toLower = c := by
  apply char_eq_of_toNat_eq
  rw [toLower_toNat, if_neg h]

theorem isSchemeChar_toLower {c : Char} (h : isSchemeChar c = true) :
    isSchemeChar c.toLower = true := by
  simp only [isSchemeChar, Char.isAlphanum, Bool.or_eq_true,
    decide_eq_true_eq] at h
  rcases h with (((ha | hd) | hp) | hm) | hd2
  · exact isSchemeChar_of_isAlpha (isAlpha_toLower ha)
  · have := isDigit_nat hd
    rw [toLower_eq_self_of_not_upper (by omega)]
    simp [isSchemeChar, Char.isAlphanum, hd]
  · subst hp; decide
  · subst hm; decide
  · subst hd2; decide

theorem isSafeChar_props {c : Char} (h : isSafeChar c = true) :
    c ≠ '&' ∧ c ≠ '=' ∧ c ≠ '#' ∧ c ≠ '/' ∧ c ≠ '?' ∧ c ≠ '+' ∧ c ≠ '%'
      ∧ c ≠ ' ' ∧ okChar c = true := by
  refine ⟨?_, ?_, ?_, ?_, ?_, ?_, ?_, ?_, ?_⟩
  · rintro rfl; exact absurd h (by decide)
  · rintro rfl; exact absurd h (by decide)
  · rintro rfl; exact absurd h (by decide)
  · rintro rfl; exact absurd h (by decide)
  · rintro rfl; exact absurd h (by decide)
  · rintro rfl; exact absurd h (by decide)
  · rintro rfl; exact absurd h (by decide)
  · rintro rfl; exact absurd h (by decide)
  · rw [okChar_iff]
    refine ⟨?_, ?_, ?_⟩
    · rintro rfl; exact absurd h (by decide)
    · rintro rfl; exact absurd h (by decide)
    · rintro rfl; exact absurd h (by decide)

theorem isHexCh_hexDigitUpper {n : Nat} (h : n < 16) :
    isHexCh (hexDigitUpper n) = true := by
  interval_cases n <;> decide

theorem hexVal_hexDigitUpper {n : Nat} (h : n < 16) :
    hexVal (hexDigitUpper n) = n := by
  interval_cases n <;> decide

theorem isSafeChar_hexDigitUpper {n : Nat} (h : n < 16) :
    isSafeChar (hexDigitUpper n) = true := by
  interval_cases n <;> decide

theorem utf8DecodeF_nil (n : Nat) : utf8DecodeF n [] = [] := by
  cases n <;> rfl

theorem utf8DecodeF_stable : ∀ n m : Nat, ∀ l : List Nat,
    l.length ≤ n → l.length ≤ m → utf8DecodeF n l = utf8DecodeF m l := by
  intro n
  induction n with
  | zero =>
    intro m l hn _
    have hl : l = [] := List.eq_nil_of_length_eq_zero (Nat.le_zero.mp hn)
    subst hl
    rw [utf8DecodeF_nil, utf8DecodeF_nil]
  | succ n ih =>
    intro m l hn hm
    cases l with
    | nil => rw [utf8DecodeF_nil, utf8DecodeF_nil]
    | cons b bs =>
      cases m with
      | zero => simp at hm
      | succ m =>
        simp only [List.length_cons, Nat.add_le_add_iff_right] at hn hm
        simp only [utf8DecodeF]
        by_cases h1 : b < 0x80
        · simp only [if_pos h1, ih m bs hn hm]
        · simp only [if_neg h1]
          by_cases h2 : b < 0xC2
          · simp only [if_pos h2, ih m bs hn hm]
          · simp only [if_neg h2]
            by_cases h3 : b < 0xE0
            · simp only [if_pos h3]
              cases bs with
              | nil => rfl
              | cons b1 rest =>
                have hr : rest.length ≤ n := by
                  simp only [List.length_cons] at hn; omega
                have hr2 : rest.length ≤ m := by
                  simp only [List.length_cons] at hm; omega
                by_cases hc : isContByte b1 = true
                · simp only [if_pos hc, ih m rest hr hr2]
                · simp only [if_neg hc, ih m (b1 :: rest) hn hm]
            · simp only [if_neg h3]
              by_cases h4 : b < 0xF0
              · simp only [if_pos h4]
                match bs with
                | [] => rfl
                | [b1] => rfl
                | b1 :: b2 :: rest =>
                  have hr : rest.length ≤ n := by
                    simp only [List.length_cons] at hn; omega
                  have hr2 : rest.length ≤ m := by
                    simp only [List.length_cons] at hm; omega
                  by_cases hc : (isContByte b1 && isContByte b2) = true
                  · simp only [if_pos hc, ih m rest hr hr2]
                  · simp only [if_neg hc, ih m (b1 :: b2 :: rest) hn hm]
              · simp only [if_neg h4]
                by_cases h5 : b < 0xF5
                · simp only [if_pos h5]
                  match bs with
                  | [] => rfl
                  | [b1] => rfl
                  | [b1, b2] => rfl
                  | b1 :: b2 :: b3 :: rest =>
                    have hr : rest.length ≤ n := by
                      simp only [List.length_cons] at hn; omega
                    have hr2 : rest.length ≤ m := by
                      simp only [List.length_cons] at hm; omega
                    by_cases hc :
                        (isContByte b1 && isContByte b2 && isContByte b3) = true
                    · simp only [if_pos hc, ih m rest hr hr2]
                    · simp only [if_neg hc, ih m (b1 :: b2 :: b3 :: rest) hn hm]
                · simp only [if_neg h5, ih m bs hn hm]

theorem utf8Decode_eq_F {l : List Nat} {n : Nat} (h : l.length ≤ n) :
    utf8Decode l = utf8DecodeF n l :=
  utf8DecodeF_stable l.length n l (Nat.le_refl _) h

theorem utf8DecodeF_one {n b : Nat} {bs : List Nat} (h : b < 0x80) :
    utf8DecodeF (n + 1) (b :: bs) = mkCp b :: utf8DecodeF n bs := by
  simp only [utf8DecodeF, if_pos h]

theorem utf8DecodeF_two {n b b1 : Nat} {bs : List Nat}
    (h2 : 0xC2 ≤ b) (h3 : b < 0xE0) (hc : isContByte b1 = true) :
    utf8DecodeF (n + 1) (b :: b1 :: bs)
      = mkCp ((b - 0xC0) * 64 + (b1 - 0x80)) :: utf8DecodeF n bs := by
  simp only [utf8DecodeF, if_neg (show ¬b < 0x80 by omega),
    if_neg (show ¬b < 0xC2 by omega), if_pos h3, if_pos hc]

theorem utf8DecodeF_three {n b b1 b2 : Nat} {bs : List Nat}
    (h3 : 0xE0 ≤ b) (h4 : b < 0xF0)
    (hc : (isContByte b1 && isContByte b2) = true)
    (hm : ¬(b - 0xE0) * 4096 + (b1 - 0x80) * 64 + (b2 - 0x80) < 0x800) :
    utf8DecodeF (n + 1) (b :: b1 :: b2 :: bs)
      = mkCp ((b - 0xE0) * 4096 + (b1 - 0x80) * 64 + (b2 - 0x80))
          :: utf8DecodeF n bs := by
  simp only [utf8DecodeF, if_neg (show ¬b < 0x80 by omega),
    if_neg (show ¬b < 0xC2 by omega), if_neg (show ¬b < 0xE0 by omega),
    if_pos h4, if_pos hc, if_neg hm]

theorem utf8DecodeF_four {n b b1 b2 b3 : Nat} {bs : List Nat}
    (h4 : 0xF0 ≤ b) (h5 : b < 0xF5)
    (hc : (isContByte b1 && isContByte b2 && isContByte b3) = true)
    (hm : ¬((b - 0xF0) * 262144 + (b1 - 0x80) * 4096 + (b2 - 0x80) * 64
        + (b3 - 0x80) < 0x10000
      || decide (0x110000 ≤ (b - 0xF0) * 262144 + (b1 - 0x80) * 4096
        + (b2 - 0x80) * 64 + (b3 - 0x80))) = true) :
    utf8DecodeF (n + 1) (b :: b1 :: b2 :: b3 :: bs)
      = mkCp ((b - 0xF0) * 262144 + (b1 - 0x80) * 4096 + (b2 - 0x80) * 64
          + (b3 - 0x80)) :: utf8DecodeF n bs := by
  simp only [utf8DecodeF, if_neg (show ¬b < 0x80 by omega),
    if_neg (show ¬b < 0xC2 by omega), if_neg (show ¬b < 0xE0 by omega),
    if_neg (show ¬b < 0xF0 by omega), if_pos h5, if_pos hc, if_neg hm]

theorem mkCp_toNat (c : Char) : mkCp c.toNat = c := by
  have hv : c.toNat < 55296 ∨ (57343 < c.toNat ∧ c.toNat < 1114112) := c.valid
  have hc : validCp c.toNat = true := by
    unfold validCp
    rw [decide_eq_true_eq]
    omega
  unfold mkCp
  rw [if_pos hc, Char.ofNat_toNat]

theorem utf8Decode_encode_cons (c : Char) (bs : List Nat) :
    utf8Decode (utf8Bytes c ++ bs) = c :: utf8Decode bs := by
  have hv : c.toNat < 55296 ∨ (57343 < c.toNat ∧ c.toNat < 1114112) := c.valid
  by_cases h1 : c.toNat < 0x80
  · have hb : utf8Bytes c = [c.toNat] := by simp [utf8Bytes, h1]
    rw [hb, utf8Decode_eq_F (n := bs.length + 1) (by simp),
      List.cons_append, List.nil_append, utf8DecodeF_one h1, mkCp_toNat]
    rfl
  · by_cases h2 : c.toNat < 0x800
    · have hb : utf8Bytes c = [0xC0 + c.toNat / 64, 0x80 + c.toNat % 64] := by
        simp [utf8Bytes, h1, h2]
      rw [hb, utf8Decode_eq_F (n := bs.length + 1 + 1) (by simp)]
      simp only [List.cons_append, List.nil_append]
      rw [utf8DecodeF_two (by omega) (by omega)
        (by simp only [isContByte, Bool.and_eq_true, decide_eq_true_eq]
            omega)]
      rw [show (0xC0 + c.toNat / 64 - 0xC0) * 64 + (0x80 + c.toNat % 64 - 0x80)
          = c.toNat from by omega, mkCp_toNat,
        ← utf8Decode_eq_F (show bs.length ≤ bs.length + 1 by omega)]
    · by_cases h3 : c.toNat < 0x10000
      · have hb : utf8Bytes c = [0xE0 + c.toNat / 4096,
            0x80 + c.toNat / 64 % 64, 0x80 + c.toNat % 64] := by
          simp [utf8Bytes, h1, h2, h3]
        rw [hb, utf8Decode_eq_F (n := bs.length + 1 + 1 + 1) (by simp)]
        simp only [List.cons_append, List.nil_append]
        rw [utf8DecodeF_three (by omega) (by omega)
          (by simp only [isContByte, Bool.and_eq_true, decide_eq_true_eq]
              omega)
          (by omega)]
        rw [show (0xE0 + c.toNat / 4096 - 0xE0) * 4096
            + (0x80 + c.toNat / 64 % 64 - 0x80) * 64
            + (0x80 + c.toNat % 64 - 0x80) = c.toNat from by omega, mkCp_toNat,
          ← utf8Decode_eq_F (show bs.length ≤ bs.length + 2 by omega)]
      · have hb : utf8Bytes c = [0xF0 + c.toNat / 262144,
            0x80 + c.toNat / 4096 % 64, 0x80 + c.toNat / 64 % 64,
            0x80 + c.toNat % 64] := by
          simp [utf8Bytes, h1, h2, h3]
        rw [hb, utf8Decode_eq_F (n := bs.length + 1 + 1 + 1 + 1)
          (by simp)]
        simp only [List.cons_append, List.nil_append]
        rw [utf8DecodeF_four (by omega) (by omega)
          (by simp only [isContByte, Bool.and_eq_true, decide_eq_true_eq]
              omega)
          (by simp only [Bool.or_eq_true, decide_eq_true_eq, not_or]
              omega)]
        rw [show (0xF0 + c.toNat / 262144 - 0xF0) * 262144
            + (0x80 + c.toNat / 4096 % 64 - 0x80) * 4096
            + (0x80 + c.toNat / 64 % 64 - 0x80) * 64
            + (0x80 + c.toNat % 64 - 0x80) = c.toNat from by omega, mkCp_toNat,
          ← utf8Decode_eq_F (show bs.length ≤ bs.length + 3 by omega)]

theorem utf8Decode_flatMap (cs : List Char) :
    utf8Decode (cs.flatMap utf8Bytes) = cs := by
  induction cs with
  | nil => rfl
  | cons c cs ih => rw [List.flatMap_cons, utf8Decode_encode_cons, ih]

theorem utf8Bytes_lt (c : Char) : ∀ b ∈ utf8Bytes c, b < 256 := by
  have hv : c.toNat < 55296 ∨ (57343 < c.toNat ∧ c.toNat < 1114112) := c.valid
  intro b hb
  by_cases h1 : c.toNat < 0x80
  · simp [utf8Bytes, h1] at hb
    omega
  · by_cases h2 : c.toNat < 0x800
    · simp [utf8Bytes, h1, h2] at hb
      rcases hb with hb | hb <;> omega
    · by_cases h3 : c.toNat < 0x10000
      · simp [utf8Bytes, h1, h2, h3] at hb
        rcases hb with hb | hb | hb <;> omega
      · simp [utf8Bytes, h1, h2, h3] at hb
        rcases hb with hb | hb | hb | hb <;> omega

theorem utf8Bytes_ne_nil (c : Char) : utf8Bytes c ≠ [] := by
  simp only [utf8Bytes]
  split_ifs <;> simp

/-- Token list contributed by one character of a `quote_plus` input. -/
def tokOf (c : Char) : List (Char ⊕ Nat) :=
  if c = ' ' then [Sum.inl ' ']
  else if isSafeChar c then [Sum.inl c]
  else (utf8Bytes c).map Sum.inr

theorem unqTokens_cons_ne {c : Char} (l : Str) (hc : c ≠ '%') :
    unqTokens (c :: l) = Sum.inl c :: unqTokens l := by
  match l with
  | [] => simp [unqTokens]
  | [a] => simp [unqTokens]
  | a :: b :: t => rw [unqTokens.eq_def]; simp [hc]


theorem unqTokens_pct {b : Nat} (hb : b < 256) (l : Str) :
    unqTokens (pctEncByte b ++ l) = Sum.inr b :: unqTokens l := by
  have hd1 : isHexCh (hexDigitUpper (b / 16)) = true :=
    isHexCh_hexDigitUpper (by omega)
  have hd2 : isHexCh (hexDigitUpper (b % 16)) = true :=
    isHexCh_hexDigitUpper (by omega)
  show unqTokens ('%' :: hexDigitUpper (b / 16) :: hexDigitUpper (b % 16) :: l)
    = _
  rw [unqTokens.eq_def]
  simp only [hd1, hd2, Bool.and_self, if_true]
  rw [hexVal_hexDigitUpper (by omega), hexVal_hexDigitUpper (by omega),
    show b / 16 * 16 + b % 16 = b from by omega]

theorem unqTokens_append_map_inr {bl : List Nat} (hb : ∀ b ∈ bl, b < 256)
    (l : Str) :
    unqTokens ((bl.map pctEncByte).flatten ++ l)
      = bl.map Sum.inr ++ unqTokens l := by
  induction bl with
  | nil => simp
  | cons b bs ih =>
    simp only [List.map_cons, List.flatten_cons, List.append_assoc,
      List.cons_append]
    rw [unqTokens_pct (hb b (by simp)) _, ih (fun x hx => hb x (by simp [hx]))]

theorem unqTokens_qchar (c : Char) (r : Str) :
    unqTokens ((quoteChar c).map plusToSpace ++ r)
      = tokOf c ++ unqTokens r := by
  by_cases hsp : c = ' '
  · subst hsp
    rw [show (quoteChar ' ').map plusToSpace = [' '] from by rfl]
    rw [show ([' '] : Str) ++ r = ' ' :: r from rfl,
      unqTokens_cons_ne _ (by decide)]
    rfl
  · by_cases hsafe : isSafeChar c = true
    · have hprops := isSafeChar_props hsafe
      rw [show (quoteChar c).map plusToSpace = [c] from by
        simp [quoteChar, if_neg hsp, hsafe, plusToSpace,
          hprops.2.2.2.2.2.1]]
      rw [show ([c] : Str) ++ r = c :: r from rfl,
        unqTokens_cons_ne _ hprops.2.2.2.2.2.2.1]
      simp [tokOf, hsp, hsafe]
    · have hq : quoteChar c = ((utf8Bytes c).map pctEncByte).flatten := by
        simp [quoteChar, hsp, hsafe]
      have hnp : (quoteChar c).map plusToSpace = quoteChar c := by
        rw [hq]
        refine (List.map_congr_left ?_).trans (List.map_id _)
        intro a ha
        simp only [List.mem_flatten, List.mem_map] at ha
        obtain ⟨piece, ⟨bb, hbb, hpiece⟩, hain⟩ := ha
        subst hpiece
        have hblt : bb < 256 := utf8Bytes_lt c bb hbb
        simp only [pctEncByte, List.mem_cons, List.not_mem_nil,
          or_false] at hain
        have hne : a ≠ '+' := by
          rcases hain with rfl | rfl | rfl
          · decide
          · exact (isSafeChar_props (isSafeChar_hexDigitUpper
              (show bb / 16 < 16 by omega))).2.2.2.2.2.1
          · exact (isSafeChar_props (isSafeChar_hexDigitUpper
              (show bb % 16 < 16 by omega))).2.2.2.2.2.1
        simp [plusToSpace, hne]
      rw [hnp, hq, unqTokens_append_map_inr (utf8Bytes_lt c)]
      simp [tokOf, hsp, hsafe]

theorem unqTokens_quotePlus (s : Str) (l : Str) :
    unqTokens ((quotePlus s).map plusToSpace ++ l)
      = (s.map tokOf).flatten ++ unqTokens l := by
  induction s with
  | nil => simp [quotePlus]
  | cons c cs ih =>
    simp only [quotePlus, List.map_cons, List.flatten_cons, List.map_append,
      List.append_assoc]
    rw [unqTokens_qchar]
    show _ = tokOf c ++ ((cs.map tokOf).flatten ++ unqTokens l)
    rw [show ((cs.map quoteChar).flatten).map plusToSpace ++ l
        = (quotePlus cs).map plusToSpace ++ l from rfl, ih]

theorem unqFlush_map_inr (bl : List Nat) (ts : List (Char ⊕ Nat)) :
    ∀ acc : List Nat,
      unqFlush (bl.map Sum.inr ++ ts) acc = unqFlush ts (acc ++ bl) := by
  induction bl with
  | nil => intro acc; simp
  | cons b bs ih =>
    intro acc
    simp only [List.map_cons, List.cons_append]
    rw [show unqFlush (Sum.inr b :: (bs.map Sum.inr ++ ts)) acc
        = unqFlush (bs.map Sum.inr ++ ts) (acc ++ [b]) from rfl, ih]
    simp

theorem unqFlush_tokOf (s : Str) : ∀ pref : List Char,
    unqFlush ((s.map tokOf).flatten) (pref.flatMap utf8Bytes) = pref ++ s := by
  induction s with
  | nil =>
    intro pref
    show utf8Decode (pref.flatMap utf8Bytes) = pref ++ []
    rw [utf8Decode_flatMap, List.append_nil]
  | cons c cs ih =>
    intro pref
    simp only [List.map_cons, List.flatten_cons]
    by_cases hsp : c = ' '
    · subst hsp
      rw [show tokOf ' ' = [Sum.inl ' '] from rfl]
      show utf8Decode (pref.flatMap utf8Bytes)
        ++ ' ' :: unqFlush ((cs.map tokOf).flatten) [] = _
      have h0 := ih []
      rw [show (([] : List Char).flatMap utf8Bytes) = [] from rfl] at h0
      rw [utf8Decode_flatMap, h0]
      simp
    · by_cases hsafe : isSafeChar c = true
      · rw [show tokOf c = [Sum.inl c] from by simp [tokOf, hsp, hsafe]]
        show utf8Decode (pref.flatMap utf8Bytes)
          ++ c :: unqFlush ((cs.map tokOf).flatten) [] = _
        have h0 := ih []
        rw [show (([] : List Char).flatMap utf8Bytes) = [] from rfl] at h0
        rw [utf8Decode_flatMap, h0]
        simp
      · rw [show tokOf c = (utf8Bytes c).map Sum.inr from by
          simp [tokOf, hsp, hsafe]]
        rw [unqFlush_map_inr]
        rw [show pref.flatMap utf8Bytes ++ utf8Bytes c
            = (pref ++ [c]).flatMap utf8Bytes from by
          rw [List.flatMap_append]; simp]
        rw [ih (pref ++ [c])]
        simp

theorem unquotePlus_quotePlus (s : Str) : unquotePlus (quotePlus s) = s := by
  show unqFlush (unqTokens ((quotePlus s).map plusToSpace)) [] = s
  have h := unqTokens_quotePlus s []
  rw [List.append_nil] at h
  rw [h, show unqTokens [] = [] from rfl, List.append_nil]
  have h2 := unqFlush_tokOf s []
  rw [show (([] : List Char).flatMap utf8Bytes) = [] from rfl] at h2
  rw [h2]
  rfl

theorem quoteChar_ne_nil (c : Char) : quoteChar c ≠ [] := by
  unfold quoteChar
  split_ifs with h1 h2
  · simp
  · simp
  · rw [Ne, List.flatten_eq_nil_iff]
    intro hall
    have hb := utf8Bytes_ne_nil c
    match hby : utf8Bytes c with
    | [] => exact hb hby
    | b :: bs =>
      have : pctEncByte b = [] := hall _ (by rw [hby]; simp)
      simp [pctEncByte] at this

theorem quotePlus_ne_nil {s : Str} (h : s ≠ []) : quotePlus s ≠ [] := by
  match s with
  | [] => exact absurd rfl h
  | c :: cs =>
    show quoteChar c ++ (quotePlus cs) ≠ []
    simp [quoteChar_ne_nil c]

theorem unqTokens_ne_nil : ∀ {l : Str}, l ≠ [] → unqTokens l ≠ [] := by
  intro l hl
  match l with
  | [] => exact absurd rfl hl
  | c :: rest =>
    by_cases hc : c = '%'
    · subst hc
      match rest with
      | [] => simp [unqTokens]
      | [a] => simp [unqTokens]
      | a :: b :: t =>
        rw [unqTokens.eq_def]
        by_cases hh : (isHexCh a && isHexCh b) = true
        · simp [hh]
        · simp [hh]
    · rw [unqTokens_cons_ne _ hc]
      simp

theorem utf8DecodeF_cons_ne_nil (n b : Nat) (bs : List Nat) :
    utf8DecodeF (n + 1) (b :: bs) ≠ [] := by
  simp only [utf8DecodeF]
  by_cases h1 : b < 0x80
  · simp [h1]
  · simp only [if_neg h1]
    by_cases h2 : b < 0xC2
    · simp [h2]
    · simp only [if_neg h2]
      by_cases h3 : b < 0xE0
      · simp only [if_pos h3]
        match bs with
        | [] => simp
        | b1 :: rest => dsimp only; split_ifs <;> simp
      · simp only [if_neg h3]
        by_cases h4 : b < 0xF0
        · simp only [if_pos h4]
          match bs with
          | [] => simp
          | [b1] => simp
          | b1 :: b2 :: rest => dsimp only; split_ifs <;> simp
        · simp only [if_neg h4]
          by_cases h5 : b < 0xF5
          · simp only [if_pos h5]
            match bs with
            | [] => simp
            | [b1] => simp
            | [b1, b2] => simp
            | b1 :: b2 :: b3 :: rest => dsimp only; split_ifs <;> simp
          · simp [h5]

theorem utf8Decode_ne_nil {bl : List Nat} (h : bl ≠ []) :
    utf8Decode bl ≠ [] := by
  match bl with
  | [] => exact absurd rfl h
  | b :: bs =>
    show utf8DecodeF ((b :: bs).length) (b :: bs) ≠ []
    rw [List.length_cons]
    exact utf8DecodeF_cons_ne_nil bs.length b bs

theorem unqFlush_ne_nil : ∀ ts : List (Char ⊕ Nat), ∀ acc : List Nat,
    acc ≠ [] ∨ ts ≠ [] → unqFlush ts acc ≠ [] := by
  intro ts
  induction ts with
  | nil =>
    intro acc hd
    rcases hd with ha | ht
    · exact utf8Decode_ne_nil ha
    · exact absurd rfl ht
  | cons t ts ih =>
    intro acc _
    cases t with
    | inl c => simp [unqFlush]
    | inr b =>
      show unqFlush ts (acc ++ [b]) ≠ []
      exact ih (acc ++ [b]) (Or.inl (by simp))

theorem unquotePlus_ne_nil {s : Str} (h : s ≠ []) : unquotePlus s ≠ [] := by
  show unqFlush (unqTokens (s.map plusToSpace)) [] ≠ []
  refine unqFlush_ne_nil _ [] (Or.inr (unqTokens_ne_nil ?_))
  simp [h]

theorem mem_quotePlus {c : Char} {s : Str} (h : c ∈ quotePlus s) :
    isSafeChar c = true ∨ c = '+' ∨ c = '%' := by
  unfold quotePlus at h
  rw [List.mem_flatten] at h
  obtain ⟨piece, hp, hc⟩ := h
  rw [List.mem_map] at hp
  obtain ⟨a, _, hpa⟩ := hp
  subst hpa
  unfold quoteChar at hc
  split_ifs at hc with h1 h2
  · rw [List.mem_singleton] at hc
    exact Or.inr (Or.inl hc)
  · rw [List.mem_singleton] at hc
    subst hc
    exact Or.inl h2
  · rw [List.mem_flatten] at hc
    obtain ⟨piece2, hp2, hc2⟩ := hc
    rw [List.mem_map] at hp2
    obtain ⟨b, hbmem, hpb⟩ := hp2
    subst hpb
    have hblt : b < 256 := utf8Bytes_lt a b hbmem
    simp only [pctEncByte, List.mem_cons, List.not_mem_nil, or_false] at hc2
    rcases hc2 with rfl | rfl | rfl
    · exact Or.inr (Or.inr rfl)
    · exact Or.inl (isSafeChar_hexDigitUpper (by omega))
    · exact Or.inl (isSafeChar_hexDigitUpper (by omega))

theorem breakAtChar_not_mem {sep : Char} : ∀ {l : Str}, sep ∉ l →
    breakAtChar sep l = (l, none) := by
  intro l h
  induction l with
  | nil => rfl
  | cons c rest ih =>
    have hc : c ≠ sep := fun he => h (by simp [he])
    have hr : sep ∉ rest := fun hm => h (by simp [hm])
    rw [breakAtChar, if_neg (fun he => hc he), ih hr]

theorem breakAtChar_append {sep : Char} : ∀ {x : Str}, sep ∉ x → ∀ r : Str,
    breakAtChar sep (x ++ r)
      = (x ++ (breakAtChar sep r).1, (breakAtChar sep r).2) := by
  intro x hx
  induction x with
  | nil => intro r; simp
  | cons c cx ih =>
    intro r
    have hc : c ≠ sep := fun he => hx (by simp [he])
    have hcx : sep ∉ cx := fun hm => hx (by simp [hm])
    rw [List.cons_append, breakAtChar, if_neg (fun he => hc he), ih hcx r]
    rfl

theorem breakAtChar_cons_sep (sep : Char) (r : Str) :
    breakAtChar sep (sep :: r) = ([], some r) := by
  rw [breakAtChar, if_pos rfl]

theorem breakAtChar_append_sep {sep : Char} {x : Str} (hx : sep ∉ x)
    (r : Str) : breakAtChar sep (x ++ sep :: r) = (x, some r) := by
  rw [breakAtChar_append hx, breakAtChar_cons_sep]
  simp

theorem breakAtChar_eq_some : ∀ {sep : Char} {l a : Str} {b : Str},
    breakAtChar sep l = (a, some b) → l = a ++ sep :: b ∧ sep ∉ a := by
  intro sep l
  induction l with
  | nil => intro a b h; simp [breakAtChar] at h
  | cons c rest ih =>
    intro a b h
    rw [breakAtChar] at h
    by_cases hc : c = sep
    · rw [if_pos hc] at h
      obtain ⟨rfl, rfl⟩ : ([] : Str) = a ∧ rest = b := by
        constructor <;> [exact congrArg Prod.fst h;
          exact Option.some_injective _ (congrArg Prod.snd h)]
      subst hc
      simp
    · rw [if_neg hc] at h
      match hb : breakAtChar sep rest with
      | (pre, post) =>
        rw [hb] at h
        have ha : a = c :: pre := by
          have := congrArg Prod.fst h
          simp at this
          exact this.symm
        have hpost : post = some b := by
          have := congrArg Prod.snd h
          simp at this
          exact this
        subst ha
        obtain ⟨hrest, hnp⟩ := ih (hb.trans (by rw [hpost]))
        constructor
        · rw [List.cons_append, ← hrest]
        · intro hm
          rcases List.mem_cons.mp hm with he | hm2
          · exact hc he.symm
          · exact hnp hm2

theorem breakAtChar_eq_none : ∀ {sep : Char} {l a : Str},
    breakAtChar sep l = (a, none) → a = l ∧ sep ∉ l := by
  intro sep l
  induction l with
  | nil =>
    intro a h
    rw [show breakAtChar sep ([] : Str) = (([] : Str), none) from rfl] at h
    exact ⟨(Prod.mk.inj h.symm).1, by simp⟩
  | cons c rest ih =>
    intro a h
    rw [breakAtChar] at h
    by_cases hc : c = sep
    · rw [if_pos hc] at h
      exact absurd (congrArg Prod.snd h) (by simp)
    · rw [if_neg hc] at h
      match hb : breakAtChar sep rest with
      | (pre, post) =>
        rw [hb] at h
        have ha : a = c :: pre := by
          have := congrArg Prod.fst h
          simp at this
          exact this.symm
        have hpost : post = none := by
          have := congrArg Prod.snd h
          simp at this
          exact this
        obtain ⟨hp, hm⟩ := ih (hb.trans (by rw [hpost]))
        subst ha
        rw [hp]
        exact ⟨rfl, by
          intro hmem
          rcases List.mem_cons.mp hmem with he | hm2
          · exact hc he.symm
          · exact hm hm2⟩

theorem breakAtChar_fst_mem {sep c : Char} {l : Str}
    (h : c ∈ (breakAtChar sep l).1) : c ∈ l := by
  match hb : breakAtChar sep l with
  | (a, some b) =>
    rw [hb] at h
    rw [(breakAtChar_eq_some hb).1]
    simp [h]
  | (a, none) =>
    rw [hb] at h
    rw [← (breakAtChar_eq_none hb).1]
    exact h

theorem breakAtChar_fst_not_sep {sep : Char} {l : Str} :
    sep ∉ (breakAtChar sep l).1 := by
  match hb : breakAtChar sep l with
  | (a, some b) => simpa using (breakAtChar_eq_some hb).2
  | (a, none) =>
    obtain ⟨ha, hm⟩ := breakAtChar_eq_none hb
    simpa [ha] using hm

theorem splitOnChar_ne_nil (sep : Char) : ∀ l : Str, splitOnChar sep l ≠ [] := by
  intro l
  cases l with
  | nil => simp [splitOnChar]
  | cons c rest =>
    rw [splitOnChar]
    match splitOnChar sep rest with
    | [] => simp
    | h :: t => split_ifs <;> simp

theorem splitOnChar_no_sep {sep : Char} : ∀ {l : Str}, sep ∉ l →
    splitOnChar sep l = [l] := by
  intro l h
  induction l with
  | nil => rfl
  | cons c rest ih =>
    have hc : c ≠ sep := fun he => h (by simp [he])
    have hr : sep ∉ rest := fun hm => h (by simp [hm])
    rw [splitOnChar, ih hr]
    dsimp only
    rw [if_neg hc]

theorem splitOnChar_append {sep : Char} : ∀ {x : Str}, sep ∉ x → ∀ {r h t},
    splitOnChar sep r = h :: t →
    splitOnChar sep (x ++ r) = (x ++ h) :: t := by
  intro x hx
  induction x with
  | nil => intro r h t hr; simpa using hr
  | cons c cx ih =>
    intro r h t hr
    have hc : c ≠ sep := fun he => hx (by simp [he])
    have hcx : sep ∉ cx := fun hm => hx (by simp [hm])
    rw [List.cons_append, splitOnChar, ih hcx hr]
    dsimp only
    rw [if_neg hc]
    simp

theorem splitOnChar_cons_sep (sep : Char) (r : Str) :
    splitOnChar sep (sep :: r) = [] :: splitOnChar sep r := by
  rw [splitOnChar]
  match h : splitOnChar sep r with
  | [] => exact absurd h (splitOnChar_ne_nil sep r)
  | a :: t =>
    dsimp only
    rw [if_pos rfl]

theorem splitOnChar_joinSep {sep : Char} : ∀ {fs : List Str}, fs ≠ [] →
    (∀ f ∈ fs, sep ∉ f) → splitOnChar sep (joinSep sep fs) = fs := by
  intro fs
  induction fs with
  | nil => intro h; exact absurd rfl h
  | cons x rest ih =>
    intro _ hsep
    cases rest with
    | nil =>
      rw [show joinSep sep [x] = x from rfl]
      exact splitOnChar_no_sep (hsep x (by simp))
    | cons y t =>
      rw [show joinSep sep (x :: y :: t) = x ++ sep :: joinSep sep (y :: t)
        from rfl]
      have hrec : splitOnChar sep (joinSep sep (y :: t)) = y :: t :=
        ih (by simp) (fun f hf => hsep f (by simp [hf]))
      have hstep : splitOnChar sep (sep :: joinSep sep (y :: t))
          = [] :: y :: t := by
        rw [splitOnChar_cons_sep, hrec]
      rw [splitOnChar_append (hsep x (by simp)) hstep, List.append_nil]

theorem mem_joinSep {sep c : Char} : ∀ {fs : List Str},
    c ∈ joinSep sep fs → c = sep ∨ ∃ f ∈ fs, c ∈ f := by
  intro fs
  induction fs with
  | nil => intro h; simp [joinSep] at h
  | cons x rest ih =>
    intro h
    cases rest with
    | nil =>
      rw [show joinSep sep [x] = x from rfl] at h
      exact Or.inr ⟨x, by simp, h⟩
    | cons y t =>
      rw [show joinSep sep (x :: y :: t) = x ++ sep :: joinSep sep (y :: t)
        from rfl] at h
      rcases List.mem_append.mp h with hx | hrest
      · exact Or.inr ⟨x, by simp, hx⟩
      · rcases List.mem_cons.mp hrest with he | hj
        · exact Or.inl he
        · rcases ih hj with he | ⟨f, hf, hcf⟩
          · exact Or.inl he
          · exact Or.inr ⟨f, by simp [hf], hcf⟩

theorem quotePlus_chars {c : Char} {s : Str} (h : c ∈ quotePlus s) :
    c ≠ '&' ∧ c ≠ '=' ∧ c ≠ '#' ∧ c ≠ '/' ∧ c ≠ '?' ∧ okChar c = true := by
  rcases mem_quotePlus h with hsafe | rfl | rfl
  · have p := isSafeChar_props hsafe
    exact ⟨p.1, p.2.1, p.2.2.1, p.2.2.2.1, p.2.2.2.2.1, p.2.2.2.2.2.2.2.2⟩
  · refine ⟨by decide, by decide, by decide, by decide, by decide, by decide⟩
  · refine ⟨by decide, by decide, by decide, by decide, by decide, by decide⟩

theorem parseField_encode {k v : Str} (hv : v ≠ []) :
    parseField (quotePlus k ++ '=' :: quotePlus v) = some (k, v) := by
  rw [parseField,
    if_neg (by simp),
    breakAtChar_append_sep (fun hm => (quotePlus_chars hm).2.1 rfl)]
  dsimp only
  rw [if_neg (quotePlus_ne_nil hv), unquotePlus_quotePlus,
    unquotePlus_quotePlus]

/-- The pair list a dict of value lists flattens to, as iterated by
`urlencode(..., doseq=True)`. -/
def flatPairs (pl : List (Str × List Str)) : List (Str × Str) :=
  pl.flatMap (fun p => p.2.map (fun v => (p.1, v)))

theorem parseQsl_encode {pl : List (Str × List Str)}
    (hvs : ∀ p ∈ pl, p.2 ≠ [])
    (hv : ∀ p ∈ pl, ∀ v ∈ p.2, v ≠ []) :
    parseQsl (urlencodeDoseq pl) = flatPairs pl := by
  by_cases hpl : pl = []
  · subst hpl
    rfl
  · have hfields :
        ((pl.map (fun p => p.2.map
            (fun v => quotePlus p.1 ++ '=' :: quotePlus v))).flatten) ≠ [] := by
      rw [Ne, List.flatten_eq_nil_iff]
      intro hall
      match hple : pl with
      | [] => exact hpl rfl
      | p0 :: prest =>
        have h0 := hall (p0.2.map
          (fun v => quotePlus p0.1 ++ '=' :: quotePlus v)) (by simp)
        rw [List.map_eq_nil_iff] at h0
        exact hvs p0 (by simp) h0
    match hfe : (pl.map (fun p => p.2.map
        (fun v => quotePlus p.1 ++ '=' :: quotePlus v))).flatten with
    | [] => exact absurd hfe hfields
    | f0 :: frest =>
      rw [parseQsl, urlencodeDoseq, hfe,
        splitOnChar_joinSep (by simp) ?hnoamp, ← hfe]
      case hnoamp =>
        intro f hf hampf
        rw [← hfe] at hf
        rw [List.mem_flatten] at hf
        obtain ⟨piece, hp, hfp⟩ := hf
        rw [List.mem_map] at hp
        obtain ⟨p, hppl, hpp⟩ := hp
        subst hpp
        rw [List.mem_map] at hfp
        obtain ⟨v, hvp, hfv⟩ := hfp
        subst hfv
        rcases List.mem_append.mp hampf with hk | hev
        · exact (quotePlus_chars hk).1 rfl
        · rcases List.mem_cons.mp hev with he | hm
          · exact absurd he.symm (by decide)
          · exact (quotePlus_chars hm).1 rfl
      rw [List.filterMap_flatten]
      unfold flatPairs
      rw [show (pl.flatMap fun p => List.map (fun v => (p.1, v)) p.2)
          = ((pl.map fun p => List.map (fun v => (p.1, v)) p.2)).flatten
        from rfl, List.map_map]
      congr 1
      apply List.map_congr_left
      intro p hp
      rw [Function.comp_apply, List.filterMap_map]
      have : ∀ v ∈ p.2,
          (parseField (quotePlus p.1 ++ '=' :: quotePlus v))
            = some (p.1, v) := by
        intro v hvp
        exact parseField_encode (hv p hp v hvp)
      calc List.filterMap
            (fun v => parseField (quotePlus p.1 ++ '=' :: quotePlus v)) p.2
          = List.filterMap (fun v => some (p.1, v)) p.2 := by
            apply List.filterMap_congr
            intro v hvp
            exact this v hvp
        _ = p.2.map (fun v => (p.1, v)) := by
            induction p.2 with
            | nil => rfl
            | cons a t ih => rw [List.filterMap_cons, List.map_cons, ← ih]

theorem parseField_some {f : Str} {pr : Str × Str}
    (h : parseField f = some pr) : pr.2 ≠ [] := by
  rw [parseField] at h
  split_ifs at h with hf
  match hbr : breakAtChar '=' f with
  | (n, none) => rw [hbr] at h; exact absurd h (by simp)
  | (n, some val) =>
    rw [hbr] at h
    dsimp only at h
    split_ifs at h with hval
    have : pr.2 = unquotePlus val := by
      rw [← Option.some_inj.mp h]
    rw [this]
    exact unquotePlus_ne_nil hval

theorem parseQsl_snd_ne_nil {q : Str} : ∀ pr ∈ parseQsl q, pr.2 ≠ [] := by
  intro pr hpr
  rw [parseQsl, List.mem_filterMap] at hpr
  obtain ⟨f, _, hf⟩ := hpr
  exact parseField_some hf

theorem map_fst_dictAppend_mem {g : List (Str × List Str)} {k : Str}
    {v : Str} (h : k ∈ g.map Prod.fst) :
    (dictAppend g k v).map Prod.fst = g.map Prod.fst := by
  rw [dictAppend, if_pos h, List.map_map]
  apply List.map_congr_left
  intro p _
  by_cases hpk : p.1 = k
  · simp [hpk]
  · simp [hpk]

theorem map_fst_dictAppend_not_mem {g : List (Str × List Str)} {k : Str}
    {v : Str} (h : k ∉ g.map Prod.fst) :
    (dictAppend g k v).map Prod.fst = g.map Prod.fst ++ [k] := by
  rw [dictAppend, if_neg h, List.map_append]
  rfl

theorem nodup_keys_dictAppend {g : List (Str × List Str)} {k : Str} {v : Str}
    (h : (g.map Prod.fst).Nodup) :
    ((dictAppend g k v).map Prod.fst).Nodup := by
  by_cases hm : k ∈ g.map Prod.fst
  · rw [map_fst_dictAppend_mem hm]
    exact h
  · rw [map_fst_dictAppend_not_mem hm]
    simp [List.nodup_append, h, hm]

theorem fold_dict_nodup : ∀ ps : List (Str × Str),
    ∀ g : List (Str × List Str), (g.map Prod.fst).Nodup →
    ((ps.foldl (fun g p => dictAppend g p.1 p.2) g).map Prod.fst).Nodup := by
  intro ps
  induction ps with
  | nil => intro g h; exact h
  | cons q rest ih =>
    intro g h
    rw [List.foldl_cons]
    exact ih _ (nodup_keys_dictAppend h)

theorem fold_dict_ne_nil : ∀ ps : List (Str × Str),
    ∀ g : List (Str × List Str), (∀ p ∈ g, p.2 ≠ []) →
    ∀ p ∈ ps.foldl (fun g p => dictAppend g p.1 p.2) g, p.2 ≠ [] := by
  intro ps
  induction ps with
  | nil => intro g h; exact h
  | cons q rest ih =>
    intro g h
    rw [List.foldl_cons]
    refine ih _ ?_
    intro p hp
    rw [dictAppend] at hp
    split_ifs at hp with hmem
    · rw [List.mem_map] at hp
      obtain ⟨p0, hp0, hpe⟩ := hp
      by_cases hk : p0.1 = q.1
      · rw [if_pos hk] at hpe
        rw [← hpe]
        simp
      · rw [if_neg hk] at hpe
        rw [← hpe]
        exact h p0 hp0
    · rcases List.mem_append.mp hp with hg | hone
      · exact h p hg
      · rw [List.mem_singleton] at hone
        rw [hone]
        simp

theorem fold_dict_values {Q : Str → Prop} : ∀ ps : List (Str × Str),
    ∀ g : List (Str × List Str), (∀ p ∈ g, ∀ x ∈ p.2, Q x) →
    (∀ pr ∈ ps, Q pr.2) →
    ∀ p ∈ ps.foldl (fun g p => dictAppend g p.1 p.2) g, ∀ x ∈ p.2, Q x := by
  intro ps
  induction ps with
  | nil => intro g hg _; exact hg
  | cons q rest ih =>
    intro g hg hps
    rw [List.foldl_cons]
    refine ih _ ?_ (fun pr hpr => hps pr (by simp [hpr]))
    intro p hp x hx
    rw [dictAppend] at hp
    split_ifs at hp with hmem
    · rw [List.mem_map] at hp
      obtain ⟨p0, hp0, hpe⟩ := hp
      by_cases hk : p0.1 = q.1
      · rw [if_pos hk] at hpe
        rw [← hpe] at hx
        rcases List.mem_append.mp hx with h0 | hone
        · exact hg p0 hp0 x h0
        · rw [List.mem_singleton] at hone
          rw [hone]
          exact hps q (by simp)
      · rw [if_neg hk] at hpe
        rw [← hpe] at hx
        exact hg p0 hp0 x hx
    · rcases List.mem_append.mp hp with hgm | hone
      · exact hg p hgm x hx
      · rw [List.mem_singleton] at hone
        rw [hone] at hx
        rw [List.mem_singleton] at hx
        rw [hx]
        exact hps q (by simp)

theorem groupPairs_keys_nodup (ps : List (Str × Str)) :
    ((groupPairs ps).map Prod.fst).Nodup :=
  fold_dict_nodup ps [] (by simp)

theorem groupPairs_values_ne_nil (ps : List (Str × Str)) :
    ∀ p ∈ groupPairs ps, p.2 ≠ [] :=
  fold_dict_ne_nil ps [] (by simp)

theorem parseQs_values_ne_nil_str {q : Str} :
    ∀ p ∈ parseQs q, ∀ x ∈ p.2, x ≠ [] :=
  fold_dict_values (parseQsl q) [] (by simp) (fun pr hpr => parseQsl_snd_ne_nil pr hpr)

theorem fold_same_key {k : Str} : ∀ vs : List Str,
    ∀ g : List (Str × List Str), ∀ acc : List Str, (∀ p ∈ g, p.1 ≠ k) →
    (vs.map (fun v => (k, v))).foldl (fun g p => dictAppend g p.1 p.2)
        (g ++ [(k, acc)])
      = g ++ [(k, acc ++ vs)] := by
  intro vs
  induction vs with
  | nil => intro g acc _; simp
  | cons v vrest ih =>
    intro g acc hg
    rw [List.map_cons, List.foldl_cons]
    have hstep : dictAppend (g ++ [(k, acc)]) k v = g ++ [(k, acc ++ [v])] := by
      rw [dictAppend, if_pos (by simp), List.map_append]
      congr 1
      · apply (List.map_congr_left ?_).trans (List.map_id _)
        intro p hp
        rw [if_neg (hg p hp)]
        rfl
      · simp
    rw [hstep, ih g (acc ++ [v]) hg, List.append_assoc]
    rfl

theorem groupPairs_flat : ∀ pl : List (Str × List Str),
    ∀ g : List (Str × List Str),
    (((g ++ pl).map Prod.fst).Nodup) → (∀ p ∈ pl, p.2 ≠ []) →
    (flatPairs pl).foldl (fun g p => dictAppend g p.1 p.2) g = g ++ pl := by
  intro pl
  induction pl with
  | nil => intro g _ _; simp [flatPairs]
  | cons kv pl ih =>
    intro g hnd hvs
    match hkv : kv with
    | (k, vs) =>
      rw [show flatPairs ((k, vs) :: pl)
          = vs.map (fun v => (k, v)) ++ flatPairs pl from by
        simp [flatPairs]]
      rw [List.foldl_append]
      have hknotg : k ∉ g.map Prod.fst := by
        intro hmem
        rw [List.map_append] at hnd
        exact (List.nodup_append.mp hnd).2.2 hmem (by simp)
      match hvse : vs with
      | [] => exact absurd rfl (hvs (k, []) (by simp))
      | v0 :: vr =>
        rw [List.map_cons, List.foldl_cons]
        have hfirst : dictAppend g k v0 = g ++ [(k, [v0])] := by
          rw [dictAppend, if_neg hknotg]
        rw [hfirst,
          fold_same_key vr g [v0]
            (fun p hp he => hknotg (by
              rw [← he]
              exact List.mem_map_of_mem Prod.fst hp))]
        have hreassoc : (g ++ [(k, [v0] ++ vr)]) ++ pl
            = g ++ ((k, v0 :: vr) :: pl) := by
          simp
        rw [ih (g ++ [(k, [v0] ++ vr)])
          (by rw [hreassoc]
              exact hnd)
          (fun p hp => hvs p (by simp [hp])), hreassoc]

theorem parseQs_encode {pl : List (Str × List Str)}
    (hnd : (pl.map Prod.fst).Nodup) (hvs : ∀ p ∈ pl, p.2 ≠ [])
    (hv : ∀ p ∈ pl, ∀ v ∈ p.2, v ≠ []) :
    parseQs (urlencodeDoseq pl) = pl := by
  rw [parseQs, parseQsl_encode hvs hv, groupPairs]
  have := groupPairs_flat pl [] (by simpa using hnd) hvs
  simpa using this

theorem urlencode_filter_fix (q : Str) :
    urlencodeDoseq ((parseQs (urlencodeDoseq ((parseQs q).filter
        (fun p => !(isTrackingKey p.1))))).filter
        (fun p => !(isTrackingKey p.1)))
      = urlencodeDoseq ((parseQs q).filter (fun p => !(isTrackingKey p.1))) := by
  set pl := (parseQs q).filter (fun p => !(isTrackingKey p.1)) with hpl
  have hnd : (pl.map Prod.fst).Nodup := by
    have hsub : (pl.map Prod.fst).Sublist ((parseQs q).map Prod.fst) :=
      (List.filter_sublist _).map Prod.fst
    exact ((groupPairs_keys_nodup (parseQsl q)).sublist hsub)
  have hvs : ∀ p ∈ pl, p.2 ≠ [] := fun p hp =>
    groupPairs_values_ne_nil (parseQsl q) p (List.mem_of_mem_filter hp)
  have hv : ∀ p ∈ pl, ∀ v ∈ p.2, v ≠ [] := fun p hp =>
    parseQs_values_ne_nil_str p (List.mem_of_mem_filter hp)
  have hfix : pl.filter (fun p => !(isTrackingKey p.1)) = pl := by
    apply List.filter_eq_self.mpr
    intro p hp
    rw [hpl] at hp
    exact (List.mem_filter.mp hp).2
  rw [parseQs_encode hnd hvs hv, hfix]

theorem mem_urlencodeDoseq {c : Char} {pl : List (Str × List Str)}
    (h : c ∈ urlencodeDoseq pl) :
    isSafeChar c = true ∨ c = '+' ∨ c = '%' ∨ c = '&' ∨ c = '=' := by
  rw [urlencodeDoseq] at h
  rcases mem_joinSep h with rfl | ⟨f, hf, hcf⟩
  · exact Or.inr (Or.inr (Or.inr (Or.inl rfl)))
  · rw [List.mem_flatten] at hf
    obtain ⟨piece, hp, hfp⟩ := hf
    rw [List.mem_map] at hp
    obtain ⟨p, _, hpp⟩ := hp
    subst hpp
    rw [List.mem_map] at hfp
    obtain ⟨v, _, hfv⟩ := hfp
    subst hfv
    rcases List.mem_append.mp hcf with hk | hev
    · rcases mem_quotePlus hk with hs | rfl | rfl
      · exact Or.inl hs
      · exact Or.inr (Or.inl rfl)
      · exact Or.inr (Or.inr (Or.inl rfl))
    · rcases List.mem_cons.mp hev with rfl | hm
      · exact Or.inr (Or.inr (Or.inr (Or.inr rfl)))
      · rcases mem_quotePlus hm with hs | rfl | rfl
        · exact Or.inl hs
        · exact Or.inr (Or.inl rfl)
        · exact Or.inr (Or.inr (Or.inl rfl))

theorem urlencodeDoseq_chars {c : Char} {pl : List (Str × List Str)}
    (h : c ∈ urlencodeDoseq pl) :
    c ≠ '#' ∧ c ≠ '/' ∧ c ≠ '?' ∧ okChar c = true := by
  rcases mem_urlencodeDoseq h with hs | rfl | rfl | rfl | rfl
  · have p := isSafeChar_props hs
    exact ⟨p.2.2.1, p.2.2.2.1, p.2.2.2.2.1, p.2.2.2.2.2.2.2.2⟩
  · exact ⟨by decide, by decide, by decide, by decide⟩
  · exact ⟨by decide, by decide, by decide, by decide⟩
  · exact ⟨by decide, by decide, by decide, by decide⟩
  · exact ⟨by decide, by decide, by decide, by decide⟩

/-- The netloc dispatch of `urlsplit` (`url[:2] == '//'`), extracted as a
named function; it is definitionally the match inside `urlsplitCore`. -/
def netlocPart (r : Str) : Str × Str :=
  match r with
  | '/' :: '/' :: r2 => takeNetloc r2
  | _ => ([], r)

theorem netlocPart_slash (r2 : Str) :
    netlocPart ('/' :: '/' :: r2) = takeNetloc r2 := rfl

theorem netlocPart_not_slash {r : Str} (h : ∀ t : Str, r ≠ '/' :: '/' :: t) :
    netlocPart r = ([], r) := by
  unfold netlocPart
  split
  · rename_i r2
    exact absurd rfl (h r2)
  · rfl

theorem urlsplitCore_of_cand {d l0 s r : Str}
    (hc : splitSchemeCandidate (stripUnsafe l0) = some (s, r)) :
    urlsplitCore d l0
      = ⟨s, (netlocPart r).1,
          (breakAtChar '?' (breakAtChar '#' (netlocPart r).2).1).1,
          ((breakAtChar '?' (breakAtChar '#' (netlocPart r).2).1).2).getD [],
          ((breakAtChar '#' (netlocPart r).2).2).getD []⟩ := by
  simp only [urlsplitCore, hc]
  rfl

theorem urlsplitCore_of_no_cand {d l0 : Str}
    (hc : splitSchemeCandidate (stripUnsafe l0) = none) :
    urlsplitCore d l0
      = ⟨d, (netlocPart (stripUnsafe l0)).1,
          (breakAtChar '?'
            (breakAtChar '#' (netlocPart (stripUnsafe l0)).2).1).1,
          ((breakAtChar '?'
            (breakAtChar '#' (netlocPart (stripUnsafe l0)).2).1).2).getD [],
          ((breakAtChar '#' (netlocPart (stripUnsafe l0)).2).2).getD []⟩ := by
  simp only [urlsplitCore, hc]
  rfl

theorem takeNetloc_decomp : ∀ l : Str,
    (takeNetloc l).1 ++ (takeNetloc l).2 = l := by
  intro l
  induction l with
  | nil => rfl
  | cons c rest ih =>
    rw [takeNetloc]
    split_ifs with h
    · rfl
    · dsimp only
      rw [List.cons_append, ih]

theorem takeNetloc_fst_no_delim : ∀ {l : Str}, ∀ c ∈ (takeNetloc l).1,
    c ≠ '/' ∧ c ≠ '?' ∧ c ≠ '#' := by
  intro l
  induction l with
  | nil => intro c hc; simp [takeNetloc] at hc
  | cons a rest ih =>
    intro c hc
    rw [takeNetloc] at hc
    split_ifs at hc with h
    · simp at hc
    · dsimp only at hc
      rcases List.mem_cons.mp hc with rfl | hm
      · simp only [Bool.or_eq_true, decide_eq_true_eq, not_or] at h
        exact ⟨h.1.1, h.1.2, h.2⟩
      · exact ih c hm

theorem takeNetloc_append {nl : Str}
    (h : ∀ c ∈ nl, c ≠ '/' ∧ c ≠ '?' ∧ c ≠ '#') : ∀ r : Str,
    takeNetloc (nl ++ r) = (nl ++ (takeNetloc r).1, (takeNetloc r).2) := by
  induction nl with
  | nil => intro r; simp
  | cons c rest ih =>
    intro r
    have hc := h c (by simp)
    rw [List.cons_append, takeNetloc,
      if_neg (by simp [hc.1, hc.2.1, hc.2.2]),
      ih (fun x hx => h x (by simp [hx])) r]
    dsimp only
    simp

theorem takeNetloc_delim_head {c : Char} {r : Str}
    (h : c = '/' ∨ c = '?' ∨ c = '#') :
    takeNetloc (c :: r) = ([], c :: r) := by
  rw [takeNetloc, if_pos (by rcases h with rfl | rfl | rfl <;> simp)]

theorem takeNetloc_nil : takeNetloc [] = ([], []) := rfl

theorem stripUnsafe_eq_self {l : Str} (h : ∀ c ∈ l, okChar c = true) :
    stripUnsafe l = l := by
  apply List.filter_eq_self.mpr
  intro c hc
  have := h c hc
  rw [okChar] at this
  exact this

theorem mem_stripUnsafe {c : Char} {l : Str} (h : c ∈ stripUnsafe l) :
    c ∈ l ∧ okChar c = true := by
  have := List.mem_filter.mp h
  exact ⟨this.1, by rw [okChar]; exact this.2⟩

/-- Well-formedness of a scheme as `urlsplit` re-detects it: nonempty,
letter-initial, scheme characters only, already lowercase. -/
def schemeOkP (s : Str) : Prop :=
  ∃ c0 crest, s = c0 :: crest ∧ c0.isAlpha = true
    ∧ crest.all isSchemeChar = true ∧ lowerStr s = s

theorem schemeOkP_chars {s : Str} (h : schemeOkP s) :
    ∀ c ∈ s, isSchemeChar c = true := by
  obtain ⟨c0, crest, rfl, ha, hall, _⟩ := h
  intro c hc
  rcases List.mem_cons.mp hc with rfl | hm
  · exact isSchemeChar_of_isAlpha ha
  · exact List.all_eq_true.mp hall c hm

theorem schemeOkP_ne_nil {s : Str} (h : schemeOkP s) : s ≠ [] := by
  obtain ⟨c0, crest, rfl, _, _, _⟩ := h
  simp

theorem splitSchemeCandidate_explicit {s r : Str} (hs : schemeOkP s) :
    splitSchemeCandidate (s ++ ':' :: r) = some (s, r) := by
  obtain ⟨c0, crest, hse, ha, hall, hlow⟩ := hs
  have hnc : ':' ∉ s := fun hm =>
    absurd rfl (isSchemeChar_props (schemeOkP_chars
      ⟨c0, crest, hse, ha, hall, hlow⟩ ':' hm)).1
  rw [splitSchemeCandidate, breakAtChar_append_sep hnc]
  subst hse
  dsimp only
  rw [if_pos (by rw [ha, hall]; rfl)]
  rw [show lowerStr (c0 :: crest) = c0 :: crest from hlow]

theorem splitSchemeCandidate_some_shape {l s r : Str}
    (h : splitSchemeCandidate l = some (s, r)) :
    ∃ pre, l = pre ++ ':' :: r ∧ s = lowerStr pre ∧ schemeOkP s := by
  rw [splitSchemeCandidate] at h
  match hb : breakAtChar ':' l with
  | (pre, none) => rw [hb] at h; exact absurd h (by simp)
  | (pre, some rest) =>
    rw [hb] at h
    obtain ⟨hl, hnc⟩ := breakAtChar_eq_some hb
    match pre with
    | [] => exact absurd h (by simp)
    | c0 :: crest =>
      dsimp only at h
      split_ifs at h with hcond
      rw [Option.some_inj] at h
      have hs : s = lowerStr (c0 :: crest) := (Prod.mk.inj h.symm).1
      have hr : rest = r := (Prod.mk.inj h).2
      rw [Bool.and_eq_true] at hcond
      refine ⟨c0 :: crest, by rw [hl, hr], hs, ?_⟩
      refine ⟨c0.toLower, lowerStr crest, by rw [hs]; rfl,
        isAlpha_toLower hcond.1, ?_, ?_⟩
      · rw [List.all_eq_true]
        intro x hx
        unfold lowerStr at hx
        rw [List.mem_map] at hx
        obtain ⟨y, hy, rfl⟩ := hx
        exact isSchemeChar_toLower (List.all_eq_true.mp hcond.2 y hy)
      · rw [hs]
        show lowerStr (lowerStr (c0 :: crest)) = lowerStr (c0 :: crest)
        unfold lowerStr
        rw [List.map_map]
        apply List.map_congr_left
        intro a _
        exact toLower_toLower a

/-- The slash guard `urlunsplit` applies to a path rendered after a netloc. -/
def guardPath (p : Str) : Str :=
  if p ≠ [] ∧ p.head? ≠ some '/' then '/' :: p else p

theorem guardPath_head : ∀ {p : Str}, guardPath p = [] ∨
    (guardPath p).head? = some '/' := by
  intro p
  unfold guardPath
  split_ifs with h
  · exact Or.inr rfl
  · match p with
    | [] => exact Or.inl rfl
    | c :: rest =>
      push_neg at h
      exact Or.inr (h (by simp))

theorem guardPath_idem (p : Str) : guardPath (guardPath p) = guardPath p := by
  rcases @guardPath_head p with h | h
  · rw [h]
    rfl
  · unfold guardPath
    rw [if_neg (by
      intro hc
      exact hc.2 (by
        unfold guardPath at h
        exact h))]

theorem guardPath_eq_self {p : Str} (h : p = [] ∨ p.head? = some '/') :
    guardPath p = p := by
  unfold guardPath
  rcases h with rfl | h
  · rfl
  · rw [if_neg (fun hc => hc.2 h)]

theorem mem_guardPath {c : Char} {p : Str} (h : c ∈ guardPath p) :
    c ∈ p ∨ c = '/' := by
  unfold guardPath at h
  split_ifs at h with hg
  · rcases List.mem_cons.mp h with rfl | hm
    · exact Or.inr rfl
    · exact Or.inl hm
  · exact Or.inl h

theorem urlunsplit_eq {s nl p q : Str} (hnl : nl ≠ []) :
    urlunsplitStr ⟨s, nl, p, q, []⟩
      = ((if s ≠ [] then s ++ [':'] else [])
          ++ ('/' :: '/' :: (nl ++ guardPath p)))
        ++ (if q ≠ [] then '?' :: q else []) := by
  unfold urlunsplitStr guardPath
  dsimp only
  rw [if_pos (Or.inl hnl), if_neg (by simp)]
  by_cases hs : s = []
  · subst hs
    simp only [ne_eq, not_true_eq_false, if_neg, if_false]
    by_cases hq : q = []
    · subst hq
      simp
    · rw [if_pos hq, if_pos hq]
      simp
  · rw [if_pos hs, if_pos hs]
    by_cases hq : q = []
    · subst hq
      simp
    · rw [if_pos hq, if_pos hq]
      simp

theorem urlsplit_urlunsplit {d s nl p q : Str}
    (hs : schemeOkP s) (hnl : nl ≠ [])
    (hnlc : ∀ c ∈ nl, okChar c = true ∧ c ≠ '/' ∧ c ≠ '?' ∧ c ≠ '#')
    (hpc : ∀ c ∈ p, okChar c = true ∧ c ≠ '?' ∧ c ≠ '#')
    (hqc : ∀ c ∈ q, okChar c = true ∧ c ≠ '#') :
    urlsplitCore d (urlunsplitStr ⟨s, nl, p, q, []⟩)
      = ⟨s, nl, guardPath p, q, []⟩ := by
  have hsne := schemeOkP_ne_nil hs
  have hgpc : ∀ c ∈ guardPath p, okChar c = true ∧ c ≠ '?' ∧ c ≠ '#' := by
    intro c hc
    rcases mem_guardPath hc with hm | rfl
    · exact hpc c hm
    · exact ⟨by decide, by decide, by decide⟩
  have hqpc : ∀ c ∈ (if q ≠ [] then '?' :: q else []),
      okChar c = true ∧ c ≠ '#' := by
    intro c hc
    split_ifs at hc with hqne
    · rcases List.mem_cons.mp hc with rfl | hm
      · exact ⟨by decide, by decide⟩
      · exact hqc c hm
    · simp at hc
  have hw : urlunsplitStr ⟨s, nl, p, q, []⟩
      = s ++ ':' :: ('/' :: '/' :: ((nl ++ guardPath p)
          ++ (if q ≠ [] then '?' :: q else []))) := by
    rw [urlunsplit_eq hnl, if_pos hsne]
    simp [List.append_assoc]
  have hok : ∀ c ∈ urlunsplitStr ⟨s, nl, p, q, []⟩, okChar c = true := by
    intro c hc
    rw [hw] at hc
    rcases List.mem_append.mp hc with hcs | hc2
    · exact (isSchemeChar_props (schemeOkP_chars hs c hcs)).2.2.2.2
    · rcases List.mem_cons.mp hc2 with rfl | hc3
      · decide
      · rcases List.mem_cons.mp hc3 with rfl | hc4
        · decide
        · rcases List.mem_cons.mp hc4 with rfl | hc5
          · decide
          · rcases List.mem_append.mp hc5 with hc6 | hc7
            · rcases List.mem_append.mp hc6 with hcn | hcg
              · exact (hnlc c hcn).1
              · exact (hgpc c hcg).1
            · exact (hqpc c hc7).1
  have hstrip : stripUnsafe (urlunsplitStr ⟨s, nl, p, q, []⟩)
      = urlunsplitStr ⟨s, nl, p, q, []⟩ := stripUnsafe_eq_self hok
  have hcand : splitSchemeCandidate
      (stripUnsafe (urlunsplitStr ⟨s, nl, p, q, []⟩))
      = some (s, '/' :: '/' :: ((nl ++ guardPath p)
          ++ (if q ≠ [] then '?' :: q else []))) := by
    rw [hstrip, hw]
    exact splitSchemeCandidate_explicit hs
  have hnod : ∀ c ∈ nl, c ≠ '/' ∧ c ≠ '?' ∧ c ≠ '#' :=
    fun c hc => (hnlc c hc).2
  have htn2 : takeNetloc ((guardPath p)
      ++ (if q ≠ [] then '?' :: q else []))
      = ([], (guardPath p) ++ (if q ≠ [] then '?' :: q else [])) := by
    rcases @guardPath_head p with hge | hgh
    · rw [hge]
      by_cases hqq : q = []
      · subst hqq
        rw [if_neg (by simp)]
        exact takeNetloc_nil
      · rw [if_pos hqq]
        exact takeNetloc_delim_head (Or.inr (Or.inl rfl))
    · match hgpe : guardPath p with
      | [] => rw [hgpe] at hgh; simp at hgh
      | gc :: grest =>
        rw [hgpe] at hgh
        rw [List.head?_cons, Option.some_inj] at hgh
        rw [List.cons_append, takeNetloc_delim_head (Or.inl hgh)]
  have hnohash : ('#' : Char) ∉ (guardPath p)
      ++ (if q ≠ [] then '?' :: q else []) := by
    intro hm
    rcases List.mem_append.mp hm with hg | hq2
    · exact (hgpc '#' hg).2.2 rfl
    · exact (hqpc '#' hq2).2 rfl
  have hnoq : ('?' : Char) ∉ guardPath p := fun hm => (hgpc '?' hm).2.1 rfl
  rw [urlsplitCore_of_cand hcand, netlocPart_slash, List.append_assoc,
    takeNetloc_append hnod, htn2, List.append_nil,
    breakAtChar_not_mem hnohash]
  by_cases hqe : q = []
  · subst hqe
    simp only [ne_eq, not_true_eq_false, if_neg, if_false, List.append_nil]
    rw [breakAtChar_not_mem hnoq]
    rfl
  · rw [if_pos hqe, breakAtChar_append_sep hnoq]
    rfl

theorem urlsplitCore_nil (d : Str) : urlsplitCore d [] = ⟨d, [], [], [], []⟩ :=
  rfl

theorem schemeOkP_http : schemeOkP "http".data :=
  ⟨'h', "ttp".data, rfl, by decide, by decide, by decide⟩

theorem schemeOkP_https : schemeOkP "https".data :=
  ⟨'h', "ttps".data, rfl, by decide, by decide, by decide⟩

theorem urlunsplit_ne_nil {s nl p q : Str} (hs : s ≠ []) (hnl : nl ≠ []) :
    urlunsplitStr ⟨s, nl, p, q, []⟩ ≠ [] := by
  rw [urlunsplit_eq hnl, if_pos hs]
  simp

theorem hash_not_mem_unsplit {s nl p q : Str} (hnl : nl ≠ [])
    (hsch : ∀ c ∈ s, c ≠ '#') (hnlh : ∀ c ∈ nl, c ≠ '#')
    (hph : ∀ c ∈ p, c ≠ '#') (hqh : ∀ c ∈ q, c ≠ '#') :
    ('#' : Char) ∉ urlunsplitStr ⟨s, nl, p, q, []⟩ := by
  rw [urlunsplit_eq hnl]
  intro hm
  rcases List.mem_append.mp hm with hm1 | hm2
  · rcases List.mem_append.mp hm1 with hm3 | hm4
    · split_ifs at hm3 with hse
      · rcases List.mem_append.mp hm3 with hm5 | hm6
        · exact hsch '#' hm5 rfl
        · simp at hm6
      · simp at hm3
    · rcases List.mem_cons.mp hm4 with he | hm5
      · exact absurd he (by decide)
      · rcases List.mem_cons.mp hm5 with he | hm6
        · exact absurd he (by decide)
        · rcases List.mem_append.mp hm6 with hm7 | hm8
          · exact hnlh '#' hm7 rfl
          · rcases mem_guardPath hm8 with hm9 | he
            · exact hph '#' hm9 rfl
            · exact absurd he (by decide)
  · split_ifs at hm2 with hqe
    · rcases List.mem_cons.mp hm2 with he | hm3
      · exact absurd he (by decide)
      · exact hqh '#' hm3 rfl
    · simp at hm2

/-- Normalization is the identity on a URL already in serialized canonical
form: explicit lowercase scheme, nonempty netloc, guard-fixed path, a query
that re-encodes to itself, no fragment, and no trailing slash. -/
theorem normalize_fixed_point {b s nl p q : Str}
    (hbs : (urlsplitCore [] b).scheme = "http".data
      ∨ (urlsplitCore [] b).scheme = "https".data)
    (hb : b ≠ [])
    (hs : schemeOkP s) (hnl : nl ≠ [])
    (hnlc : ∀ c ∈ nl, okChar c = true ∧ c ≠ '/' ∧ c ≠ '?' ∧ c ≠ '#')
    (hpc : ∀ c ∈ p, okChar c = true ∧ c ≠ '?' ∧ c ≠ '#')
    (hpg : guardPath p = p)
    (hqc : ∀ c ∈ q, okChar c = true ∧ c ≠ '#')
    (hqfix : q ≠ [] →
      urlencodeDoseq ((parseQs q).filter (fun pp => !(isTrackingKey pp.1))) = q)
    (hslash : (urlunsplitStr ⟨s, nl, p, q, []⟩).getLast? ≠ some '/') :
    normalizeUrlL b true (urlunsplitStr ⟨s, nl, p, q, []⟩)
      = urlunsplitStr ⟨s, nl, p, q, []⟩ := by
  have hsne := schemeOkP_ne_nil hs
  have hvne : urlunsplitStr ⟨s, nl, p, q, []⟩ ≠ [] := urlunsplit_ne_nil hsne hnl
  have hparse : ∀ d : Str, urlsplitCore d (urlunsplitStr ⟨s, nl, p, q, []⟩)
      = ⟨s, nl, p, q, []⟩ := by
    intro d
    rw [urlsplit_urlunsplit hs hnl hnlc hpc hqc, hpg]
  have hnohash : ('#' : Char) ∉ urlunsplitStr ⟨s, nl, p, q, []⟩ :=
    hash_not_mem_unsplit hnl
      (fun c hc => (isSchemeChar_props (schemeOkP_chars hs c hc)).2.2.2.1)
      (fun c hc => (hnlc c hc).2.2.2)
      (fun c hc => (hpc c hc).2.2)
      (fun c hc => (hqc c hc).2)
  have hjoin : urljoinStr b (urlunsplitStr ⟨s, nl, p, q, []⟩)
      = urlunsplitStr ⟨s, nl, p, q, []⟩ := by
    rw [urljoinStr]
    rw [if_neg hb, if_neg hvne]
    simp only [hparse]
    by_cases hc1 : s ≠ (urlsplitCore [] b).scheme ∨ s ∉ usesRelative
    · rw [if_pos (by
        rcases hc1 with h1 | h1
        · exact Or.inl h1
        · exact Or.inr h1)]
    · push_neg at hc1
      rw [if_neg (by
        push_neg
        exact ⟨hc1.1, hc1.2⟩)]
      rw [if_pos ⟨by
        rw [hc1.1]
        rcases hbs with he | he <;> rw [he] <;> decide, hnl⟩]
  have hunf : normalizeUrlL b true (urlunsplitStr ⟨s, nl, p, q, []⟩)
      = (let n2 := (breakAtChar '#'
            (urljoinStr b (urlunsplitStr ⟨s, nl, p, q, []⟩))).1
         let parsed := urlsplitCore [] n2
         let n3 :=
           if parsed.query ≠ [] then
             urlunsplitStr ⟨parsed.scheme, parsed.netloc, parsed.path,
               urlencodeDoseq ((parseQs parsed.query).filter
                 (fun pp => !(isTrackingKey pp.1))), parsed.fragment⟩
           else n2
         if n3.getLast? = some '/' then n3.dropLast else n3) := rfl
  rw [hunf]
  simp only [hjoin, breakAtChar_not_mem hnohash, hparse]
  by_cases hqe : q = []
  · subst hqe
    rw [if_neg (show ¬(([] : Str) ≠ []) from by simp)]
    rw [if_neg hslash]
  · rw [if_pos hqe, hqfix hqe, if_neg hslash]

theorem stripUnsafe_cons_ok {c : Char} (hok : okChar c = true) (l : Str) :
    stripUnsafe (c :: l) = c :: stripUnsafe l := by
  show List.filter _ _ = _
  rw [List.filter_cons_of_pos (by rw [← okChar]; exact hok)]
  rfl

theorem stripUnsafe_cons_bad {c : Char} (hok : okChar c = false) (l : Str) :
    stripUnsafe (c :: l) = stripUnsafe l := by
  show List.filter _ _ = _
  rw [List.filter_cons_of_neg (by rw [← okChar]; simp [hok])]
  rfl

theorem stripUnsafe_append (l r : Str) :
    stripUnsafe (l ++ r) = stripUnsafe l ++ stripUnsafe r := by
  show List.filter _ _ = _
  rw [List.filter_append]
  rfl

theorem breakAtChar_cons_ne {sep c : Char} (hc : c ≠ sep) (l : Str) :
    breakAtChar sep (c :: l)
      = (c :: (breakAtChar sep l).1, (breakAtChar sep l).2) := by
  rw [breakAtChar, if_neg hc]

theorem strip_defrag_comm : ∀ l : Str,
    stripUnsafe ((breakAtChar '#' l).1)
      = (breakAtChar '#' (stripUnsafe l)).1 := by
  intro l
  induction l with
  | nil => rfl
  | cons c rest ih =>
    by_cases hc : c = '#'
    · subst hc
      rw [breakAtChar_cons_sep, stripUnsafe_cons_ok (by decide),
        breakAtChar_cons_sep]
      rfl
    · rw [breakAtChar_cons_ne hc]
      by_cases hok : okChar c = true
      · have hR : (breakAtChar '#' (stripUnsafe (c :: rest))).1
            = c :: (breakAtChar '#' (stripUnsafe rest)).1 := by
          rw [stripUnsafe_cons_ok hok, breakAtChar_cons_ne hc]
        rw [hR]
        show stripUnsafe (c :: (breakAtChar '#' rest).1) = _
        rw [stripUnsafe_cons_ok hok, ih]
      · have hokf : okChar c = false := by
          cases hh : okChar c
          · rfl
          · exact absurd hh hok
        have hR : (breakAtChar '#' (stripUnsafe (c :: rest))).1
            = (breakAtChar '#' (stripUnsafe rest)).1 := by
          rw [stripUnsafe_cons_bad hokf]
        rw [hR]
        show stripUnsafe (c :: (breakAtChar '#' rest).1) = _
        rw [stripUnsafe_cons_bad hokf, ih]

theorem stripUnsafe_dropLast {l : Str} {c : Char}
    (hl : l.getLast? = some c) (hok : okChar c = true) :
    stripUnsafe l.dropLast = (stripUnsafe l).dropLast := by
  obtain ⟨ys, rfl⟩ := List.getLast?_eq_some_iff.mp hl
  rw [stripUnsafe_append, show stripUnsafe [c] = [c] from by
    rw [stripUnsafe_cons_ok hok]; rfl]
  rw [List.dropLast_concat, List.dropLast_concat]

theorem stripUnsafe_getLast {l : Str} {c : Char}
    (hl : l.getLast? = some c) (hok : okChar c = true) :
    (stripUnsafe l).getLast? = some c := by
  obtain ⟨ys, rfl⟩ := List.getLast?_eq_some_iff.mp hl
  rw [stripUnsafe_append, show stripUnsafe [c] = [c] from by
    rw [stripUnsafe_cons_ok hok]; rfl]
  rw [List.getLast?_concat]

theorem netlocPart_fst_mem {c : Char} {r : Str} (h : c ∈ (netlocPart r).1) :
    c ∈ r ∧ c ≠ '/' ∧ c ≠ '?' ∧ c ≠ '#' := by
  unfold netlocPart at h
  split at h
  · rename_i r2
    have hd := takeNetloc_fst_no_delim c h
    have hm : c ∈ r2 := by
      rw [← takeNetloc_decomp r2]
      exact List.mem_append_left _ h
    exact ⟨by simp [hm], hd⟩
  · simp at h

theorem netlocPart_snd_mem {c : Char} {r : Str} (h : c ∈ (netlocPart r).2) :
    c ∈ r := by
  unfold netlocPart at h
  split at h
  · rename_i r2
    have hm : c ∈ r2 := by
      rw [← takeNetloc_decomp r2]
      exact List.mem_append_right _ h
    simp [hm]
  · exact h

theorem cand_rest_subset {l0 s r : Str}
    (hcand : splitSchemeCandidate (stripUnsafe l0) = some (s, r)) :
    ∀ c ∈ r, c ∈ stripUnsafe l0 := by
  obtain ⟨pre, hl, _, _⟩ := splitSchemeCandidate_some_shape hcand
  intro c hc
  rw [hl]
  exact List.mem_append_right _ (by simp [hc])

theorem urlsplitCore_netloc_chars (d l0 : Str) :
    ∀ c ∈ (urlsplitCore d l0).netloc,
      okChar c = true ∧ c ≠ '/' ∧ c ≠ '?' ∧ c ≠ '#' := by
  intro c hc
  match hcand : splitSchemeCandidate (stripUnsafe l0) with
  | some (s, r) =>
    rw [urlsplitCore_of_cand hcand] at hc
    obtain ⟨hm, hd⟩ := netlocPart_fst_mem hc
    exact ⟨(mem_stripUnsafe (cand_rest_subset hcand c hm)).2, hd⟩
  | none =>
    rw [urlsplitCore_of_no_cand hcand] at hc
    obtain ⟨hm, hd⟩ := netlocPart_fst_mem hc
    exact ⟨(mem_stripUnsafe hm).2, hd⟩

theorem path_chars_aux {c : Char} {X l0 : Str}
    (hsub : ∀ x ∈ X, x ∈ stripUnsafe l0)
    (hc : c ∈ (breakAtChar '?' (breakAtChar '#' X).1).1) :
    okChar c = true ∧ c ≠ '?' ∧ c ≠ '#' := by
  have hq : c ≠ '?' := fun he => breakAtChar_fst_not_sep (he ▸ hc)
  have hcb : c ∈ (breakAtChar '#' X).1 := breakAtChar_fst_mem hc
  have hh : c ≠ '#' := fun he => breakAtChar_fst_not_sep (he ▸ hcb)
  have hcx : c ∈ X := breakAtChar_fst_mem hcb
  exact ⟨(mem_stripUnsafe (hsub c hcx)).2, hq, hh⟩

theorem urlsplitCore_path_chars (d l0 : Str) :
    ∀ c ∈ (urlsplitCore d l0).path,
      okChar c = true ∧ c ≠ '?' ∧ c ≠ '#' := by
  intro c hc
  match hcand : splitSchemeCandidate (stripUnsafe l0) with
  | some (s, r) =>
    rw [urlsplitCore_of_cand hcand] at hc
    exact path_chars_aux
      (fun x hx => cand_rest_subset hcand x (netlocPart_snd_mem hx)) hc
  | none =>
    rw [urlsplitCore_of_no_cand hcand] at hc
    exact path_chars_aux (fun x hx => netlocPart_snd_mem hx) hc

theorem query_chars_aux {c : Char} {X l0 : Str}
    (hsub : ∀ x ∈ X, x ∈ stripUnsafe l0)
    (hc : c ∈ ((breakAtChar '?' (breakAtChar '#' X).1).2).getD []) :
    okChar c = true ∧ c ≠ '#' := by
  match hpq : (breakAtChar '?' (breakAtChar '#' X).1).2 with
  | none => rw [hpq] at hc; simp at hc
  | some qq =>
    rw [hpq] at hc
    rw [Option.getD_some] at hc
    have hdec := breakAtChar_eq_some
      (show breakAtChar '?' (breakAtChar '#' X).1
        = ((breakAtChar '?' (breakAtChar '#' X).1).1, some qq) from by
          rw [← hpq])
    have hcb : c ∈ (breakAtChar '#' X).1 := by
      rw [hdec.1]
      exact List.mem_append_right _ (by simp [hc])
    have hh : c ≠ '#' := fun he => breakAtChar_fst_not_sep (he ▸ hcb)
    have hcx : c ∈ X := breakAtChar_fst_mem hcb
    exact ⟨(mem_stripUnsafe (hsub c hcx)).2, hh⟩

theorem urlsplitCore_query_chars (d l0 : Str) :
    ∀ c ∈ (urlsplitCore d l0).query,
      okChar c = true ∧ c ≠ '#' := by
  intro c hc
  match hcand : splitSchemeCandidate (stripUnsafe l0) with
  | some (s, r) =>
    rw [urlsplitCore_of_cand hcand] at hc
    exact query_chars_aux
      (fun x hx => cand_rest_subset hcand x (netlocPart_snd_mem hx)) hc
  | none =>
    rw [urlsplitCore_of_no_cand hcand] at hc
    exact query_chars_aux (fun x hx => netlocPart_snd_mem hx) hc

theorem mem_splitOnChar {sep c : Char} : ∀ {l : Str} {piece : Str},
    piece ∈ splitOnChar sep l → c ∈ piece → c ∈ l := by
  intro l
  induction l with
  | nil =>
    intro piece hp hc
    rw [show splitOnChar sep [] = [[]] from rfl] at hp
    rw [List.mem_singleton] at hp
    subst hp
    simp at hc
  | cons a rest ih =>
    intro piece hp hc
    rw [splitOnChar] at hp
    match hs : splitOnChar sep rest with
    | [] => exact absurd hs (splitOnChar_ne_nil sep rest)
    | h :: t =>
      rw [hs] at hp
      dsimp only at hp
      split_ifs at hp with ha
      · rcases List.mem_cons.mp hp with rfl | hm
        · simp at hc
        · exact List.mem_cons_of_mem a (ih (by rw [hs]; exact hm) hc)
      · rcases List.mem_cons.mp hp with rfl | hm
        · rcases List.mem_cons.mp hc with rfl | hm2
          · simp
          · exact List.mem_cons_of_mem a (ih (by rw [hs]; simp) hm2)
        · exact List.mem_cons_of_mem a
            (ih (by rw [hs]; exact List.mem_cons_of_mem h hm) hc)

theorem mem_filterMid : ∀ {l : List Str} {x : Str}, x ∈ filterMid l → x ∈ l := by
  intro l x h
  match l with
  | [] => exact absurd h (by simp [filterMid])
  | [a] => simpa [filterMid] using h
  | a :: b :: rest =>
    have hfm : filterMid (a :: b :: rest)
        = a :: ((((b :: rest).dropLast).filter (fun s => s ≠ [])) ++
          (match (b :: rest).getLast? with
           | some y => [y]
           | none => [])) := rfl
    rw [hfm] at h
    rcases List.mem_cons.mp h with rfl | hm
    · simp
    · rcases List.mem_append.mp hm with hm1 | hm2
      · have := List.mem_of_mem_filter hm1
        have := (List.dropLast_sublist _).subset this
        exact List.mem_cons_of_mem a this
      · match hg : (b :: rest).getLast? with
        | some y =>
          rw [hg] at hm2
          rw [List.mem_singleton] at hm2
          subst hm2
          exact List.mem_cons_of_mem a (List.mem_of_mem_getLast? hg)
        | none => rw [hg] at hm2; simp at hm2

theorem mem_joinResolve {c : Char} {segments : List Str}
    (h : c ∈ joinResolve segments) :
    c = '/' ∨ ∃ sgm ∈ segments, c ∈ sgm := by
  have hres : ∀ x ∈ segments.foldl
      (fun acc seg =>
        if seg = ".".data then acc
        else if seg = "..".data then acc.dropLast
        else acc ++ [seg]) ([] : List Str), x ∈ segments := by
    have hgen : ∀ segs : List Str, ∀ acc : List Str,
        (∀ x ∈ acc, x ∈ segments) → (∀ s ∈ segs, s ∈ segments) →
        ∀ x ∈ segs.foldl
          (fun acc seg =>
            if seg = ".".data then acc
            else if seg = "..".data then acc.dropLast
            else acc ++ [seg]) acc, x ∈ segments := by
      intro segs
      induction segs with
      | nil => intro acc hacc _ x hx; exact hacc x hx
      | cons s srest ih =>
        intro acc hacc hsegs x hx
        rw [List.foldl_cons] at hx
        refine ih _ ?_ (fun s2 hs2 => hsegs s2 (by simp [hs2])) x hx
        intro y hy
        split_ifs at hy with h1 h2
        · exact hacc y hy
        · exact hacc y ((List.dropLast_sublist _).subset hy)
        · rcases List.mem_append.mp hy with hm | hm
          · exact hacc y hm
          · rw [List.mem_singleton] at hm
            subst hm
            exact hsegs y (by simp)
    intro x hx
    exact hgen segments [] (by simp) (fun s hs => hs) x hx
  set R := segments.foldl
      (fun acc seg =>
        if seg = ".".data then acc
        else if seg = "..".data then acc.dropLast
        else acc ++ [seg]) ([] : List Str) with hR
  set R2 := (if segments.getLast? = some ".".data
      ∨ segments.getLast? = some "..".data then R ++ [[]] else R) with hR2
  have hres2 : ∀ x ∈ R2, x = [] ∨ x ∈ segments := by
    intro x hx
    rw [hR2] at hx
    split_ifs at hx with ht
    · rcases List.mem_append.mp hx with hm | hm
      · exact Or.inr (hres x (by rw [hR] at hm; exact hm))
      · rw [List.mem_singleton] at hm
        exact Or.inl hm
    · exact Or.inr (hres x (by rw [hR] at hx; exact hx))
  have hunf : joinResolve segments
      = (if joinSep '/' R2 = [] then ['/'] else joinSep '/' R2) := rfl
  rw [hunf] at h
  by_cases hj : joinSep '/' R2 = []
  · rw [if_pos hj, List.mem_singleton] at h
    exact Or.inl h
  · rw [if_neg hj] at h
    rcases mem_joinSep h with rfl | ⟨f, hf, hcf⟩
    · exact Or.inl rfl
    · rcases hres2 f hf with rfl | hm
      · simp at hcf
      · exact Or.inr ⟨f, hm, hcf⟩

theorem splitSchemeCandidate_some_shape2 {l s r : Str}
    (h : splitSchemeCandidate l = some (s, r)) :
    ∃ c0 crest, l = (c0 :: crest) ++ ':' :: r ∧ s = lowerStr (c0 :: crest)
      ∧ c0.isAlpha = true ∧ crest.all isSchemeChar = true := by
  rw [splitSchemeCandidate] at h
  match hb : breakAtChar ':' l with
  | (pre, none) => rw [hb] at h; exact absurd h (by simp)
  | (pre, some rest) =>
    rw [hb] at h
    obtain ⟨hl, hnc⟩ := breakAtChar_eq_some hb
    match pre with
    | [] => exact absurd h (by simp)
    | c0 :: crest =>
      dsimp only at h
      split_ifs at h with hcond
      rw [Option.some_inj] at h
      have hs : s = lowerStr (c0 :: crest) := (Prod.mk.inj h.symm).1
      have hr : rest = r := (Prod.mk.inj h).2
      rw [Bool.and_eq_true] at hcond
      exact ⟨c0, crest, by rw [hl, hr], hs, hcond.1, hcond.2⟩

theorem splitSchemeCandidate_raw {c0 : Char} {crest r : Str}
    (ha : c0.isAlpha = true) (hall : crest.all isSchemeChar = true) :
    splitSchemeCandidate ((c0 :: crest) ++ ':' :: r)
      = some (lowerStr (c0 :: crest), r) := by
  have hnc : ':' ∉ c0 :: crest := by
    intro hm
    rcases List.mem_cons.mp hm with he | hm2
    · exact absurd ha (by rw [← he]; decide)
    · exact (isSchemeChar_props (List.all_eq_true.mp hall ':' hm2)).1 rfl
  rw [splitSchemeCandidate, breakAtChar_append_sep hnc]
  dsimp only
  rw [if_pos (by rw [ha, hall]; rfl)]

theorem pre_no_qmark {c0 : Char} {crest : List Char}
    (ha : c0.isAlpha = true) (hall : crest.all isSchemeChar = true) :
    ('?' : Char) ∉ c0 :: crest := by
  intro hm
  rcases List.mem_cons.mp hm with he | hm2
  · exact absurd ha (by rw [← he]; decide)
  · exact (isSchemeChar_props (List.all_eq_true.mp hall '?' hm2)).2.2.1 rfl

theorem netlocPart_decomp (r : Str) : ∃ B, r = B ++ (netlocPart r).2
    ∧ ('?' : Char) ∉ B ∧ ('#' : Char) ∉ B := by
  unfold netlocPart
  split
  · rename_i r2
    refine ⟨'/' :: '/' :: (takeNetloc r2).1, ?_, ?_, ?_⟩
    · rw [show ('/' :: '/' :: (takeNetloc r2).1) ++ (takeNetloc r2).2
          = '/' :: '/' :: ((takeNetloc r2).1 ++ (takeNetloc r2).2) from rfl,
        takeNetloc_decomp r2]
    · intro hm
      rcases List.mem_cons.mp hm with he | hm2
      · exact absurd he (by decide)
      · rcases List.mem_cons.mp hm2 with he | hm3
        · exact absurd he (by decide)
        · exact (takeNetloc_fst_no_delim '?' hm3).2.1 rfl
    · intro hm
      rcases List.mem_cons.mp hm with he | hm2
      · exact absurd he (by decide)
      · rcases List.mem_cons.mp hm2 with he | hm3
        · exact absurd he (by decide)
        · exact (takeNetloc_fst_no_delim '#' hm3).2.2 rfl
  · exact ⟨[], by simp, by simp, by simp⟩

theorem urlsplitCore_decomp (d w : Str) :
    ∃ A rest2, stripUnsafe w = A ++ rest2 ∧ ('?' : Char) ∉ A
      ∧ (urlsplitCore d w).query
        = ((breakAtChar '?' (breakAtChar '#' rest2).1).2).getD []
      ∧ (urlsplitCore d w).fragment = ((breakAtChar '#' rest2).2).getD [] := by
  match hcand : splitSchemeCandidate (stripUnsafe w) with
  | some (s, r) =>
    obtain ⟨c0, crest, hl, hsl, ha, hall⟩ :=
      splitSchemeCandidate_some_shape2 hcand
    obtain ⟨B, hrB, hBq, hBh⟩ := netlocPart_decomp r
    refine ⟨(c0 :: crest) ++ ':' :: B, (netlocPart r).2, ?_, ?_, ?_, ?_⟩
    · rw [hl]
      conv_lhs => rw [hrB]
      rw [List.append_assoc]
      rfl
    · intro hm
      rcases List.mem_append.mp hm with hm1 | hm2
      · exact pre_no_qmark ha hall hm1
      · rcases List.mem_cons.mp hm2 with he | hm3
        · exact absurd he (by decide)
        · exact hBq hm3
    · rw [urlsplitCore_of_cand hcand]
    · rw [urlsplitCore_of_cand hcand]
  | none =>
    obtain ⟨B, hrB, hBq, hBh⟩ := netlocPart_decomp (stripUnsafe w)
    refine ⟨B, (netlocPart (stripUnsafe w)).2, ?_, hBq, ?_, ?_⟩
    · conv_lhs => rw [hrB]
    · rw [urlsplitCore_of_no_cand hcand]
    · rw [urlsplitCore_of_no_cand hcand]

theorem no_qmark_of_query_nil {d w : Str}
    (hq : (urlsplitCore d w).query = [])
    (hh : ('#' : Char) ∉ stripUnsafe w)
    (hl : (stripUnsafe w).getLast? ≠ some '?') :
    ('?' : Char) ∉ stripUnsafe w := by
  obtain ⟨A, rest2, hdec, hAq, hquery, _⟩ := urlsplitCore_decomp d w
  have hh2 : ('#' : Char) ∉ rest2 := by
    intro hm
    exact hh (by rw [hdec]; exact List.mem_append_right _ hm)
  rw [breakAtChar_not_mem hh2] at hquery
  intro hm
  rw [hdec] at hm
  rcases List.mem_append.mp hm with hm1 | hm2
  · exact hAq hm1
  · match hpq : (breakAtChar '?' rest2).2 with
    | none =>
      obtain ⟨_, hnm⟩ := breakAtChar_eq_none (show breakAtChar '?' rest2
        = ((breakAtChar '?' rest2).1, none) from by rw [← hpq])
      exact hnm hm2
    | some qq =>
      rw [hpq] at hquery
      rw [Option.getD_some] at hquery
      have hdec2 := breakAtChar_eq_some (show breakAtChar '?' rest2
        = ((breakAtChar '?' rest2).1, some qq) from by rw [← hpq])
      rw [hq] at hquery
      rw [← hquery] at hdec2
      have hre : rest2 = (breakAtChar '?' rest2).1 ++ ['?'] := hdec2.1
      apply hl
      rw [hdec, hre, ← List.append_assoc, List.getLast?_concat]

theorem urlsplitCore_fragment_nil {d w : Str}
    (hh : ('#' : Char) ∉ stripUnsafe w) : (urlsplitCore d w).fragment = [] := by
  obtain ⟨A, rest2, hdec, _, _, hfrag⟩ := urlsplitCore_decomp d w
  have hh2 : ('#' : Char) ∉ rest2 := fun hm =>
    hh (by rw [hdec]; exact List.mem_append_right _ hm)
  rw [hfrag, breakAtChar_not_mem hh2]
  rfl

theorem urlsplitCore_query_nil {d w : Str}
    (hqm : ('?' : Char) ∉ stripUnsafe w) : (urlsplitCore d w).query = [] := by
  obtain ⟨A, rest2, hdec, _, hquery, _⟩ := urlsplitCore_decomp d w
  rw [hquery]
  match hpq : (breakAtChar '?' (breakAtChar '#' rest2).1).2 with
  | none => rfl
  | some qq =>
    have hdec2 := breakAtChar_eq_some (show breakAtChar '?'
        (breakAtChar '#' rest2).1
      = ((breakAtChar '?' (breakAtChar '#' rest2).1).1, some qq) from by
        rw [← hpq])
    exfalso
    apply hqm
    rw [hdec]
    refine List.mem_append_right _
      (@breakAtChar_fst_mem '#' '?' rest2 ?_)
    rw [hdec2.1]
    exact List.mem_append_right _ (by simp)

theorem cand_defrag {u s0 r0 : Str}
    (hc : splitSchemeCandidate (stripUnsafe u) = some (s0, r0)) :
    splitSchemeCandidate (stripUnsafe ((breakAtChar '#' u).1))
      = some (s0, (breakAtChar '#' r0).1) := by
  rw [strip_defrag_comm]
  obtain ⟨c0, crest, hl, hsl, ha, hall⟩ := splitSchemeCandidate_some_shape2 hc
  rw [hl]
  have hh : ('#' : Char) ∉ (c0 :: crest) ++ [':'] := by
    intro hm
    rcases List.mem_append.mp hm with hm1 | hm2
    · rcases List.mem_cons.mp hm1 with he | hm3
      · exact absurd ha (by rw [← he]; decide)
      · exact (isSchemeChar_props
          (List.all_eq_true.mp hall '#' hm3)).2.2.2.1 rfl
    · rw [List.mem_singleton] at hm2
      exact absurd hm2 (by decide)
  have hre : (c0 :: crest) ++ ':' :: r0 = ((c0 :: crest) ++ [':']) ++ r0 := by
    simp
  rw [hre, breakAtChar_append hh, List.append_assoc,
    show (([':'] : Str) ++ (breakAtChar '#' r0).1)
      = ':' :: (breakAtChar '#' r0).1 from rfl,
    splitSchemeCandidate_raw ha hall, ← hsl]

theorem cand_dropLast {w s0 r : Str}
    (hc : splitSchemeCandidate (stripUnsafe w) = some (s0, r))
    (hlast : (stripUnsafe w).getLast? = some '/') :
    splitSchemeCandidate ((stripUnsafe w).dropLast)
      = some (s0, r.dropLast) := by
  obtain ⟨c0, crest, hl, hsl, ha, hall⟩ := splitSchemeCandidate_some_shape2 hc
  have hrne : r ≠ [] := by
    intro hre
    rw [hre] at hl
    rw [hl] at hlast
    rw [show (c0 :: crest) ++ [':'] = (c0 :: crest) ++ [':'] from rfl,
      List.getLast?_concat] at hlast
    exact absurd (Option.some_inj.mp hlast) (by decide)
  match hr : r with
  | [] => exact absurd rfl hrne
  | y :: t =>
    rw [hl]
    have hdl : ((c0 :: crest) ++ ':' :: y :: t).dropLast
        = (c0 :: crest) ++ ':' :: (y :: t).dropLast := by
      rw [List.dropLast_append_of_ne_nil _ (by simp)]
      simp
    rw [hdl, splitSchemeCandidate_raw ha hall, ← hsl]

theorem urlunsplit_frag (s nl p q f : Str) :
    urlunsplitStr ⟨s, nl, p, q, f⟩
      = urlunsplitStr ⟨s, nl, p, q, []⟩
        ++ (if f ≠ [] then '#' :: f else []) := by
  unfold urlunsplitStr
  dsimp only
  by_cases hf : f = []
  · subst hf
    simp
  · simp [hf]

theorem urlunsplit_guard {s nl p q : Str} (hnl : nl ≠ []) :
    urlunsplitStr ⟨s, nl, p, q, []⟩
      = urlunsplitStr ⟨s, nl, guardPath p, q, []⟩ := by
  rw [urlunsplit_eq hnl, urlunsplit_eq hnl, guardPath_idem]

theorem defrag_unsplit {s nl p q f : Str} (hnl : nl ≠ [])
    (hnohash : ('#' : Char) ∉ urlunsplitStr ⟨s, nl, p, q, []⟩) :
    (breakAtChar '#' (urlunsplitStr ⟨s, nl, p, q, f⟩)).1
      = urlunsplitStr ⟨s, nl, p, q, []⟩ := by
  rw [urlunsplit_frag]
  by_cases hf : f = []
  · subst hf
    rw [if_neg (show ¬(([] : Str) ≠ []) from by simp), List.append_nil,
      breakAtChar_not_mem hnohash]
  · rw [if_pos hf, breakAtChar_append_sep hnohash]

theorem unsplit_getLast_q {s nl p q : Str} (hnl : nl ≠ []) (hq : q ≠ []) :
    (urlunsplitStr ⟨s, nl, p, q, []⟩).getLast? = q.getLast? := by
  rw [urlunsplit_eq hnl, if_pos hq, List.getLast?_append_of_ne_nil _ (by simp),
    show ('?' :: q) = ['?'] ++ q from rfl,
    List.getLast?_append_of_ne_nil _ hq]

theorem guardPath_fixed_inv {p : Str} (h : guardPath p = p) :
    p = [] ∨ p.head? = some '/' := by
  unfold guardPath at h
  split_ifs at h with hc
  · exfalso
    have := congrArg List.length h
    simp at this
  · push_neg at hc
    by_cases hp : p = []
    · exact Or.inl hp
    · exact Or.inr (hc hp)

theorem strip_unsplit_shape {s nl p q : Str} (hnl : nl ≠ [])
    (hnlnd : ∀ c ∈ nl, c ≠ '/') (hpg : guardPath p = p)
    (hql : q ≠ [] → q.getLast? ≠ some '/') :
    ∃ p2, guardPath p2 = p2 ∧ (∀ c, c ∈ p2 → c ∈ p) ∧
      (if (urlunsplitStr ⟨s, nl, p, q, []⟩).getLast? = some '/'
        then (urlunsplitStr ⟨s, nl, p, q, []⟩).dropLast
        else urlunsplitStr ⟨s, nl, p, q, []⟩)
      = urlunsplitStr ⟨s, nl, p2, q, []⟩ := by
  by_cases hlast : (urlunsplitStr ⟨s, nl, p, q, []⟩).getLast? = some '/'
  · have hqe : q = [] := by
      by_contra hq
      exact hql hq (by rw [← unsplit_getLast_q hnl hq]; exact hlast)
    subst hqe
    have hw : urlunsplitStr ⟨s, nl, p, [], []⟩
        = (((if s ≠ [] then s ++ [':'] else []) ++ ['/', '/']) ++ nl) ++ p := by
      rw [urlunsplit_eq hnl, if_neg (show ¬(([] : Str) ≠ []) from by simp),
        List.append_nil, hpg]
      simp
    have hpne : p ≠ [] := by
      intro hpe
      subst hpe
      rw [hw, List.append_nil,
        List.getLast?_append_of_ne_nil _ hnl] at hlast
      have hmem := List.mem_of_mem_getLast? hlast
      exact hnlnd '/' hmem rfl
    have hplast : p.getLast? = some '/' := by
      rw [hw, List.getLast?_append_of_ne_nil _ hpne] at hlast
      exact hlast
    refine ⟨p.dropLast, ?_, fun c h => (List.dropLast_sublist _).subset h, ?_⟩
    · rcases guardPath_fixed_inv hpg with hpe | hph
      · exact absurd hpe hpne
      · match hpm : p with
        | [] => exact absurd rfl hpne
        | y :: t =>
          rw [List.head?_cons, Option.some_inj] at hph
          subst hph
          match t with
          | [] => rfl
          | z :: t2 =>
            apply guardPath_eq_self
            exact Or.inr rfl
    · rw [if_pos hlast, hw, List.dropLast_append_of_ne_nil _ hpne]
      have hw2 : urlunsplitStr ⟨s, nl, p.dropLast, [], []⟩
          = (((if s ≠ [] then s ++ [':'] else []) ++ ['/', '/']) ++ nl)
            ++ p.dropLast := by
        rw [urlunsplit_eq hnl, if_neg (show ¬(([] : Str) ≠ []) from by simp),
          List.append_nil]
        rw [show guardPath p.dropLast = p.dropLast from ?_]
        · simp
        · rcases guardPath_fixed_inv hpg with hpe | hph
          · exact absurd hpe hpne
          · match hpm : p with
            | [] => exact absurd rfl hpne
            | y :: t =>
              rw [List.head?_cons, Option.some_inj] at hph
              subst hph
              match t with
              | [] => rfl
              | z :: t2 =>
                apply guardPath_eq_self
                exact Or.inr rfl
      rw [hw2]
  · exact ⟨p, hpg, fun c h => h, by rw [if_neg hlast]⟩

theorem urljoinStr_else {b u : Str} (hb : b ≠ []) (hu : u ≠ []) :
    urljoinStr b u =
      (if (urlsplitCore (urlsplitCore [] b).scheme u).scheme
            ≠ (urlsplitCore [] b).scheme
          ∨ (urlsplitCore (urlsplitCore [] b).scheme u).scheme ∉ usesRelative
        then u
        else if (urlsplitCore (urlsplitCore [] b).scheme u).scheme ∈ usesNetloc
            ∧ (urlsplitCore (urlsplitCore [] b).scheme u).netloc ≠ []
        then urlunsplitStr
          ⟨(urlsplitCore (urlsplitCore [] b).scheme u).scheme,
            (urlsplitCore (urlsplitCore [] b).scheme u).netloc,
            (urlsplitCore (urlsplitCore [] b).scheme u).path,
            (urlsplitCore (urlsplitCore [] b).scheme u).query,
            (urlsplitCore (urlsplitCore [] b).scheme u).fragment⟩
        else if (urlsplitCore (urlsplitCore [] b).scheme u).path = [] then
          urlunsplitStr
            ⟨(urlsplitCore (urlsplitCore [] b).scheme u).scheme,
              (if (urlsplitCore (urlsplitCore [] b).scheme u).scheme
                  ∈ usesNetloc
                then (urlsplitCore [] b).netloc
                else (urlsplitCore (urlsplitCore [] b).scheme u).netloc),
              (urlsplitCore [] b).path,
              (if (urlsplitCore (urlsplitCore [] b).scheme u).query = []
                then (urlsplitCore [] b).query
                else (urlsplitCore (urlsplitCore [] b).scheme u).query),
              (urlsplitCore (urlsplitCore [] b).scheme u).fragment⟩
        else
          urlunsplitStr
            ⟨(urlsplitCore (urlsplitCore [] b).scheme u).scheme,
              (if (urlsplitCore (urlsplitCore [] b).scheme u).scheme
                  ∈ usesNetloc
                then (urlsplitCore [] b).netloc
                else (urlsplitCore (urlsplitCore [] b).scheme u).netloc),
              joinResolve
                (if (urlsplitCore (urlsplitCore [] b).scheme u).path.head?
                    = some '/'
                  then splitOnChar '/'
                    (urlsplitCore (urlsplitCore [] b).scheme u).path
                  else filterMid
                    ((match (splitOnChar '/' (urlsplitCore [] b).path).getLast?
                        with
                      | some s => if s = []
                          then splitOnChar '/' (urlsplitCore [] b).path
                          else (splitOnChar '/'
                            (urlsplitCore [] b).path).dropLast
                      | none => splitOnChar '/' (urlsplitCore [] b).path)
                      ++ splitOnChar '/'
                        (urlsplitCore (urlsplitCore [] b).scheme u).path)),
              (urlsplitCore (urlsplitCore [] b).scheme u).query,
              (urlsplitCore (urlsplitCore [] b).scheme u).fragment⟩) := by
  rw [urljoinStr, if_neg hb, if_neg hu]

theorem ite_query_chars {d1 d2 : Str} {cnd : Prop} [Decidable cnd]
    (h1 : ∀ c ∈ d1, okChar c = true ∧ c ≠ '#')
    (h2 : ∀ c ∈ d2, okChar c = true ∧ c ≠ '#') :
    ∀ c ∈ (if cnd then d1 else d2), okChar c = true ∧ c ≠ '#' := by
  intro c hc
  split_ifs at hc with h
  · exact h1 c hc
  · exact h2 c hc

theorem urljoin_shape {b u : Str}
    (hbs : (urlsplitCore [] b).scheme = "http".data
      ∨ (urlsplitCore [] b).scheme = "https".data)
    (hbnl : (urlsplitCore [] b).netloc ≠ [])
    (hb : b ≠ []) (hu : u ≠ []) :
    (∃ NL P Q F, NL ≠ []
      ∧ (∀ c ∈ NL, okChar c = true ∧ c ≠ '/' ∧ c ≠ '?' ∧ c ≠ '#')
      ∧ (∀ c ∈ P, okChar c = true ∧ c ≠ '?' ∧ c ≠ '#')
      ∧ (∀ c ∈ Q, okChar c = true ∧ c ≠ '#')
      ∧ urljoinStr b u
        = urlunsplitStr ⟨(urlsplitCore [] b).scheme, NL, P, Q, F⟩)
    ∨ (∃ s0 r0, splitSchemeCandidate (stripUnsafe u) = some (s0, r0)
        ∧ (s0 ≠ (urlsplitCore [] b).scheme ∨ s0 ∉ usesRelative)
        ∧ urljoinStr b u = u) := by
  by_cases hc1 : (urlsplitCore (urlsplitCore [] b).scheme u).scheme
      ≠ (urlsplitCore [] b).scheme
    ∨ (urlsplitCore (urlsplitCore [] b).scheme u).scheme ∉ usesRelative
  · refine Or.inr ?_
    match hcand : splitSchemeCandidate (stripUnsafe u) with
    | none =>
      exfalso
      have hsch : (urlsplitCore (urlsplitCore [] b).scheme u).scheme
          = (urlsplitCore [] b).scheme := by
        rw [urlsplitCore_of_no_cand hcand]
      rcases hc1 with h | h
      · exact h hsch
      · apply h
        rw [hsch]
        rcases hbs with he | he <;> rw [he] <;> decide
    | some (s0, r0) =>
      have hsch : (urlsplitCore (urlsplitCore [] b).scheme u).scheme = s0 := by
        rw [urlsplitCore_of_cand hcand]
      refine ⟨s0, r0, rfl, ?_, ?_⟩
      · rcases hc1 with h | h
        · exact Or.inl (by rw [← hsch]; exact h)
        · exact Or.inr (by rw [← hsch]; exact h)
      · rw [urljoinStr_else hb hu, if_pos hc1]
  · refine Or.inl ?_
    push_neg at hc1
    obtain ⟨hscheq, hrel⟩ := hc1
    have hnet : (urlsplitCore (urlsplitCore [] b).scheme u).scheme
        ∈ usesNetloc := by
      rw [hscheq]
      rcases hbs with he | he <;> rw [he] <;> decide
    have hnet2 : (urlsplitCore [] b).scheme ∈ usesNetloc := by
      rcases hbs with he | he <;> rw [he] <;> decide
    by_cases hc2 : (urlsplitCore (urlsplitCore [] b).scheme u).netloc ≠ []
    · refine ⟨(urlsplitCore (urlsplitCore [] b).scheme u).netloc,
        (urlsplitCore (urlsplitCore [] b).scheme u).path,
        (urlsplitCore (urlsplitCore [] b).scheme u).query,
        (urlsplitCore (urlsplitCore [] b).scheme u).fragment,
        hc2, urlsplitCore_netloc_chars _ u, urlsplitCore_path_chars _ u,
        urlsplitCore_query_chars _ u, ?_⟩
      rw [urljoinStr_else hb hu, if_neg (by push_neg; exact ⟨hscheq, hrel⟩),
        if_pos ⟨hnet, hc2⟩, hscheq]
    · push_neg at hc2
      by_cases hc3 : (urlsplitCore (urlsplitCore [] b).scheme u).path = []
      · refine ⟨(urlsplitCore [] b).netloc, (urlsplitCore [] b).path,
          (if (urlsplitCore (urlsplitCore [] b).scheme u).query = []
            then (urlsplitCore [] b).query
            else (urlsplitCore (urlsplitCore [] b).scheme u).query),
          (urlsplitCore (urlsplitCore [] b).scheme u).fragment,
          hbnl, urlsplitCore_netloc_chars _ b, urlsplitCore_path_chars _ b,
          ite_query_chars (urlsplitCore_query_chars _ b)
            (urlsplitCore_query_chars _ u), ?_⟩
        rw [urljoinStr_else hb hu, if_neg (by push_neg; exact ⟨hscheq, hrel⟩),
          if_neg (by
            intro hcc
            exact absurd hc2 (by simp [hcc.2])),
          if_pos hc3, hscheq, if_pos hnet2]
      · refine ⟨(urlsplitCore [] b).netloc,
          joinResolve
            (if (urlsplitCore (urlsplitCore [] b).scheme u).path.head?
                = some '/'
              then splitOnChar '/'
                (urlsplitCore (urlsplitCore [] b).scheme u).path
              else filterMid
                ((match (splitOnChar '/' (urlsplitCore [] b).path).getLast?
                    with
                  | some s => if s = []
                      then splitOnChar '/' (urlsplitCore [] b).path
                      else (splitOnChar '/'
                        (urlsplitCore [] b).path).dropLast
                  | none => splitOnChar '/' (urlsplitCore [] b).path)
                  ++ splitOnChar '/'
                    (urlsplitCore (urlsplitCore [] b).scheme u).path)),
          (urlsplitCore (urlsplitCore [] b).scheme u).query,
          (urlsplitCore (urlsplitCore [] b).scheme u).fragment,
          hbnl, urlsplitCore_netloc_chars _ b, ?_,
          urlsplitCore_query_chars _ u, ?_⟩
        · intro c hc
          rcases mem_joinResolve hc with rfl | ⟨sgm, hsgm, hcs⟩
          · exact ⟨by decide, by decide, by decide⟩
          · by_cases hhead :
                List.head? (urlsplitCore (urlsplitCore [] b).scheme u).path
                  = some '/'
            · rw [if_pos hhead] at hsgm
              exact urlsplitCore_path_chars _ u c (mem_splitOnChar hsgm hcs)
            · rw [if_neg hhead] at hsgm
              have hsgm2 := mem_filterMid hsgm
              rcases List.mem_append.mp hsgm2 with hmb | hmu
              · have hmb2 : sgm ∈ splitOnChar '/' (urlsplitCore [] b).path := by
                  match hg : (splitOnChar '/' (urlsplitCore [] b).path).getLast?
                      with
                  | some s2 =>
                    rw [hg] at hmb
                    dsimp only at hmb
                    split_ifs at hmb with hse
                    · exact hmb
                    · exact (List.dropLast_sublist _).subset hmb
                  | none =>
                    rw [hg] at hmb
                    dsimp only at hmb
                    exact hmb
                exact urlsplitCore_path_chars _ b c
                  (mem_splitOnChar hmb2 hcs)
              · exact urlsplitCore_path_chars _ u c (mem_splitOnChar hmu hcs)
        · rw [urljoinStr_else hb hu, if_neg (by push_neg; exact ⟨hscheq, hrel⟩),
            if_neg (by
              intro hcc
              exact absurd hc2 (by simp [hcc.2])),
            if_neg hc3, hscheq, if_pos hnet2]

theorem listStartsWith_slashslash {p : Str} :
    listStartsWith "//".data p = true ↔ ∃ t, p = '/' :: '/' :: t := by
  match p with
  | [] => simp [listStartsWith]
  | [c] =>
    show listStartsWith ['/', '/'] [c] = true ↔ _
    rw [listStartsWith]
    simp [listStartsWith]
  | c1 :: c2 :: t =>
    show listStartsWith ['/', '/'] (c1 :: c2 :: t) = true ↔ _
    rw [listStartsWith]
    rw [show listStartsWith ['/'] (c2 :: t)
        = (decide ('/' = c2) && listStartsWith [] t) from rfl]
    rw [show listStartsWith ([] : Str) t = true from rfl]
    simp only [Bool.and_true, Bool.and_eq_true, decide_eq_true_eq]
    constructor
    · rintro ⟨rfl, rfl⟩
      exact ⟨t, rfl⟩
    · rintro ⟨t2, he⟩
      have h1 : c1 = '/' := by
        have := congrArg (fun l => List.head? l) he
        simpa using this
      have h2 : c2 = '/' := by
        have := congrArg (fun l => List.head? (List.tail l)) he
        simpa using this
      exact ⟨h1.symm, h2.symm⟩

theorem urlunsplit_eq_nil_netloc {s p q : Str} (hs : s ≠ []) :
    urlunsplitStr ⟨s, [], p, q, []⟩
      = (if listStartsWith "//".data p = true
          then s ++ ':' :: ('/' :: '/' :: p)
            ++ (if q ≠ [] then '?' :: q else [])
          else s ++ ':' :: p ++ (if q ≠ [] then '?' :: q else [])) := by
  unfold urlunsplitStr
  dsimp only
  by_cases hpss : listStartsWith "//".data p = true
  · rw [if_pos hpss]
    have hp : ∃ t, p = '/' :: '/' :: t := listStartsWith_slashslash.mp hpss
    obtain ⟨t, rfl⟩ := hp
    rw [if_pos (Or.inr ⟨by simp, hpss⟩),
      if_neg (show ¬(('/' :: '/' :: t ≠ []) ∧ ('/' :: '/' :: t).head? ≠ some '/')
        from fun hcc => hcc.2 (by simp)),
      if_pos hs, if_neg (show ¬(([] : Str) ≠ []) from by simp)]
    by_cases hq : q = []
    · subst hq
      simp
    · rw [if_pos hq, if_pos hq]
      simp
  · rw [if_neg hpss]
    rw [if_neg (show ¬(([] : Str) ≠ [] ∨ (p ≠ []
        ∧ listStartsWith "//".data p = true)) from by
      push_neg
      exact ⟨rfl, fun _ => hpss⟩),
      if_pos hs, if_neg (show ¬(([] : Str) ≠ []) from by simp)]
    by_cases hq : q = []
    · subst hq
      simp
    · rw [if_pos hq, if_pos hq]

theorem append_not_slashslash {p qp : Str}
    (hp : ¬listStartsWith "//".data p = true)
    (hqp : qp = [] ∨ qp.head? = some '?') :
    ∀ t : Str, p ++ qp ≠ '/' :: '/' :: t := by
  intro t heq
  match p with
  | [] =>
    rw [List.nil_append] at heq
    rcases hqp with rfl | hh
    · simp at heq
    · rw [heq] at hh
      simp at hh
  | [c] =>
    rw [show ([c] : Str) ++ qp = c :: qp from rfl] at heq
    have hc : c = '/' := by
      have := congrArg List.head? heq
      simpa using this
    have hq2 : qp = '/' :: t := by
      have := congrArg List.tail heq
      simpa using this
    rcases hqp with rfl | hh
    · simp at hq2
    · rw [hq2] at hh
      simp at hh
  | c1 :: c2 :: pr =>
    have h1 : c1 = '/' := by
      have := congrArg List.head? heq
      simpa using this
    have h2 : c2 = '/' := by
      have := congrArg (fun l => List.head? (List.tail l)) heq
      simpa using this
    subst h1
    subst h2
    exact hp (listStartsWith_slashslash.mpr ⟨pr, rfl⟩)

theorem dropLast_not_slashslash {X : Str}
    (hX : ∀ t : Str, X ≠ '/' :: '/' :: t) :
    ∀ t : Str, X.dropLast ≠ '/' :: '/' :: t := by
  intro t heq
  rcases List.eq_nil_or_concat X with rfl | ⟨ys, c, rfl⟩
  · simp at heq
  · rw [List.concat_eq_append, List.dropLast_concat] at heq
    subst heq
    exact hX (t ++ [c]) (by rw [List.concat_eq_append]; simp)

theorem parse_strip_unsplit_empty {d s p q : Str}
    (hs : schemeOkP s)
    (hpc : ∀ c ∈ p, okChar c = true ∧ c ≠ '?' ∧ c ≠ '#')
    (hqc : ∀ c ∈ q, okChar c = true ∧ c ≠ '#') :
    (urlsplitCore d
      (if (urlunsplitStr ⟨s, [], p, q, []⟩).getLast? = some '/'
        then (urlunsplitStr ⟨s, [], p, q, []⟩).dropLast
        else urlunsplitStr ⟨s, [], p, q, []⟩)).netloc = [] := by
  have hsne := schemeOkP_ne_nil hs
  have hQPw : (if q ≠ [] then '?' :: q else []) = []
      ∨ (if q ≠ [] then '?' :: q else []).head? = some '?' := by
    split_ifs with h
    · exact Or.inr rfl
    · exact Or.inl rfl
  have hQPok : ∀ c ∈ (if q ≠ [] then '?' :: q else []), okChar c = true := by
    intro c hc
    split_ifs at hc with h
    · rcases List.mem_cons.mp hc with rfl | hm
      · decide
      · exact (hqc c hm).1
    · simp at hc
  have hsok : ∀ c ∈ s, okChar c = true := fun c hc =>
    (isSchemeChar_props (schemeOkP_chars hs c hc)).2.2.2.2
  by_cases hpss : listStartsWith "//".data p = true
  · obtain ⟨p2, rfl⟩ := listStartsWith_slashslash.mp hpss
    rw [urlunsplit_eq_nil_netloc hsne, if_pos hpss]
    have hXne : ('/' :: '/' :: p2) ++ (if q ≠ [] then '?' :: q else [])
        ≠ [] := by simp
    have hassoc : s ++ ':' :: ('/' :: '/' :: ('/' :: '/' :: p2))
          ++ (if q ≠ [] then '?' :: q else [])
        = s ++ ':' :: ('/' :: '/'
          :: (('/' :: '/' :: p2) ++ (if q ≠ [] then '?' :: q else []))) := by
      simp
    rw [hassoc]
    have hok : ∀ c ∈ s ++ ':' :: ('/' :: '/'
        :: (('/' :: '/' :: p2) ++ (if q ≠ [] then '?' :: q else []))),
        okChar c = true := by
      intro c hc
      rcases List.mem_append.mp hc with hm | hm
      · exact hsok c hm
      · rcases List.mem_cons.mp hm with rfl | hm2
        · decide
        · rcases List.mem_cons.mp hm2 with rfl | hm3
          · decide
          · rcases List.mem_cons.mp hm3 with rfl | hm4
            · decide
            · rcases List.mem_append.mp hm4 with hm5 | hm6
              · rcases List.mem_cons.mp hm5 with rfl | hm7
                · decide
                · rcases List.mem_cons.mp hm7 with rfl | hm8
                  · decide
                  · exact (hpc c (by simp [hm8])).1
              · exact hQPok c hm6
    by_cases hlast : (s ++ ':' :: ('/' :: '/'
        :: (('/' :: '/' :: p2) ++ (if q ≠ [] then '?' :: q else [])))).getLast?
        = some '/'
    · rw [if_pos hlast]
      have hdl : (s ++ ':' :: ('/' :: '/'
          :: (('/' :: '/' :: p2)
            ++ (if q ≠ [] then '?' :: q else [])))).dropLast
          = s ++ ':' :: ('/' :: '/'
            :: ('/' :: (('/' :: p2)
              ++ (if q ≠ [] then '?' :: q else [])).dropLast)) := by
        rw [show s ++ ':' :: ('/' :: '/' :: (('/' :: '/' :: p2)
            ++ (if q ≠ [] then '?' :: q else [])))
          = (s ++ [':', '/', '/', '/'])
            ++ (('/' :: p2) ++ (if q ≠ [] then '?' :: q else [])) from by
          simp]
        rw [List.dropLast_append_of_ne_nil _ (by simp)]
        simp
      rw [hdl]
      have hstr : stripUnsafe (s ++ ':' :: ('/' :: '/'
          :: ('/' :: (('/' :: p2)
            ++ (if q ≠ [] then '?' :: q else [])).dropLast)))
          = s ++ ':' :: ('/' :: '/'
            :: ('/' :: (('/' :: p2)
              ++ (if q ≠ [] then '?' :: q else [])).dropLast)) := by
        apply stripUnsafe_eq_self
        intro c hc
        rcases List.mem_append.mp hc with hm | hm
        · exact hsok c hm
        · rcases List.mem_cons.mp hm with rfl | hm2
          · decide
          · rcases List.mem_cons.mp hm2 with rfl | hm3
            · decide
            · rcases List.mem_cons.mp hm3 with rfl | hm4
              · decide
              · rcases List.mem_cons.mp hm4 with rfl | hm5
                · decide
                · have hsub := (List.dropLast_sublist _).subset hm5
                  rcases List.mem_cons.mp hsub with rfl | hm6
                  · decide
                  · rcases List.mem_append.mp hm6 with hm7 | hm8
                    · exact (hpc c (by simp [hm7])).1
                    · exact hQPok c hm8
      have hcand : splitSchemeCandidate (stripUnsafe (s ++ ':' :: ('/' :: '/'
          :: ('/' :: (('/' :: p2)
            ++ (if q ≠ [] then '?' :: q else [])).dropLast))))
          = some (s, '/' :: '/'
            :: ('/' :: (('/' :: p2)
              ++ (if q ≠ [] then '?' :: q else [])).dropLast)) := by
        rw [hstr]
        exact splitSchemeCandidate_explicit hs
      rw [urlsplitCore_of_cand hcand, netlocPart_slash,
        takeNetloc_delim_head (Or.inl rfl)]
    · rw [if_neg hlast]
      have hstr : stripUnsafe (s ++ ':' :: ('/' :: '/'
          :: (('/' :: '/' :: p2) ++ (if q ≠ [] then '?' :: q else []))))
          = s ++ ':' :: ('/' :: '/'
            :: (('/' :: '/' :: p2) ++ (if q ≠ [] then '?' :: q else []))) :=
        stripUnsafe_eq_self hok
      have hcand : splitSchemeCandidate (stripUnsafe (s ++ ':' :: ('/' :: '/'
          :: (('/' :: '/' :: p2) ++ (if q ≠ [] then '?' :: q else [])))))
          = some (s, '/' :: '/'
            :: (('/' :: '/' :: p2) ++ (if q ≠ [] then '?' :: q else []))) := by
        rw [hstr]
        exact splitSchemeCandidate_explicit hs
      rw [urlsplitCore_of_cand hcand, netlocPart_slash,
        show ('/' :: '/' :: p2) ++ (if q ≠ [] then '?' :: q else [])
          = '/' :: (('/' :: p2) ++ (if q ≠ [] then '?' :: q else []))
          from by simp,
        takeNetloc_delim_head (Or.inl rfl)]
  · rw [urlunsplit_eq_nil_netloc hsne, if_neg hpss]
    have hok : ∀ c ∈ s ++ ':' :: p ++ (if q ≠ [] then '?' :: q else []),
        okChar c = true := by
      intro c hc
      rcases List.mem_append.mp hc with hm | hm
      · rcases List.mem_append.mp hm with hm1 | hm2
        · exact hsok c hm1
        · rcases List.mem_cons.mp hm2 with rfl | hm3
          · decide
          · exact (hpc c hm3).1
      · exact hQPok c hm
    have hnoss := append_not_slashslash hpss hQPw
    by_cases hlast : (s ++ ':' :: p
        ++ (if q ≠ [] then '?' :: q else [])).getLast? = some '/'
    · rw [if_pos hlast]
      have hXne : p ++ (if q ≠ [] then '?' :: q else []) ≠ [] := by
        intro hXe
        rw [show s ++ ':' :: p ++ (if q ≠ [] then '?' :: q else [])
            = (s ++ [':']) ++ (p ++ (if q ≠ [] then '?' :: q else []))
            from by simp, hXe, List.append_nil, List.getLast?_concat]
          at hlast
        exact absurd (Option.some_inj.mp hlast) (by decide)
      have hdl : (s ++ ':' :: p
          ++ (if q ≠ [] then '?' :: q else [])).dropLast
          = s ++ ':'
            :: (p ++ (if q ≠ [] then '?' :: q else [])).dropLast := by
        rw [show s ++ ':' :: p ++ (if q ≠ [] then '?' :: q else [])
            = (s ++ [':']) ++ (p ++ (if q ≠ [] then '?' :: q else []))
            from by simp,
          List.dropLast_append_of_ne_nil _ hXne]
        simp
      rw [hdl]
      have hstr : stripUnsafe (s ++ ':'
          :: (p ++ (if q ≠ [] then '?' :: q else [])).dropLast)
          = s ++ ':'
            :: (p ++ (if q ≠ [] then '?' :: q else [])).dropLast := by
        apply stripUnsafe_eq_self
        intro c hc
        rcases List.mem_append.mp hc with hm | hm
        · exact hsok c hm
        · rcases List.mem_cons.mp hm with rfl | hm2
          · decide
          · have hsub := (List.dropLast_sublist _).subset hm2
            rcases List.mem_append.mp hsub with hm3 | hm4
            · exact (hpc c hm3).1
            · exact hQPok c hm4
      have hcand : splitSchemeCandidate (stripUnsafe (s ++ ':'
          :: (p ++ (if q ≠ [] then '?' :: q else [])).dropLast))
          = some (s,
            (p ++ (if q ≠ [] then '?' :: q else [])).dropLast) := by
        rw [hstr]
        exact splitSchemeCandidate_explicit hs
      rw [urlsplitCore_of_cand hcand,
        netlocPart_not_slash (dropLast_not_slashslash hnoss)]
    · rw [if_neg hlast]
      have hstr : stripUnsafe (s ++ ':' :: p
          ++ (if q ≠ [] then '?' :: q else []))
          = s ++ ':' :: p ++ (if q ≠ [] then '?' :: q else []) :=
        stripUnsafe_eq_self hok
      have hcand : splitSchemeCandidate (stripUnsafe (s ++ ':' :: p
          ++ (if q ≠ [] then '?' :: q else [])))
          = some (s, p ++ (if q ≠ [] then '?' :: q else [])) := by
        rw [hstr, show s ++ ':' :: p ++ (if q ≠ [] then '?' :: q else [])
          = s ++ ':' :: (p ++ (if q ≠ [] then '?' :: q else []))
          from by simp]
        exact splitSchemeCandidate_explicit hs
      rw [urlsplitCore_of_cand hcand, netlocPart_not_slash hnoss]

theorem normalize_fixed_point_residual {b v : Str}
    (hb : b ≠ []) (hvne : v ≠ [])
    (hcand : ∃ s0 r, splitSchemeCandidate (stripUnsafe v) = some (s0, r)
        ∧ (s0 ≠ (urlsplitCore [] b).scheme ∨ s0 ∉ usesRelative))
    (hnohash : ('#' : Char) ∉ v)
    (hq : (urlsplitCore [] v).query = [])
    (hslash : v.getLast? ≠ some '/') :
    normalizeUrlL b true v = v := by
  obtain ⟨s0, r, hc, hcond⟩ := hcand
  have hjoin : urljoinStr b v = v := by
    rw [urljoinStr_else hb hvne]
    have hsch : (urlsplitCore (urlsplitCore [] b).scheme v).scheme = s0 := by
      rw [urlsplitCore_of_cand hc]
    rw [if_pos (by
      rcases hcond with h | h
      · exact Or.inl (by rw [hsch]; exact h)
      · exact Or.inr (by rw [hsch]; exact h))]
  have hunf : normalizeUrlL b true v
      = (let n2 := (breakAtChar '#' (urljoinStr b v)).1
         let parsed := urlsplitCore [] n2
         let n3 :=
           if parsed.query ≠ [] then
             urlunsplitStr ⟨parsed.scheme, parsed.netloc, parsed.path,
               urlencodeDoseq ((parseQs parsed.query).filter
                 (fun pp => !(isTrackingKey pp.1))), parsed.fragment⟩
           else n2
         if n3.getLast? = some '/' then n3.dropLast else n3) := rfl
  rw [hunf]
  simp only [hjoin, breakAtChar_not_mem hnohash, hq]
  rw [if_neg (show ¬(([] : Str) ≠ []) from by simp), if_neg hslash]

theorem takeNetloc_snd_shape : ∀ l : Str, (takeNetloc l).2 = []
    ∨ ∃ c, ((takeNetloc l).2).head? = some c
      ∧ (c = '/' ∨ c = '?' ∨ c = '#') := by
  intro l
  induction l with
  | nil => exact Or.inl rfl
  | cons a rest ih =>
    rw [takeNetloc]
    split_ifs with h
    · simp only [Bool.or_eq_true, decide_eq_true_eq] at h
      refine Or.inr ⟨a, rfl, ?_⟩
      rcases h with (h | h) | h
      · exact Or.inl h
      · exact Or.inr (Or.inl h)
      · exact Or.inr (Or.inr h)
    · rcases ih with he | ⟨c, hc1, hc2⟩
      · refine Or.inl ?_
        match htn : takeNetloc rest with
        | (n, r) =>
          rw [htn] at he
          exact he
      · refine Or.inr ⟨c, ?_, hc2⟩
        match htn : takeNetloc rest with
        | (n, r) =>
          rw [htn] at hc1
          exact hc1

theorem urlsplitCore_netloc_path_guard {d w : Str}
    (h : (urlsplitCore d w).netloc ≠ []) :
    (urlsplitCore d w).path = []
      ∨ ((urlsplitCore d w).path).head? = some '/' := by
  have hgen : ∀ X : Str, X = [] ∨ (∃ c, X.head? = some c
        ∧ (c = '/' ∨ c = '?' ∨ c = '#')) →
      (breakAtChar '?' (breakAtChar '#' X).1).1 = []
        ∨ ((breakAtChar '?' (breakAtChar '#' X).1).1).head? = some '/' := by
    intro X hX
    rcases hX with rfl | ⟨c, hc1, hc2⟩
    · exact Or.inl rfl
    · match X with
      | [] => simp at hc1
      | x :: xs =>
        rw [List.head?_cons, Option.some_inj] at hc1
        subst hc1
        rcases hc2 with rfl | rfl | rfl
        · rw [breakAtChar_cons_ne (by decide), breakAtChar_cons_ne (by decide)]
          exact Or.inr rfl
        · rw [breakAtChar_cons_ne (by decide), breakAtChar_cons_sep]
          exact Or.inl rfl
        · rw [breakAtChar_cons_sep]
          rw [show breakAtChar '?' ([] : Str) = ([], none) from rfl]
          exact Or.inl rfl
  match hcand : splitSchemeCandidate (stripUnsafe w) with
  | some (s, r) =>
    rw [urlsplitCore_of_cand hcand] at h ⊢
    unfold netlocPart at h ⊢
    split at h
    · rename_i r2
      exact hgen _ (takeNetloc_snd_shape r2)
    · exact absurd rfl h
  | none =>
    rw [urlsplitCore_of_no_cand hcand] at h ⊢
    unfold netlocPart at h ⊢
    split at h
    · rename_i r2 heq
      exact hgen _ (takeNetloc_snd_shape r2)
    · exact absurd rfl h

theorem normalize_shape {b u : Str}
    (hbs : (urlsplitCore [] b).scheme = "http".data
      ∨ (urlsplitCore [] b).scheme = "https".data)
    (hbnl : (urlsplitCore [] b).netloc ≠ [])
    (hb : b ≠ []) (hu : u ≠ []) :
    (∃ s nl p q, schemeOkP s ∧ nl ≠ []
      ∧ (∀ c ∈ nl, okChar c = true ∧ c ≠ '/' ∧ c ≠ '?' ∧ c ≠ '#')
      ∧ (∀ c ∈ p, okChar c = true ∧ c ≠ '?' ∧ c ≠ '#')
      ∧ guardPath p = p
      ∧ (∀ c ∈ q, okChar c = true ∧ c ≠ '#')
      ∧ (q ≠ [] → urlencodeDoseq ((parseQs q).filter
          (fun pp => !(isTrackingKey pp.1))) = q)
      ∧ normalizeUrlL b true u = urlunsplitStr ⟨s, nl, p, q, []⟩)
    ∨ ((∃ s0 r, splitSchemeCandidate
          (stripUnsafe (normalizeUrlL b true u)) = some (s0, r)
        ∧ (s0 ≠ (urlsplitCore [] b).scheme ∨ s0 ∉ usesRelative))
      ∧ ('#' : Char) ∉ normalizeUrlL b true u
      ∧ (urlsplitCore [] (normalizeUrlL b true u)).query = [])
    ∨ (urlsplitCore [] (normalizeUrlL b true u)).netloc = [] := by
  have hsok : schemeOkP (urlsplitCore [] b).scheme := by
    rcases hbs with he | he <;> rw [he]
    · exact schemeOkP_http
    · exact schemeOkP_https
  have hunf : normalizeUrlL b true u
      = (let n2 := (breakAtChar '#' (urljoinStr b u)).1
         let parsed := urlsplitCore [] n2
         let n3 :=
           if parsed.query ≠ [] then
             urlunsplitStr ⟨parsed.scheme, parsed.netloc, parsed.path,
               urlencodeDoseq ((parseQs parsed.query).filter
                 (fun pp => !(isTrackingKey pp.1))), parsed.fragment⟩
           else n2
         if n3.getLast? = some '/' then n3.dropLast else n3) := rfl
  rcases urljoin_shape hbs hbnl hb hu with
    ⟨NL, P, Q, F, hNL, hNLc, hPc, hQc, hje⟩ | ⟨s0, r0, hcand, hcond, hje⟩
  · -- relative join: the result is a serialized URL with the base scheme
    have hnh : ('#' : Char) ∉ urlunsplitStr
        ⟨(urlsplitCore [] b).scheme, NL, P, Q, []⟩ :=
      hash_not_mem_unsplit hNL
        (fun c hc => (isSchemeChar_props (schemeOkP_chars hsok c hc)).2.2.2.1)
        (fun c hc => (hNLc c hc).2.2.2)
        (fun c hc => (hPc c hc).2.2)
        (fun c hc => (hQc c hc).2)
    have hdf : (breakAtChar '#' (urljoinStr b u)).1
        = urlunsplitStr ⟨(urlsplitCore [] b).scheme, NL, P, Q, []⟩ := by
      rw [hje]
      exact defrag_unsplit hNL hnh
    have hpr : urlsplitCore []
        (urlunsplitStr ⟨(urlsplitCore [] b).scheme, NL, P, Q, []⟩)
        = ⟨(urlsplitCore [] b).scheme, NL, guardPath P, Q, []⟩ :=
      urlsplit_urlunsplit hsok hNL hNLc hPc hQc
    have hgPc : ∀ c ∈ guardPath P, okChar c = true ∧ c ≠ '?' ∧ c ≠ '#' := by
      intro c hc
      rcases mem_guardPath hc with hm | rfl
      · exact hPc c hm
      · exact ⟨by decide, by decide, by decide⟩
    refine Or.inl ?_
    by_cases hQ : Q = []
    · subst hQ
      obtain ⟨p2, hp2g, hp2m, hstep⟩ := strip_unsplit_shape
        (s := (urlsplitCore [] b).scheme) (q := []) hNL
        (fun c hc => (hNLc c hc).2.1) (guardPath_idem P)
        (fun h => absurd rfl h)
      refine ⟨(urlsplitCore [] b).scheme, NL, p2, [], hsok, hNL, hNLc,
        fun c hc => hgPc c (hp2m c hc), hp2g,
        fun c hc => absurd hc (List.not_mem_nil c),
        fun h => absurd rfl h, ?_⟩
      have heq1 : normalizeUrlL b true u
          = (if (urlunsplitStr ⟨(urlsplitCore [] b).scheme, NL,
                guardPath P, [], []⟩).getLast? = some '/'
            then (urlunsplitStr ⟨(urlsplitCore [] b).scheme, NL,
                guardPath P, [], []⟩).dropLast
            else urlunsplitStr ⟨(urlsplitCore [] b).scheme, NL,
                guardPath P, [], []⟩) := by
        rw [hunf]
        simp only [hdf, hpr]
        rw [if_neg (show ¬(([] : Str) ≠ []) from by simp),
          urlunsplit_guard hNL]
      exact heq1.trans hstep
    · have hq'c : ∀ c ∈ urlencodeDoseq ((parseQs Q).filter
          (fun pp => !(isTrackingKey pp.1))), okChar c = true ∧ c ≠ '#' :=
        fun c hc => ⟨(urlencodeDoseq_chars hc).2.2.2,
          (urlencodeDoseq_chars hc).1⟩
      by_cases hq'e : urlencodeDoseq ((parseQs Q).filter
          (fun pp => !(isTrackingKey pp.1))) = []
      · obtain ⟨p2, hp2g, hp2m, hstep⟩ := strip_unsplit_shape
          (s := (urlsplitCore [] b).scheme) (p := guardPath P) (q := []) hNL
          (fun c hc => (hNLc c hc).2.1) (guardPath_idem P)
          (fun h => absurd rfl h)
        refine ⟨(urlsplitCore [] b).scheme, NL, p2, [], hsok, hNL, hNLc,
          fun c hc => hgPc c (hp2m c hc), hp2g,
          fun c hc => absurd hc (List.not_mem_nil c),
          fun h => absurd rfl h, ?_⟩
        have heq1 : normalizeUrlL b true u
            = (if (urlunsplitStr ⟨(urlsplitCore [] b).scheme, NL,
                  guardPath P, [], []⟩).getLast? = some '/'
              then (urlunsplitStr ⟨(urlsplitCore [] b).scheme, NL,
                  guardPath P, [], []⟩).dropLast
              else urlunsplitStr ⟨(urlsplitCore [] b).scheme, NL,
                  guardPath P, [], []⟩) := by
          rw [hunf]
          simp only [hdf, hpr]
          rw [if_pos hQ]
          rw [show urlencodeDoseq ((parseQs Q).filter
              (fun pp => !(isTrackingKey pp.1))) = [] from hq'e]
        exact heq1.trans hstep
      · obtain ⟨p2, hp2g, hp2m, hstep⟩ := strip_unsplit_shape
          (s := (urlsplitCore [] b).scheme) (p := guardPath P)
          (q := urlencodeDoseq ((parseQs Q).filter
            (fun pp => !(isTrackingKey pp.1)))) hNL
          (fun c hc => (hNLc c hc).2.1) (guardPath_idem P)
          (fun _ hlq => by
            have hmem := List.mem_of_mem_getLast? hlq
            exact (urlencodeDoseq_chars hmem).2.1 rfl)
        refine ⟨(urlsplitCore [] b).scheme, NL, p2,
          urlencodeDoseq ((parseQs Q).filter
            (fun pp => !(isTrackingKey pp.1))), hsok, hNL, hNLc,
          fun c hc => hgPc c (hp2m c hc), hp2g, hq'c,
          fun _ => urlencode_filter_fix Q, ?_⟩
        have heq1 : normalizeUrlL b true u
            = (if (urlunsplitStr ⟨(urlsplitCore [] b).scheme, NL,
                  guardPath P, urlencodeDoseq ((parseQs Q).filter
                    (fun pp => !(isTrackingKey pp.1))), []⟩).getLast?
                  = some '/'
              then (urlunsplitStr ⟨(urlsplitCore [] b).scheme, NL,
                  guardPath P, urlencodeDoseq ((parseQs Q).filter
                    (fun pp => !(isTrackingKey pp.1))), []⟩).dropLast
              else urlunsplitStr ⟨(urlsplitCore [] b).scheme, NL,
                  guardPath P, urlencodeDoseq ((parseQs Q).filter
                    (fun pp => !(isTrackingKey pp.1))), []⟩) := by
          rw [hunf]
          simp only [hdf, hpr]
          rw [if_pos hQ]
        exact heq1.trans hstep
  · -- foreign scheme: the join returns the URL unchanged
    have hnh2 : ('#' : Char) ∉ (breakAtChar '#' u).1 :=
      breakAtChar_fst_not_sep
    have hcand2 : splitSchemeCandidate (stripUnsafe ((breakAtChar '#' u).1))
        = some (s0, (breakAtChar '#' r0).1) := cand_defrag hcand
    have hnh2s : ('#' : Char) ∉ stripUnsafe ((breakAtChar '#' u).1) :=
      fun hm => hnh2 (mem_stripUnsafe hm).1
    by_cases hQ2 : (urlsplitCore [] ((breakAtChar '#' u).1)).query = []
    · refine Or.inr (Or.inl ?_)
      have heqv : normalizeUrlL b true u
          = (if ((breakAtChar '#' u).1).getLast? = some '/'
            then ((breakAtChar '#' u).1).dropLast
            else (breakAtChar '#' u).1) := by
        rw [hunf]
        simp only [hje, hQ2]
        rw [if_neg (show ¬(([] : Str) ≠ []) from by simp)]
      by_cases hlast : ((breakAtChar '#' u).1).getLast? = some '/'
      · rw [if_pos hlast] at heqv
        have hsv : stripUnsafe (((breakAtChar '#' u).1).dropLast)
            = (stripUnsafe ((breakAtChar '#' u).1)).dropLast :=
          stripUnsafe_dropLast hlast (by decide)
        have hslast : (stripUnsafe ((breakAtChar '#' u).1)).getLast?
            = some '/' := stripUnsafe_getLast hlast (by decide)
        refine ⟨⟨s0, ((breakAtChar '#' r0).1).dropLast, ?_, hcond⟩, ?_, ?_⟩
        · rw [heqv, hsv]
          exact cand_dropLast hcand2 hslast
        · rw [heqv]
          intro hm
          exact hnh2 ((List.dropLast_sublist _).subset hm)
        · rw [heqv]
          apply urlsplitCore_query_nil
          have hqm : ('?' : Char) ∉ stripUnsafe ((breakAtChar '#' u).1) :=
            no_qmark_of_query_nil hQ2 hnh2s (by
              rw [hslast]
              intro hcc
              exact absurd (Option.some_inj.mp hcc) (by decide))
          rw [hsv]
          intro hm
          exact hqm ((List.dropLast_sublist _).subset hm)
      · rw [if_neg hlast] at heqv
        refine ⟨⟨s0, (breakAtChar '#' r0).1, ?_, hcond⟩, ?_, ?_⟩
        · rw [heqv]
          exact hcand2
        · rw [heqv]
          exact hnh2
        · rw [heqv]
          exact hQ2
    · have hs0 : (urlsplitCore [] ((breakAtChar '#' u).1)).scheme = s0 := by
        rw [urlsplitCore_of_cand hcand2]
      have hfB : (urlsplitCore [] ((breakAtChar '#' u).1)).fragment = [] :=
        urlsplitCore_fragment_nil hnh2s
      have hs0ok : schemeOkP s0 := by
        obtain ⟨pre, _, _, hsp⟩ := splitSchemeCandidate_some_shape hcand2
        exact hsp
      have heqv : normalizeUrlL b true u
          = (if (urlunsplitStr ⟨s0,
                (urlsplitCore [] ((breakAtChar '#' u).1)).netloc,
                (urlsplitCore [] ((breakAtChar '#' u).1)).path,
                urlencodeDoseq ((parseQs
                  (urlsplitCore [] ((breakAtChar '#' u).1)).query).filter
                  (fun pp => !(isTrackingKey pp.1))), []⟩).getLast?
              = some '/'
            then (urlunsplitStr ⟨s0,
                (urlsplitCore [] ((breakAtChar '#' u).1)).netloc,
                (urlsplitCore [] ((breakAtChar '#' u).1)).path,
                urlencodeDoseq ((parseQs
                  (urlsplitCore [] ((breakAtChar '#' u).1)).query).filter
                  (fun pp => !(isTrackingKey pp.1))), []⟩).dropLast
            else urlunsplitStr ⟨s0,
                (urlsplitCore [] ((breakAtChar '#' u).1)).netloc,
                (urlsplitCore [] ((breakAtChar '#' u).1)).path,
                urlencodeDoseq ((parseQs
                  (urlsplitCore [] ((breakAtChar '#' u).1)).query).filter
                  (fun pp => !(isTrackingKey pp.1))), []⟩) := by
        rw [hunf]
        simp only [hje]
        rw [if_pos hQ2, hfB, hs0]
      by_cases hnlB : (urlsplitCore [] ((breakAtChar '#' u).1)).netloc = []
      · refine Or.inr (Or.inr ?_)
        rw [heqv, hnlB]
        exact parse_strip_unsplit_empty hs0ok
          (urlsplitCore_path_chars _ _)
          (fun c hc => ⟨(urlencodeDoseq_chars hc).2.2.2,
            (urlencodeDoseq_chars hc).1⟩)
      · refine Or.inl ?_
        have hpg : guardPath
            (urlsplitCore [] ((breakAtChar '#' u).1)).path
            = (urlsplitCore [] ((breakAtChar '#' u).1)).path :=
          guardPath_eq_self (urlsplitCore_netloc_path_guard hnlB)
        obtain ⟨p2, hp2g, hp2m, hstep⟩ := strip_unsplit_shape
          (s := s0)
          (p := (urlsplitCore [] ((breakAtChar '#' u).1)).path)
          (q := urlencodeDoseq ((parseQs
            (urlsplitCore [] ((breakAtChar '#' u).1)).query).filter
            (fun pp => !(isTrackingKey pp.1))))
          hnlB
          (fun c hc => (urlsplitCore_netloc_chars _ _ c hc).2.1) hpg
          (fun _ hlq => by
            have hmem := List.mem_of_mem_getLast? hlq
            exact (urlencodeDoseq_chars hmem).2.1 rfl)
        refine ⟨s0, (urlsplitCore [] ((breakAtChar '#' u).1)).netloc, p2,
          urlencodeDoseq ((parseQs
            (urlsplitCore [] ((breakAtChar '#' u).1)).query).filter
            (fun pp => !(isTrackingKey pp.1))),
          hs0ok, hnlB, urlsplitCore_netloc_chars _ _,
          fun c hc => urlsplitCore_path_chars _ _ c (hp2m c hc), hp2g,
          fun c hc => ⟨(urlencodeDoseq_chars hc).2.2.2,
            (urlencodeDoseq_chars hc).1⟩,
          fun _ => urlencode_filter_fix _, heqv.trans hstep⟩

theorem shouldCrawlL_netloc {b u : Str} (h : shouldCrawlL b true u = true) :
    u ≠ [] ∧ (urlsplitCore [] (normalizeUrlL b true u)).netloc
      = (urlsplitCore [] b).netloc := by
  by_cases hu : u = []
  · subst hu
    rw [shouldCrawlL, if_pos rfl] at h
    exact absurd h (by decide)
  · refine ⟨hu, ?_⟩
    by_cases hnl : (urlsplitCore [] (normalizeUrlL b true u)).netloc
        = (urlsplitCore [] b).netloc
    · exact hnl
    · exfalso
      rw [shouldCrawlL, if_neg hu] at h
      have h2 : (if (urlsplitCore [] (normalizeUrlL b true u)).netloc
            ≠ (urlsplitCore [] b).netloc then false
          else if staticExtensions.any (fun ext => listEndsWith ext
              (lowerStr (urlparsePath
                (urlsplitCore [] (normalizeUrlL b true u)))))
            then false
          else if listStartsWith "mailto:".data (normalizeUrlL b true u)
            then false
          else if listStartsWith "tel:".data (normalizeUrlL b true u)
            then false
          else if excludeRegexSearch
              (urlparsePath (urlsplitCore [] (normalizeUrlL b true u)))
            then false
          else true) = true := h
      rw [if_pos hnl] at h2
      exact absurd h2 (by decide)

/-- C3 (amended): `normalize_url` is idempotent on every URL admitted by
`should_crawl` whose normalized form does not end in a slash (the seed having
an `http`/`https` scheme and a nonempty domain); the trailing-slash strip
removes only one of several trailing slashes, which is the sole source of
non-idempotence, exhibited separately on a double-slash counterexample. -/
theorem c3_amended_normalize_idempotent (baseUrl url : String)
    (hscheme : (urlsplitCore [] baseUrl.data).scheme = "http".data
      ∨ (urlsplitCore [] baseUrl.data).scheme = "https".data)
    (hnetloc : (urlsplitCore [] baseUrl.data).netloc ≠ [])
    (hadm : shouldCrawl baseUrl url = true)
    (hslash : (normalizeUrl baseUrl url).data.getLast? ≠ some '/') :
    normalizeUrl baseUrl (normalizeUrl baseUrl url)
      = normalizeUrl baseUrl url := by
  have hb : baseUrl.data ≠ [] := by
    intro hbe
    rw [hbe, urlsplitCore_nil] at hnetloc
    exact hnetloc rfl
  obtain ⟨hu, hveq⟩ := shouldCrawlL_netloc
    (show shouldCrawlL baseUrl.data true url.data = true from hadm)
  have hslash2 : (normalizeUrlL baseUrl.data true url.data).getLast?
      ≠ some '/' := hslash
  refine congrArg (fun l : Str => (⟨l⟩ : String)) ?_
  show normalizeUrlL baseUrl.data true
      (normalizeUrlL baseUrl.data true url.data)
    = normalizeUrlL baseUrl.data true url.data
  rcases normalize_shape hscheme hnetloc hb hu with
    ⟨s, nl, p, q, hsok, hnl, hnlc, hpc, hpg, hqc, hqfix, heq⟩
    | ⟨hcand, hnh, hq⟩ | hnetnil
  · rw [heq]
    rw [heq] at hslash2
    exact normalize_fixed_point hscheme hb hsok hnl hnlc hpc hpg hqc hqfix
      hslash2
  · have hvne : normalizeUrlL baseUrl.data true url.data ≠ [] := by
      intro hve
      rw [hve, urlsplitCore_nil] at hveq
      exact hnetloc hveq.symm
    exact normalize_fixed_point_residual hb hvne hcand hnh hq hslash2
  · exact absurd (hveq.symm.trans hnetnil) hnetloc

/-- C3 (witness): the amended idempotence applied to a URL from the
repository's test suite whose normalization strips one trailing slash. -/
theorem c3_amended_normalize_idempotent_witness :
    shouldCrawl "https://example.com" "https://example.com/page/" = true
    ∧ (normalizeUrl "https://example.com"
        "https://example.com/page/").data.getLast? ≠ some '/'
    ∧ normalizeUrl "https://example.com"
        (normalizeUrl "https://example.com" "https://example.com/page/")
      = normalizeUrl "https://example.com" "https://example.com/page/" :=
  ⟨by decide, by decide,
    c3_amended_normalize_idempotent "https://example.com"
      "https://example.com/page/" (Or.inr (by decide)) (by decide)
      (by decide) (by decide)⟩
